import Mathlib

/-!
Verification of the JARVIS orchestration core against its specification.

This file shallowly embeds the relevant parts of the source tree
(src/tools/registry.py, src/tools/authority.py, src/tools/executor.py,
src/core/circuit_breaker.py, src/core/degradation.py, src/infra/audit.py,
src/infra/database.py, src/memory/governance.py) as executable Lean
definitions and proves or refutes the frozen claims about them.

Conventions:
* Python dicts of arguments are embedded as association lists in insertion
  order; lookup takes the first binding.
* Python `datetime` instants are embedded as integers (seconds); float
  durations as rationals.
* Python runtime values carry their dynamic type: `PyVal` below, with
  `bool` a subtype of `int` exactly as in CPython (isinstance(True, int)).
-/

namespace Jarvis

/-- Embedded Python runtime values as they can appear as tool arguments.
`vBool` is kept distinct from `vInt` but participates in integer
`isinstance` checks, numeric comparison and numeric equality, mirroring
CPython where `bool` is a subclass of `int`. Floats are embedded as
rationals (all numeric literals in the repository are exact). -/
inductive PyVal : Type
  | vStr (s : String)
  | vInt (n : Int)
  | vBool (b : Bool)
  | vFloat (q : Rat)
  | vList (l : List String)
  | vDict (d : List (String × String))
  deriving DecidableEq, Repr

/-- Numeric value of a PyVal, if it is numeric (int, bool or float);
`True == 1` and `False == 0` as in Python. -/
def PyVal.toNum : PyVal → Option Rat
  | .vInt n => some (n : Rat)
  | .vBool b => some (if b then 1 else 0)
  | .vFloat q => some q
  | _ => none

/-- Python `==` restricted to the value shapes that occur as tool
arguments: numerics compare by value across int/bool/float, strings by
content, and values of unrelated kinds are unequal. -/
def pyEq (a b : PyVal) : Bool :=
  match a.toNum, b.toNum with
  | some x, some y => x == y
  | _, _ =>
    match a, b with
    | .vStr s, .vStr t => s == t
    | .vList l, .vList m => l == m
    | .vDict d, .vDict e => d == e
    | _, _ => false

/-- Parameter types, from ParameterType in src/tools/registry.py. -/
inductive ParameterType : Type
  | string | integer | number | boolean | array | object
  deriving DecidableEq, Repr

/-- Permission levels, from PermissionLevel in src/tools/registry.py. -/
inductive PermissionLevel : Type
  | READ | WRITE | EXECUTE | NETWORK | ADMIN
  deriving DecidableEq, Repr

/-- String value of a permission level (PermissionLevel is a str Enum). -/
def PermissionLevel.value : PermissionLevel → String
  | .READ => "read"
  | .WRITE => "write"
  | .EXECUTE => "execute"
  | .NETWORK => "network"
  | .ADMIN => "admin"

/-- Tool parameter definition, from ToolParameter in src/tools/registry.py.
The `pattern` field is carried verbatim (a regex source string). -/
structure ToolParameter : Type where
  name : String
  type : ParameterType
  description : String := ""
  required : Bool := true
  default : Option PyVal := none
  enum : Option (List PyVal) := none
  min_value : Option Rat := none
  max_value : Option Rat := none
  pattern : Option String := none
  deriving DecidableEq, Repr

/-- Tool schema: the ordered parameter list (ToolSchema in the source). -/
structure ToolSchema : Type where
  parameters : List ToolParameter := []
  deriving DecidableEq, Repr

/-- Tool definition from src/tools/registry.py, minus the Python callable
(`executor`), which is embedded separately as a behaviour map where the
executor pipeline needs it. -/
structure Tool : Type where
  name : String
  description : String := ""
  schema : ToolSchema := {}
  permission : PermissionLevel := .READ
  category : String := "general"
  timeout_seconds : Rat := 30
  requires_confirmation : Bool := false
  deriving DecidableEq, Repr

/-- Argument maps: Python dicts in insertion order with unique keys. -/
abbrev Args := List (String × PyVal)

/-- Dict membership test (`name in args`). -/
def argsHas (args : Args) (k : String) : Bool :=
  args.any (fun p => p.1 == k)

/-- Dict lookup (`args[name]`). -/
def argsGet (args : Args) (k : String) : Option PyVal :=
  (args.find? (fun p => p.1 == k)).map Prod.snd

/-- Tool._validate_type: an isinstance test against the mapped Python
type; `bool` passes the `int` and `(int, float)` tests because it is a
subclass of `int` in Python. -/
def Tool.validate_type (v : PyVal) (expected : ParameterType) : Bool :=
  match expected with
  | .string => match v with | .vStr _ => true | _ => false
  | .integer => match v with | .vInt _ => true | .vBool _ => true | _ => false
  | .number =>
    match v with
    | .vInt _ => true | .vBool _ => true | .vFloat _ => true | _ => false
  | .boolean => match v with | .vBool _ => true | _ => false
  | .array => match v with | .vList _ => true | _ => false
  | .object => match v with | .vDict _ => true | _ => false

/-- First loop of Tool.validate_args: every schema-required parameter name
must be present in the argument dict. Returns the first error message. -/
def checkRequired (ps : List ToolParameter) (args : Args) : Option String :=
  match ps with
  | [] => none
  | p :: rest =>
    if p.required && !(argsHas args p.name) then
      some ("Missing required parameter: " ++ p.name)
    else checkRequired rest args

/-- Python truthiness test `if param.enum and value not in param.enum`:
true exactly when the enum list is present, non-empty and the value is
not `==`-equal to any member. -/
def enumRejects (p : ToolParameter) (v : PyVal) : Bool :=
  match p.enum with
  | some (e :: es) => !((e :: es).any (fun w => pyEq v w))
  | _ => false

/-- The `value < param.min_value` test of validate_args (false when no
minimum is declared). -/
def belowMin (p : ToolParameter) (x : Rat) : Bool :=
  match p.min_value with
  | some lo => decide (x < lo)
  | none => false

/-- The `value > param.max_value` test of validate_args (false when no
maximum is declared). -/
def aboveMax (p : ToolParameter) (x : Rat) : Bool :=
  match p.max_value with
  | some hi => decide (hi < x)
  | none => false

/-- The `param.type in (INTEGER, NUMBER)` test of validate_args. -/
def isNumericType (t : ParameterType) : Bool :=
  t == ParameterType.integer || t == ParameterType.number

/-- Per-parameter checks of Tool.validate_args for one parameter that is
present in the argument dict: type, enum (skipped when the enum list is
absent or empty, Python truthiness), and numeric range for
integer/number parameters. -/
def checkOneParam (p : ToolParameter) (v : PyVal) : Option String :=
  if !(Tool.validate_type v p.type) then
    some ("Invalid type for " ++ p.name)
  else if enumRejects p v then
    some ("Invalid value for " ++ p.name)
  else if isNumericType p.type then
    match v.toNum with
    | some x =>
      if belowMin p x then some (p.name ++ " out of range (min)")
      else if aboveMax p x then some (p.name ++ " out of range (max)")
      else none
    | none => none
  else none

/-- Second loop of Tool.validate_args: walk the schema parameters in
order; a missing required parameter errors, a missing optional one is
skipped, a present one runs the per-parameter checks. -/
def checkParams (ps : List ToolParameter) (args : Args) : Option String :=
  match ps with
  | [] => none
  | p :: rest =>
    match argsGet args p.name with
    | none =>
      if p.required then some ("Missing required parameter: " ++ p.name)
      else checkParams rest args
    | some v =>
      match checkOneParam p v with
      | some e => some e
      | none => checkParams rest args

/-- Third loop of Tool.validate_args: every argument name must be a
declared parameter name (closed world). -/
def checkUnknown (args : Args) (ps : List ToolParameter) : Option String :=
  match args with
  | [] => none
  | (k, _) :: rest =>
    if !(ps.any (fun p => p.name == k)) then some ("Unknown parameter: " ++ k)
    else checkUnknown rest ps

/-- Tool.validate_args from src/tools/registry.py: required check, then
per-parameter type/enum/range checks, then unknown-name rejection.
Note the source never consults `pattern`. Returns (is_valid, error). -/
def Tool.validate_args (t : Tool) (args : Args) : Bool × Option String :=
  match checkRequired t.schema.parameters args with
  | some e => (false, some e)
  | none =>
    match checkParams t.schema.parameters args with
    | some e => (false, some e)
    | none =>
      match checkUnknown args t.schema.parameters with
      | some e => (false, some e)
      | none => (true, none)

/-- Tool registry: name-keyed map, embedded as the registration list. -/
structure ToolRegistry : Type where
  tools : List Tool := []
  deriving Repr

/-- ToolRegistry.get: lookup by name. -/
def ToolRegistry.get (r : ToolRegistry) (name : String) : Option Tool :=
  r.tools.find? (fun t => t.name == name)

/-- ToolRegistry.validate_tool_call from src/tools/registry.py. -/
def ToolRegistry.validate_tool_call (r : ToolRegistry) (name : String)
    (args : Args) : Bool × Option String :=
  match r.get name with
  | none => (false, some ("Unknown tool: " ++ name))
  | some t => t.validate_args args

/-- The `get_current_time` tool of create_default_tools. -/
def getCurrentTimeTool : Tool :=
  { name := "get_current_time"
    description := "Get the current system time"
    schema := { parameters := [
      { name := "timezone", type := .string
        description := "Timezone (e.g., UTC, America/New_York)"
        required := false, default := some (.vStr "local") }] }
    permission := .READ, category := "system" }

/-- The `get_current_date` tool of create_default_tools. -/
def getCurrentDateTool : Tool :=
  { name := "get_current_date"
    description := "Get the current date"
    schema := { parameters := [
      { name := "format", type := .string
        description := "Date format (e.g., short, long, iso)"
        required := false, default := some (.vStr "long")
        enum := some [.vStr "short", .vStr "long", .vStr "iso"] }] }
    permission := .READ, category := "system" }

/-- The `web_search` tool of create_default_tools. -/
def webSearchTool : Tool :=
  { name := "web_search"
    description := "Search the web for information"
    schema := { parameters := [
      { name := "query", type := .string
        description := "Search query", required := true },
      { name := "num_results", type := .integer
        description := "Number of results to return"
        required := false, default := some (.vInt 5)
        min_value := some 1, max_value := some 20 }] }
    permission := .NETWORK, category := "web" }

/-- The `open_application` tool of create_default_tools. -/
def openApplicationTool : Tool :=
  { name := "open_application"
    description := "Open an application on the system"
    schema := { parameters := [
      { name := "app_name", type := .string
        description := "Name of the application to open"
        required := true
        enum := some [.vStr "Safari", .vStr "Chrome", .vStr "Firefox",
          .vStr "Terminal", .vStr "Finder", .vStr "Spotify", .vStr "Notes",
          .vStr "Calendar", .vStr "Calculator", .vStr "TextEdit"] }] }
    permission := .EXECUTE, category := "system" }

/-- The `set_volume` tool of create_default_tools: one required integer
parameter `level` with range 0..100. -/
def setVolumeTool : Tool :=
  { name := "set_volume"
    description := "Set the system volume level"
    schema := { parameters := [
      { name := "level", type := .integer
        description := "Volume level (0-100)"
        required := true, min_value := some 0, max_value := some 100 }] }
    permission := .EXECUTE, category := "system" }

/-- The `read_file` tool of create_default_tools. -/
def readFileTool : Tool :=
  { name := "read_file"
    description := "Read contents of a file"
    schema := { parameters := [
      { name := "path", type := .string
        description := "Path to the file (must be in allowed directories)"
        required := true },
      { name := "max_lines", type := .integer
        description := "Maximum lines to read"
        required := false, default := some (.vInt 100)
        min_value := some 1, max_value := some 1000 }] }
    permission := .READ, category := "filesystem" }

/-- The `list_directory` tool of create_default_tools. -/
def listDirectoryTool : Tool :=
  { name := "list_directory"
    description := "List files in a directory"
    schema := { parameters := [
      { name := "path", type := .string
        description := "Directory path"
        required := false, default := some (.vStr ".") },
      { name := "show_hidden", type := .boolean
        description := "Show hidden files"
        required := false, default := some (.vBool false) }] }
    permission := .READ, category := "filesystem" }

/-- The `take_screenshot` tool of create_default_tools. -/
def takeScreenshotTool : Tool :=
  { name := "take_screenshot"
    description := "Capture a screenshot of the screen"
    schema := { parameters := [
      { name := "region", type := .string
        description := "Screen region: full or x,y,width,height"
        required := false, default := some (.vStr "full") }] }
    permission := .READ, category := "multimodal" }

/-- The `schedule_task` tool of create_default_tools. -/
def scheduleTaskTool : Tool :=
  { name := "schedule_task"
    description := "Schedule a task to run at a specific time or interval"
    schema := { parameters := [
      { name := "name", type := .string
        description := "Name of the scheduled task", required := true },
      { name := "action", type := .string
        description := "Command to execute when triggered", required := true },
      { name := "type", type := .string
        description := "Schedule type: time or interval"
        required := true, enum := some [.vStr "time", .vStr "interval"] },
      { name := "hour", type := .integer
        description := "Hour to execute (0-23) for time-based"
        required := false, min_value := some 0, max_value := some 23 },
      { name := "minute", type := .integer
        description := "Minute to execute (0-59)"
        required := false, default := some (.vInt 0)
        min_value := some 0, max_value := some 59 },
      { name := "interval_seconds", type := .integer
        description := "Interval in seconds for interval-based"
        required := false, min_value := some 10, max_value := some 86400 }] }
    permission := .EXECUTE, category := "automation" }

/-- The `list_scheduled_tasks` tool of create_default_tools. -/
def listScheduledTasksTool : Tool :=
  { name := "list_scheduled_tasks"
    description := "List all scheduled tasks"
    schema := { parameters := [] }
    permission := .READ, category := "automation" }

/-- create_default_tools from src/tools/registry.py: the registry holding
the ten default system tools in registration order. -/
def create_default_tools : ToolRegistry :=
  { tools := [getCurrentTimeTool, getCurrentDateTool, webSearchTool,
      openApplicationTool, setVolumeTool, readFileTool, listDirectoryTool,
      takeScreenshotTool, scheduleTaskTool, listScheduledTasksTool] }

/-! Tool authority, from src/tools/authority.py. Timestamps are embedded
as integers (seconds). -/

/-- Grant check status, from GrantStatus in src/tools/authority.py. -/
inductive GrantStatus : Type
  | GRANTED | DENIED_NO_GRANT | DENIED_EXPIRED | DENIED_REVOKED
  | DENIED_LEVEL_MISMATCH | REQUIRES_CONFIRMATION
  deriving DecidableEq, Repr

/-- A permission grant, from PermissionGrant in src/tools/authority.py.
`source` is the literal Python string ("default", "user" or "session"). -/
structure PermissionGrant : Type where
  target : String
  level : PermissionLevel
  granted_at : Int := 0
  expires_at : Option Int := none
  one_time : Bool := false
  revoked : Bool := false
  source : String := "default"
  deriving DecidableEq, Repr

/-- PermissionGrant.is_valid: not revoked, and not past a declared
expiry (`datetime.now() > expires_at` embeds as `expires_at < now`). -/
def PermissionGrant.is_valid (g : PermissionGrant) (now : Int) : Bool :=
  if g.revoked then false
  else match g.expires_at with
    | some e => !(decide (e < now))
    | none => true

/-- PermissionGrant.matches: direct tool-name match, or category match of
the grant target against the required level's string value. -/
def PermissionGrant.matches (g : PermissionGrant) (tool_name : String)
    (required_level : PermissionLevel) : Bool :=
  g.target == tool_name || g.target == required_level.value

/-- An authority decision, from AuthorityDecision in
src/tools/authority.py (timestamp omitted; it is never read). -/
structure AuthorityDecision : Type where
  status : GrantStatus
  tool_name : String
  required_level : PermissionLevel
  grant_used : Option PermissionGrant := none
  reason : String := ""
  turn_id : Option String := none
  deriving DecidableEq, Repr

/-- AuthorityDecision.allowed. -/
def AuthorityDecision.allowed (d : AuthorityDecision) : Bool :=
  d.status == GrantStatus.GRANTED

/-- AuthorityDecision.needs_confirmation. -/
def AuthorityDecision.needs_confirmation (d : AuthorityDecision) : Bool :=
  d.status == GrantStatus.REQUIRES_CONFIRMATION

/-- Audit event types, from EventType in src/infra/audit.py. -/
inductive EventType : Type
  | TURN_START | TURN_END | PLAN_CREATED | AUTHORITY_CHECK
  | CONFIRM_REQUEST | CONFIRM_RESPONSE | TOOL_EXECUTE
  | MEMORY_DELETE | MEMORY_REDACT | GRANT_CREATED | GRANT_REVOKED
  deriving DecidableEq, Repr

/-- Audit actors, from Actor in src/infra/audit.py. -/
inductive Actor : Type
  | user | planner | authority | executor | governor | system
  deriving DecidableEq, Repr

/-- One call to the audit_event convenience function: the arguments the
caller passes to the audit log (details elided to a tag string). -/
structure AuditCall : Type where
  event_type : EventType
  actor : Actor
  action : String
  turn_id : String
  target : Option String := none
  deriving DecidableEq, Repr

/-- Tool authority state, from ToolAuthority in src/tools/authority.py:
persistent/default grants and session grants (dicts keyed by target, in
insertion order), the confirmation-required level set and the
always-blocked level set. -/
structure ToolAuthority : Type where
  grants : List PermissionGrant := []
  session_grants : List PermissionGrant := []
  confirmation_required : List PermissionLevel := []
  always_blocked : List PermissionLevel := []
  deriving DecidableEq, Repr

/-- The hardcoded default configuration, from
ToolAuthority._load_default_config. -/
def defaultAuthority : ToolAuthority :=
  { grants := [
      { target := "get_current_time", level := .READ, source := "default" },
      { target := "get_current_date", level := .READ, source := "default" },
      { target := "list_scheduled_tasks", level := .READ, source := "default" },
      { target := "list_directory", level := .READ, source := "default" }]
    session_grants := []
    confirmation_required := [.WRITE, .EXECUTE, .NETWORK, .ADMIN]
    always_blocked := [.ADMIN] }

/-- ToolAuthority._find_grant: session grants first, then
default/persistent grants; returns the grant even if revoked or
expired. -/
def ToolAuthority.find_grant (a : ToolAuthority) (tool_name : String)
    (required_level : PermissionLevel) : Option PermissionGrant :=
  match a.session_grants.find? (fun g => g.matches tool_name required_level) with
  | some g => some g
  | none => a.grants.find? (fun g => g.matches tool_name required_level)

/-- Python dict assignment keyed by grant target: replace the existing
entry in place, else append. -/
def dictSetGrant (gs : List PermissionGrant) (g : PermissionGrant) :
    List PermissionGrant :=
  if gs.any (fun h => h.target == g.target) then
    gs.map (fun h => if h.target == g.target then g else h)
  else gs ++ [g]

/-- ToolAuthority.revoke: mark the grant with the given target revoked in
both the session and the persistent dict. -/
def ToolAuthority.revoke (a : ToolAuthority) (target : String) : ToolAuthority :=
  { a with
    session_grants := a.session_grants.map
      (fun g => if g.target == target then { g with revoked := true } else g)
    grants := a.grants.map
      (fun g => if g.target == target then { g with revoked := true } else g) }

/-- ToolAuthority.grant: create a new grant; session grants are stored
separately from persistent grants. -/
def ToolAuthority.grant (a : ToolAuthority) (target : String)
    (level : PermissionLevel) (now : Int)
    (expires_in_seconds : Option Int := none) (one_time : Bool := false)
    (source : String := "user") : ToolAuthority × PermissionGrant :=
  let g : PermissionGrant :=
    { target := target, level := level, granted_at := now
      expires_at := expires_in_seconds.map (fun d => now + d)
      one_time := one_time, revoked := false, source := source }
  if source == "session" then
    ({ a with session_grants := dictSetGrant a.session_grants g }, g)
  else
    ({ a with grants := dictSetGrant a.grants g }, g)

/-- The audit side effect of ToolAuthority._log_decision: one
AUTHORITY_CHECK event when a turn id is present, none otherwise. -/
def logDecision (d : AuthorityDecision) : List AuditCall :=
  match d.turn_id with
  | some tid => [{ event_type := .AUTHORITY_CHECK, actor := .authority
                   action := "", turn_id := tid, target := some d.tool_name }]
  | none => []

/-- ToolAuthority.check from src/tools/authority.py: always-blocked
levels first, then grant lookup, then revocation, expiry and
confirmation checks; one-time grants are revoked on successful use.
Returns the decision, the updated authority and the audit calls. -/
def ToolAuthority.check (a : ToolAuthority) (tool_name : String)
    (required_level : PermissionLevel) (now : Int)
    (turn_id : Option String := none) :
    AuthorityDecision × ToolAuthority × List AuditCall :=
  if a.always_blocked.contains required_level then
    let d : AuthorityDecision :=
      { status := .DENIED_NO_GRANT, tool_name := tool_name
        required_level := required_level
        reason := "Permission level " ++ required_level.value ++ " is always blocked"
        turn_id := turn_id }
    (d, a, logDecision d)
  else
    match a.find_grant tool_name required_level with
    | none =>
      if a.confirmation_required.contains required_level then
        let d : AuthorityDecision :=
          { status := .REQUIRES_CONFIRMATION, tool_name := tool_name
            required_level := required_level
            reason := "Tool requires user confirmation", turn_id := turn_id }
        (d, a, logDecision d)
      else
        let d : AuthorityDecision :=
          { status := .DENIED_NO_GRANT, tool_name := tool_name
            required_level := required_level
            reason := "No grant found for " ++ tool_name, turn_id := turn_id }
        (d, a, logDecision d)
    | some g =>
      if g.revoked then
        let d : AuthorityDecision :=
          { status := .DENIED_REVOKED, tool_name := tool_name
            required_level := required_level, grant_used := some g
            reason := "Grant has been revoked", turn_id := turn_id }
        (d, a, logDecision d)
      else if !(g.is_valid now) then
        let d : AuthorityDecision :=
          { status := .DENIED_EXPIRED, tool_name := tool_name
            required_level := required_level, grant_used := some g
            reason := "Grant has expired", turn_id := turn_id }
        (d, a, logDecision d)
      else if a.confirmation_required.contains required_level &&
          g.source == "default" then
        let d : AuthorityDecision :=
          { status := .REQUIRES_CONFIRMATION, tool_name := tool_name
            required_level := required_level, grant_used := some g
            reason := "Tool requires user confirmation despite default grant"
            turn_id := turn_id }
        (d, a, logDecision d)
      else
        let d : AuthorityDecision :=
          { status := .GRANTED, tool_name := tool_name
            required_level := required_level, grant_used := some g
            reason := "Authorized", turn_id := turn_id }
        (d, if g.one_time then a.revoke g.target else a, logDecision d)

/-- An authority whose persistent dict holds a revoked default grant for
the tool "wipe_disk" at ADMIN level, under the default configuration
(where ADMIN is always blocked). -/
def revokedAdminAuthority : ToolAuthority :=
  { defaultAuthority with grants := defaultAuthority.grants ++
      [{ target := "wipe_disk", level := .ADMIN, revoked := true
         source := "default" }] }

/-- An authority whose persistent dict holds a revoked default grant for
the tool "save_note" at WRITE level, under the default configuration. -/
def revokedWriteAuthority : ToolAuthority :=
  { defaultAuthority with grants := defaultAuthority.grants ++
      [{ target := "save_note", level := .WRITE, revoked := true
         source := "default" }] }

/-! Circuit breaker, from src/core/circuit_breaker.py. Wall-clock
instants and durations are embedded as integers (seconds). -/

/-- Circuit breaker states, from CircuitState. -/
inductive CircuitState : Type
  | CLOSED | OPEN | HALF_OPEN
  deriving DecidableEq, Repr

/-- Circuit breaker state, from the CircuitBreaker dataclass. `stateF`
embeds the private `_state` field (the raw stored state, as opposed to
the `state` property which may transition on read). -/
structure CircuitBreaker : Type where
  name : String
  failure_threshold : Nat := 5
  recovery_timeout : Int := 30
  success_threshold : Nat := 2
  stateF : CircuitState := .CLOSED
  failure_count : Nat := 0
  success_count : Nat := 0
  last_failure_time : Option Int := none
  deriving DecidableEq, Repr

/-- CircuitBreaker._should_attempt_recovery: true when no failure has
been recorded or the recovery timeout has elapsed since the last one. -/
def CircuitBreaker.should_attempt_recovery (cb : CircuitBreaker)
    (now : Int) : Bool :=
  match cb.last_failure_time with
  | none => true
  | some t => decide (cb.recovery_timeout ≤ now - t)

/-- CircuitBreaker._get_remaining_timeout: seconds remaining before a
recovery attempt, clamped at zero. -/
def CircuitBreaker.get_remaining_timeout (cb : CircuitBreaker)
    (now : Int) : Int :=
  match cb.last_failure_time with
  | none => 0
  | some t => max 0 (cb.recovery_timeout - (now - t))

/-- The `state` property: reading the state of an OPEN breaker whose
recovery timeout has elapsed transitions it to HALF_OPEN and resets the
success count; otherwise the stored state is returned unchanged. -/
def CircuitBreaker.state (cb : CircuitBreaker) (now : Int) :
    CircuitState × CircuitBreaker :=
  if cb.stateF = .OPEN ∧ cb.should_attempt_recovery now then
    (.HALF_OPEN, { cb with stateF := .HALF_OPEN, success_count := 0 })
  else (cb.stateF, cb)

/-- CircuitBreaker.record_success: in HALF_OPEN successes count up and
close the circuit at the success threshold (resetting both counters);
in CLOSED a success resets the failure count. -/
def CircuitBreaker.record_success (cb : CircuitBreaker) : CircuitBreaker :=
  match cb.stateF with
  | .HALF_OPEN =>
    if cb.success_threshold ≤ cb.success_count + 1 then
      { cb with stateF := .CLOSED, failure_count := 0, success_count := 0 }
    else { cb with success_count := cb.success_count + 1 }
  | .CLOSED => { cb with failure_count := 0 }
  | .OPEN => cb

/-- CircuitBreaker.record_failure: increment the failure count and stamp
the failure time; any failure in HALF_OPEN reopens the circuit; in
CLOSED the circuit opens when the count reaches the threshold. -/
def CircuitBreaker.record_failure (cb : CircuitBreaker) (now : Int) :
    CircuitBreaker :=
  let cb1 := { cb with failure_count := cb.failure_count + 1
                       last_failure_time := some now }
  match cb.stateF with
  | .HALF_OPEN => { cb1 with stateF := .OPEN }
  | .CLOSED =>
    if cb1.failure_threshold ≤ cb1.failure_count then
      { cb1 with stateF := .OPEN }
    else cb1
  | .OPEN => cb1

/-- Result of CircuitBreaker.call: the value, a CircuitOpenError carrying
the remaining recovery seconds, or the underlying exception re-raised
after recording the failure. -/
inductive CallResult (α : Type) : Type
  | success (a : α)
  | circuitOpen (remaining : Int)
  | raised
  deriving DecidableEq, Repr

/-- CircuitBreaker.call: read the state (possibly transitioning to
HALF_OPEN), reject with CircuitOpenError while OPEN, otherwise run the
function and record the success or failure. The embedded function
argument is the outcome of the Python callable (a value or a raise). -/
def CircuitBreaker.call {α : Type} (cb : CircuitBreaker) (now : Int)
    (f : Except Unit α) : CallResult α × CircuitBreaker :=
  let (st, cb1) := cb.state now
  if st = .OPEN then
    (.circuitOpen (cb1.get_remaining_timeout now), cb1)
  else
    match f with
    | .ok a => (.success a, cb1.record_success)
    | .error _ => (.raised, cb1.record_failure now)

/-! Exception classification, from src/core/degradation.py and
src/core/errors.py. -/

/-- Error categories, from ErrorCategory in src/core/errors.py. -/
inductive ErrorCategory : Type
  | TOOL_FAILURE | VALIDATION_ERROR | LLM_FAILURE | LLM_HALLUCINATION
  | PERMISSION_ERROR | NETWORK_ERROR | TIMEOUT_ERROR | SYSTEM_ERROR
  | USER_ERROR
  deriving DecidableEq, Repr

/-- Python exception types that can reach classify_exception, embedded
with the builtin class hierarchy that the isinstance checks observe:
TimeoutError, PermissionError, ConnectionError and FileNotFoundError are
subclasses of OSError; UnicodeDecodeError is a subclass of ValueError;
TypeError, KeyError, RuntimeError and ZeroDivisionError are none of the
checked classes. -/
inductive PyException : Type
  | timeoutError | permissionError | connectionError | fileNotFoundError
  | osError | valueError | unicodeDecodeError | typeError | keyError
  | runtimeError | zeroDivisionError
  deriving DecidableEq, Repr

/-- isinstance(e, TimeoutError). -/
def isTimeoutError : PyException → Bool
  | .timeoutError => true
  | _ => false

/-- isinstance(e, PermissionError). -/
def isPermissionError : PyException → Bool
  | .permissionError => true
  | _ => false

/-- isinstance(e, ConnectionError). -/
def isConnectionError : PyException → Bool
  | .connectionError => true
  | _ => false

/-- isinstance(e, OSError): OSError and its builtin subclasses. -/
def isOSError : PyException → Bool
  | .osError | .timeoutError | .permissionError | .connectionError
  | .fileNotFoundError => true
  | _ => false

/-- isinstance(e, ValueError): ValueError and its builtin subclass
UnicodeDecodeError. -/
def isValueError : PyException → Bool
  | .valueError | .unicodeDecodeError => true
  | _ => false

/-- A classified error, from JARVISError in src/core/errors.py (message,
details and stack trace elided to the fields the claims read). -/
structure JARVISError : Type where
  category : ErrorCategory
  tool : String := ""
  recoverable : Bool := true
  deriving DecidableEq, Repr

/-- classify_exception from src/core/degradation.py: the isinstance
cascade over TimeoutError, PermissionError, (ConnectionError, OSError)
and ValueError, falling through to TOOL_FAILURE; the result is built by
JARVISError.from_exception, which marks every category outside
SYSTEM_ERROR and LLM_HALLUCINATION recoverable. -/
def classify_exception (e : PyException) (tool_name : String := "") :
    JARVISError :=
  let category : ErrorCategory :=
    if isTimeoutError e then .TIMEOUT_ERROR
    else if isPermissionError e then .PERMISSION_ERROR
    else if isConnectionError e || isOSError e then .NETWORK_ERROR
    else if isValueError e then .VALIDATION_ERROR
    else .TOOL_FAILURE
  { category := category
    tool := tool_name
    recoverable := !(category == .SYSTEM_ERROR || category == .LLM_HALLUCINATION) }

/-! Persistence layer, from src/infra/database.py. -/

/-- Current code schema version (SCHEMA_VERSION in src/infra/database.py). -/
def SCHEMA_VERSION : Nat := 1

/-- Retention limit MAX_TURNS_PER_CONVERSATION. -/
def MAX_TURNS_PER_CONVERSATION : Nat := 1000

/-- Retention limit MAX_CONVERSATIONS. -/
def MAX_CONVERSATIONS : Nat := 100

/-- A row of the turns table (fields the startup path reads). -/
structure TurnRow : Type where
  id : String
  conversation_id : String
  timestamp : Int
  deriving DecidableEq, Repr

/-- A row of the conversations table (fields the startup path reads). -/
structure ConvRow : Type where
  id : String
  created_at : Int
  deriving DecidableEq, Repr

/-- The persisted database state visible to DatabaseManager.initialize:
the schema_version rows in autoincrement (insertion) order, and the
conversations and turns tables. -/
structure DBState : Type where
  schema_rows : List Nat := []
  conversations : List ConvRow := []
  turns : List TurnRow := []
  deriving DecidableEq, Repr

/-- Startup errors of DatabaseManager.initialize. -/
inductive DBInitError : Type
  | schemaMismatchError
  | migrationFailedError
  deriving DecidableEq, Repr

/-- DatabaseManager._get_schema_version: the version of the row with the
highest id (the last inserted), or none when the table is absent or
empty. -/
def getSchemaVersion (db : DBState) : Option Nat :=
  db.schema_rows.getLast?

/-- DatabaseManager._set_schema_version: insert a new version row. -/
def setSchemaVersion (db : DBState) (v : Nat) : DBState :=
  { db with schema_rows := db.schema_rows ++ [v] }

/-- DatabaseManager._migrate: the migrations table of v1 is empty, so
each step just records the next version row. -/
def migrate (db : DBState) (from_version to_version : Nat) : DBState :=
  (List.range' (from_version + 1) (to_version - from_version)).foldl
    setSchemaVersion db

/-- The ids of the `excess` oldest rows under the given sort key
(ORDER BY key ASC LIMIT excess). -/
def oldestIds {α : Type} (key : α → Int) (idOf : α → String)
    (rows : List α) (excess : Nat) : List String :=
  ((rows.mergeSort (fun a b => key a ≤ key b)).take excess).map idOf

/-- DatabaseManager._prune_on_startup: delete the oldest turns of every
conversation holding more than MAX_TURNS_PER_CONVERSATION, then delete
the oldest whole conversations beyond MAX_CONVERSATIONS (their turns
cascade away through the enabled foreign keys). -/
def pruneOnStartup (db : DBState) : DBState :=
  let convIdsWithTurns :=
    (db.turns.map (fun t => t.conversation_id)).dedup
  let turns1 := convIdsWithTurns.foldl
    (fun acc cid =>
      let group := acc.filter (fun t => t.conversation_id == cid)
      if MAX_TURNS_PER_CONVERSATION < group.length then
        let excess := group.length - MAX_TURNS_PER_CONVERSATION
        let doomed := oldestIds (fun t => t.timestamp) (fun t => t.id)
          group excess
        acc.filter (fun t => !(doomed.contains t.id))
      else acc)
    db.turns
  let convCount := db.conversations.length
  if MAX_CONVERSATIONS < convCount then
    let excess := convCount - MAX_CONVERSATIONS
    let doomed := oldestIds (fun c => c.created_at) (fun c => c.id)
      db.conversations excess
    { db with
      conversations := db.conversations.filter
        (fun c => !(doomed.contains c.id))
      turns := turns1.filter
        (fun t => !(doomed.contains t.conversation_id)) }
  else { db with turns := turns1 }

/-- DatabaseManager.initialize from src/infra/database.py: read the
recorded schema version; create-and-record on a fresh database, migrate
forward when behind, raise SchemaMismatchError when the database is
newer than the code (before any pruning or write), do nothing when
equal; then run startup pruning (the integrity check of a well-formed
embedded state passes). -/
def DatabaseManager.initialize (db : DBState) : Except DBInitError DBState :=
  match getSchemaVersion db with
  | none =>
    Except.ok (pruneOnStartup (setSchemaVersion db SCHEMA_VERSION))
  | some v =>
    if v < SCHEMA_VERSION then
      Except.ok (pruneOnStartup (migrate db v SCHEMA_VERSION))
    else if SCHEMA_VERSION < v then
      Except.error DBInitError.schemaMismatchError
    else
      Except.ok (pruneOnStartup db)

/-! Immutable audit log, from src/infra/audit.py. The HMAC-SHA256
primitive is abstracted as a parameter `hmac : String → String` (the key
is folded in); the chain and verification logic is embedded exactly.
Tamper detection holds for any collision-free (injective) hmac. -/

/-- String value of an audit event type (EventType is a str Enum). -/
def EventType.value : EventType → String
  | .TURN_START => "TURN_START"
  | .TURN_END => "TURN_END"
  | .PLAN_CREATED => "PLAN_CREATED"
  | .AUTHORITY_CHECK => "AUTHORITY_CHECK"
  | .CONFIRM_REQUEST => "CONFIRM_REQUEST"
  | .CONFIRM_RESPONSE => "CONFIRM_RESPONSE"
  | .TOOL_EXECUTE => "TOOL_EXECUTE"
  | .MEMORY_DELETE => "MEMORY_DELETE"
  | .MEMORY_REDACT => "MEMORY_REDACT"
  | .GRANT_CREATED => "GRANT_CREATED"
  | .GRANT_REVOKED => "GRANT_REVOKED"

/-- String value of an audit actor (Actor is a str Enum). -/
def Actor.value : Actor → String
  | .user => "user"
  | .planner => "planner"
  | .authority => "authority"
  | .executor => "executor"
  | .governor => "governor"
  | .system => "system"

/-- One audit_log row, from the AuditEntry dataclass. The `details` dict
is carried as a string-valued association list (its JSON text in the
database round-trips through json.loads unchanged). -/
structure AuditEntry : Type where
  id : Nat
  turn_id : String
  timestamp : String
  event_type : EventType
  actor : Actor
  action : String
  target : Option String := none
  details : Option (List (String × String)) := none
  prev_hash : String
  entry_hash : String
  deriving DecidableEq, Repr

/-- JSON escaping of one character, as json.dumps performs it for the
characters that can occur here. -/
def escChar (c : Char) : List Char :=
  if c = '"' then ['\\', '"']
  else if c = '\\' then ['\\', '\\']
  else [c]

/-- JSON escaping of a string body. -/
def escStr (s : String) : String :=
  ⟨s.data.flatMap escChar⟩

/-- A JSON string literal. -/
def jsonStr (s : String) : String :=
  "\"" ++ escStr s ++ "\""

/-- A JSON value that may be null: a string or None. -/
def jsonOptStr : Option String → String
  | none => "null"
  | some s => jsonStr s

/-- The key:value members of a details object, comma separated. -/
def kvItems : List (String × String) → String
  | [] => ""
  | [kv] => jsonStr kv.1 ++ ":" ++ jsonStr kv.2
  | kv :: kv2 :: rest =>
    jsonStr kv.1 ++ ":" ++ jsonStr kv.2 ++ "," ++ kvItems (kv2 :: rest)

/-- Code-point lexicographic string order, as Python compares str keys. -/
def listLe : List Char → List Char → Bool
  | [], _ => true
  | _ :: _, [] => false
  | c :: cs, d :: ds =>
    if c.toNat < d.toNat then true
    else if d.toNat < c.toNat then false
    else listLe cs ds

/-- Key order for sort_keys=True. -/
def keyLe (a b : String) : Bool := listLe a.data b.data

/-- Insertion of a pair into a key-sorted pair list. -/
def insertKV (kv : String × String) :
    List (String × String) → List (String × String)
  | [] => [kv]
  | x :: xs => if keyLe kv.1 x.1 then kv :: x :: xs else x :: insertKV kv xs

/-- The ascending key order in which json.dumps(..., sort_keys=True)
serializes a dict's members. -/
def sortKVs : List (String × String) → List (String × String)
  | [] => []
  | x :: xs => insertKV x (sortKVs xs)

/-- Compact JSON text of a details dict with sorted keys, as
json.dumps(details, sort_keys=True, separators=(',', ':')) produces. -/
def jsonDetails : Option (List (String × String)) → String
  | none => "null"
  | some kvs => "\x7b" ++ kvItems (sortKVs kvs) ++ "\x7d"

/-- The event data of one AuditLog.log call (everything the caller
supplies, plus the timestamp taken at logging time). -/
structure LogEvent : Type where
  turn_id : String
  timestamp : String
  event_type : EventType
  actor : Actor
  action : String
  target : Option String := none
  details : Option (List (String × String)) := none
  deriving DecidableEq, Repr

/-- AuditLog._canonical_payload: byte-exact compact JSON with the keys in
sorted order (action, actor, details, event_type, prev_hash, target,
timestamp, turn_id), exactly as json.dumps(payload, sort_keys=True,
separators=(',', ':')) serializes the payload dict. -/
def canonicalPayload (ev : LogEvent) (prev_hash : String) : String :=
  "\x7b\"action\":" ++ jsonStr ev.action ++
  ",\"actor\":" ++ jsonStr ev.actor.value ++
  ",\"details\":" ++ jsonDetails ev.details ++
  ",\"event_type\":" ++ jsonStr ev.event_type.value ++
  ",\"prev_hash\":" ++ jsonStr prev_hash ++
  ",\"target\":" ++ jsonOptStr ev.target ++
  ",\"timestamp\":" ++ jsonStr ev.timestamp ++
  ",\"turn_id\":" ++ jsonStr ev.turn_id ++ "\x7d"

/-- The event data of a stored entry (what from_row reconstructs and
_compute_hash re-serializes during verification). -/
def AuditEntry.event (e : AuditEntry) : LogEvent :=
  { turn_id := e.turn_id, timestamp := e.timestamp
    event_type := e.event_type, actor := e.actor, action := e.action
    target := e.target, details := e.details }

/-- AuditLog._compute_hash for a stored entry given a previous hash. -/
def computeHash (hmac : String → String) (e : AuditEntry)
    (prev : String) : String :=
  hmac (canonicalPayload e.event prev)

/-- AuditLog.GENESIS_HASH: sixty-four zeros. -/
def GENESIS_HASH : String := ⟨List.replicate 64 '0'⟩

/-- The audit_log table state. -/
structure AuditState : Type where
  entries : List AuditEntry := []
  deriving DecidableEq, Repr

/-- AuditLog._get_last_hash: the entry_hash of the row with the highest
id, or the genesis hash on an empty table. -/
def getLastHash (s : AuditState) : String :=
  match s.entries.getLast? with
  | some e => e.entry_hash
  | none => GENESIS_HASH

/-- AuditLog.log from src/infra/audit.py: read the last hash, compute the
entry's HMAC over the canonical payload, insert with the autoincrement
id, and return the entry hash. -/
def AuditLog.log (hmac : String → String) (s : AuditState) (ev : LogEvent) :
    AuditState × String :=
  let prev := getLastHash s
  let h := hmac (canonicalPayload ev prev)
  let e : AuditEntry :=
    { id := s.entries.length + 1
      turn_id := ev.turn_id, timestamp := ev.timestamp
      event_type := ev.event_type, actor := ev.actor, action := ev.action
      target := ev.target, details := ev.details
      prev_hash := prev, entry_hash := h }
  ({ entries := s.entries ++ [e] }, h)

/-- Appending a sequence of events through AuditLog.log. -/
def AuditLog.logAll (hmac : String → String) (s : AuditState) :
    List LogEvent → AuditState
  | [] => s
  | ev :: rest => AuditLog.logAll hmac (AuditLog.log hmac s ev).1 rest

/-- Result of chain verification, from the VerifyResult dataclass. -/
structure VerifyResult : Type where
  valid : Bool
  entries_checked : Nat
  broken_at : Option Nat := none
  expected_hash : Option String := none
  actual_hash : Option String := none
  error : Option String := none
  deriving DecidableEq, Repr

/-- The verification loop of AuditLog.verify_chain: check each entry's
prev_hash against the expected chain value, recompute its entry_hash,
and advance the expectation. -/
def verifyLoop (hmac : String → String) (expected : String)
    (checked : Nat) : List AuditEntry → VerifyResult
  | [] => { valid := true, entries_checked := checked }
  | e :: rest =>
    if e.prev_hash ≠ expected then
      { valid := false, entries_checked := checked, broken_at := some e.id
        expected_hash := some expected, actual_hash := some e.prev_hash
        error := some "prev_hash mismatch" }
    else if e.entry_hash ≠ computeHash hmac e e.prev_hash then
      { valid := false, entries_checked := checked, broken_at := some e.id
        expected_hash := some (computeHash hmac e e.prev_hash)
        actual_hash := some e.entry_hash
        error := some "entry_hash mismatch" }
    else verifyLoop hmac e.entry_hash (checked + 1) rest

/-- AuditLog.verify_chain from src/infra/audit.py: select the id range,
determine the hash expected before the first selected entry (genesis for
from_id=1, otherwise the stored hash of entry from_id-1), and run the
verification loop. -/
def AuditLog.verify_chain (hmac : String → String) (s : AuditState)
    (from_id : Nat := 1) (to_id : Option Nat := none) : VerifyResult :=
  let sel := s.entries.filter (fun e =>
    from_id ≤ e.id && (match to_id with | some t => e.id ≤ t | none => true))
  if sel.isEmpty then { valid := true, entries_checked := 0 }
  else
    let expected :=
      if from_id = 1 then GENESIS_HASH
      else
        match s.entries.find? (fun e => e.id == from_id - 1) with
        | some p => p.entry_hash
        | none => GENESIS_HASH
    verifyLoop hmac expected 0 sel

/-- The hash expected after walking a block of entries: the last entry's
hash, or the incoming expectation for an empty block. -/
def lastHash (l : List AuditEntry) (prev : String) : String :=
  match l.getLast? with
  | some e => e.entry_hash
  | none => prev

/-- The well-formed-chain invariant that AuditLog.log maintains: each
entry links to the expectation, carries the HMAC of its canonical
payload, and ids ascend consecutively. -/
def Chain (hmac : String → String) : String → Nat → List AuditEntry → Prop
  | _, _, [] => True
  | prev, nid, e :: rest =>
    e.prev_hash = prev ∧ e.entry_hash = computeHash hmac e prev ∧
    e.id = nid ∧ Chain hmac e.entry_hash (nid + 1) rest

/-- Lookup of a stored entry by id. -/
def entryAt (s : AuditState) (k : Nat) : Option AuditEntry :=
  s.entries.find? (fun e => e.id == k)

/-- Five audit events as in the tamper-detection scenario of the spec
(section 8, scenario 5). -/
def fiveEvents : List LogEvent :=
  [{ turn_id := "turn-1", timestamp := "t1", event_type := .TURN_START
     actor := .system, action := "start" },
   { turn_id := "turn-1", timestamp := "t2", event_type := .AUTHORITY_CHECK
     actor := .authority, action := "granted", target := some "get_current_time" },
   { turn_id := "turn-1", timestamp := "t3", event_type := .TOOL_EXECUTE
     actor := .executor, action := "success", target := some "get_current_time" },
   { turn_id := "turn-1", timestamp := "t4", event_type := .MEMORY_REDACT
     actor := .governor, action := "redact" },
   { turn_id := "turn-1", timestamp := "t5", event_type := .TURN_END
     actor := .system, action := "end" }]

/-! Parsers that invert the canonical JSON serialization: used to prove
the canonical payload injective, so that any change of a stored column
that alters the canonical content is caught by verification. -/

/-- Unescaping scanner for a JSON string body: reads up to the closing
quote, dropping one backslash before each escaped character; returns
the decoded body and the remaining input. -/
def parseBody : List Char → Option (List Char × List Char)
  | [] => none
  | c :: rest =>
    if c = '"' then some ([], rest)
    else if c = '\\' then
      match rest with
      | [] => none
      | d :: rest2 =>
        match parseBody rest2 with
        | some (b, r) => some (d :: b, r)
        | none => none
    else
      match parseBody rest with
      | some (b, r) => some (c :: b, r)
      | none => none

/-- Parser of a JSON string literal: an opening quote, then the body. -/
def parseStr : List Char → Option (List Char × List Char)
  | [] => none
  | c :: r => if c = '"' then parseBody r else none

/-- Parser of the members of a non-empty JSON object: repeated
key:value string pairs separated by commas, consuming the closing
brace; the fuel bounds the number of members. -/
def parseKVs : Nat → List Char → Option (List (String × String) × List Char)
  | 0, _ => none
  | fuel + 1, l =>
    match parseStr l with
    | none => none
    | some (k, r1) =>
      match r1 with
      | [] => none
      | c :: r2 =>
        if c = ':' then
          match parseStr r2 with
          | none => none
          | some (v, r3) =>
            match r3 with
            | [] => none
            | d :: r4 =>
              if d = ',' then
                match parseKVs fuel r4 with
                | some (kvs, r5) => some ((⟨k⟩, ⟨v⟩) :: kvs, r5)
                | none => none
              else if d = '\x7d' then some ([(⟨k⟩, ⟨v⟩)], r4)
              else none
        else none

/-- Parser of a details value: the literal null, or an object of string
pairs. -/
def parseDetails (l : List Char) :
    Option (Option (List (String × String)) × List Char) :=
  match l with
  | [] => none
  | c :: r =>
    if c = 'n' then
      match r with
      | u :: l1 :: l2 :: r2 =>
        if u = 'u' && l1 = 'l' && l2 = 'l' then some (none, r2) else none
      | _ => none
    else if c = '\x7b' then
      match r with
      | [] => none
      | d :: r2 =>
        if d = '\x7d' then some (some [], r2)
        else
          match parseKVs r.length r with
          | some (kvs, r3) => some (some kvs, r3)
          | none => none
    else none

/-- Direct modification of all data columns of the entry with the given
id: the stored fields are replaced by those of e2, with the row's id
and entry_hash columns left unchanged. -/
def tamperFields (s : AuditState) (k : Nat) (e2 : AuditEntry) : AuditState :=
  { entries := s.entries.map (fun e =>
      if e.id = k then { e2 with id := e.id, entry_hash := e.entry_hash }
      else e) }

/-- Direct modification of the details column of the entry with the
given id, leaving every other column (entry_hash included) unchanged. -/
def tamperDetails (s : AuditState) (k : Nat)
    (d : Option (List (String × String))) : AuditState :=
  { entries := s.entries.map
      (fun e => if e.id = k then { e with details := d } else e) }

/-- Three audit events, the second carrying a details dict, for the
details-reorder scenario. -/
def detailEvents : List LogEvent :=
  [{ turn_id := "turn-1", timestamp := "t1", event_type := .TURN_START
     actor := .system, action := "start" },
   { turn_id := "turn-1", timestamp := "t2", event_type := .TOOL_EXECUTE
     actor := .executor, action := "success", target := some "get_current_time"
     details := some [("arg", "x"), ("status", "ok")] },
   { turn_id := "turn-1", timestamp := "t3", event_type := .TURN_END
     actor := .system, action := "end" }]

/-- A replacement row whose data columns differ from stored entry 3 of
the five-event scenario (its action reads "tampered"). -/
def tamperedRow : AuditEntry :=
  { id := 0, turn_id := "turn-1", timestamp := "t3"
    event_type := .TOOL_EXECUTE, actor := .executor, action := "tampered"
    target := some "get_current_time", details := none
    prev_hash := "", entry_hash := "" }

/-! Tool executor, from src/tools/executor.py. The Python callable bound
to each tool is embedded as a behaviour map from tool name and arguments
to an outcome; wall-clock instants are integers (seconds); the uuid
prefix minted for a pending confirmation is passed in as `fresh_id`. -/

/-- Execution status, from ExecutionStatus in src/tools/executor.py. -/
inductive ExecutionStatus : Type
  | SUCCESS | VALIDATION_ERROR | PERMISSION_DENIED | CONFIRMATION_REQUIRED
  | CONFIRMATION_DENIED | CONFIRMATION_TIMEOUT | TIMEOUT | EXECUTION_ERROR
  | UNKNOWN_TOOL
  deriving DecidableEq, Repr

/-- A pending confirmation, from the PendingConfirmation dataclass. -/
structure PendingConfirmation : Type where
  id : String
  tool_name : String
  args : Args
  reason : String
  permission_level : PermissionLevel
  requested_at : Int
  expires_in_seconds : Int := 60
  turn_id : Option String := none
  deriving DecidableEq, Repr

/-- PendingConfirmation.is_expired: now is past requested_at plus the
expiry window. -/
def PendingConfirmation.is_expired (p : PendingConfirmation) (now : Int) :
    Bool :=
  decide (p.requested_at + p.expires_in_seconds < now)

/-- Result of a tool execution, from the ExecutionResult dataclass
(execution_time_ms and timestamp elided; they are never branched on). -/
structure ExecutionResult : Type where
  tool_name : String
  status : ExecutionStatus
  output : Option String := none
  error : Option String := none
  pending_confirmation : Option PendingConfirmation := none
  turn_id : Option String := none
  deriving DecidableEq, Repr

/-- Outcome of running a tool's Python callable: a returned value, a
raised exception, or exceeding the wall-clock timeout. -/
inductive ToolOutcome : Type
  | ok (out : String)
  | raises (e : PyException)
  | hangs
  deriving DecidableEq, Repr

/-- The executor functions bound to tools (ToolExecutor._bind_executors),
as a behaviour map. -/
abbrev ToolBehaviour := String → Args → ToolOutcome

/-- Message text of a raised exception (str(e) abstracted to the class
name). -/
def PyException.message : PyException → String
  | .timeoutError => "TimeoutError"
  | .permissionError => "PermissionError"
  | .connectionError => "ConnectionError"
  | .fileNotFoundError => "FileNotFoundError"
  | .osError => "OSError"
  | .valueError => "ValueError"
  | .unicodeDecodeError => "UnicodeDecodeError"
  | .typeError => "TypeError"
  | .keyError => "KeyError"
  | .runtimeError => "RuntimeError"
  | .zeroDivisionError => "ZeroDivisionError"

/-- The mutable state of a ToolExecutor: its registry, its authority and
the pending-confirmation dict (the execution context's dry_run flag is
carried alongside). -/
structure ToolExecutor : Type where
  registry : ToolRegistry
  authority : ToolAuthority
  dry_run : Bool := false
  pending_confirmations : List (String × PendingConfirmation) := []

/-- Pop an entry from the pending-confirmation dict. -/
def popPending (l : List (String × PendingConfirmation)) (i : String) :
    Option PendingConfirmation × List (String × PendingConfirmation) :=
  match l.find? (fun p => p.1 == i) with
  | some p => (some p.2, l.filter (fun q => !(q.1 == i)))
  | none => (none, l)

/-- ToolExecutor._execute_with_timeout: run the tool's callable on a
worker with the tool's timeout; map the outcome to SUCCESS, TIMEOUT or
EXECUTION_ERROR; emit the TOOL_EXECUTE audit event when a turn id is
present. -/
def execute_with_timeout (behav : ToolBehaviour) (tool : Tool)
    (args : Args) (turn_id : Option String) :
    ExecutionResult × List AuditCall :=
  let auditFor : String → List AuditCall := fun act =>
    match turn_id with
    | some tid => [{ event_type := .TOOL_EXECUTE, actor := .executor
                     action := act, turn_id := tid, target := some tool.name }]
    | none => []
  match behav tool.name args with
  | .ok out =>
    ({ tool_name := tool.name, status := .SUCCESS, output := some out
       turn_id := turn_id }, auditFor "success")
  | .hangs =>
    ({ tool_name := tool.name, status := .TIMEOUT
       error := some "Execution timed out", turn_id := turn_id },
     auditFor "timeout")
  | .raises e =>
    ({ tool_name := tool.name, status := .EXECUTION_ERROR
       error := some e.message, turn_id := turn_id }, auditFor "error")

/-- ToolExecutor._handle_confirmation_required: build the
PendingConfirmation; with no callback, store it and return
CONFIRMATION_REQUIRED; with a callback, ask synchronously and on
approval grant a session permission and execute. No audit event is
emitted on this path (the source logs only to the ordinary logger). -/
def handle_confirmation_required (ex : ToolExecutor)
    (behav : ToolBehaviour) (tool : Tool) (args : Args)
    (decision : AuthorityDecision) (turn_id : Option String)
    (confirm_callback : Option (PendingConfirmation → Except Unit Bool))
    (now : Int) (fresh_id : String) :
    ExecutionResult × ToolExecutor × List AuditCall :=
  let pending : PendingConfirmation :=
    { id := fresh_id, tool_name := tool.name, args := args
      reason := decision.reason, permission_level := tool.permission
      requested_at := now, turn_id := turn_id }
  match confirm_callback with
  | none =>
    ({ tool_name := tool.name, status := .CONFIRMATION_REQUIRED
       pending_confirmation := some pending, turn_id := turn_id },
     { ex with pending_confirmations :=
        ex.pending_confirmations ++ [(pending.id, pending)] }, [])
  | some cb =>
    match cb pending with
    | .error _ =>
      ({ tool_name := tool.name, status := .CONFIRMATION_DENIED
         error := some "Confirmation failed", turn_id := turn_id }, ex, [])
    | .ok false =>
      ({ tool_name := tool.name, status := .CONFIRMATION_DENIED
         error := some "User denied confirmation", turn_id := turn_id },
       ex, [])
    | .ok true =>
      let auth2 := (ex.authority.grant tool.name tool.permission now
        none false "session").1
      let r := execute_with_timeout behav tool args turn_id
      (r.1, { ex with authority := auth2 }, r.2)

/-- ToolExecutor.execute from src/tools/executor.py: resolve the tool,
validate arguments, run the authority check, divert to the confirmation
workflow on REQUIRES_CONFIRMATION, reject when not allowed, honour
dry-run, and otherwise execute with timeout. Returns the result, the
updated executor state and the audit events emitted. Note there is no
circuit-breaker step anywhere in this sequence. -/
def ToolExecutor.execute (ex : ToolExecutor) (behav : ToolBehaviour)
    (tool_name : String) (args : Args) (turn_id : Option String := none)
    (confirm_callback :
      Option (PendingConfirmation → Except Unit Bool) := none)
    (now : Int := 0) (fresh_id : String := "p1") :
    ExecutionResult × ToolExecutor × List AuditCall :=
  match ex.registry.get tool_name with
  | none =>
    ({ tool_name := tool_name, status := .UNKNOWN_TOOL
       error := some ("Unknown tool: " ++ tool_name), turn_id := turn_id },
     ex, [])
  | some tool =>
    match tool.validate_args args with
    | (false, err) =>
      ({ tool_name := tool_name, status := .VALIDATION_ERROR, error := err
         turn_id := turn_id }, ex, [])
    | (true, _) =>
      let chk := ex.authority.check tool_name tool.permission now turn_id
      let decision := chk.1
      let ex1 := { ex with authority := chk.2.1 }
      let acalls := chk.2.2
      if decision.status = GrantStatus.REQUIRES_CONFIRMATION ∧
          (tool.requires_confirmation || decision.needs_confirmation) = true then
        let r := handle_confirmation_required ex1 behav tool
          args decision turn_id confirm_callback now fresh_id
        (r.1, r.2.1, acalls ++ r.2.2)
      else if decision.allowed = false then
        ({ tool_name := tool_name, status := .PERMISSION_DENIED
           error := some ("Permission denied: " ++ decision.reason)
           turn_id := turn_id }, ex1, acalls)
      else if ex.dry_run then
        ({ tool_name := tool_name, status := .SUCCESS
           output := some ("[DRY RUN] Would execute " ++ tool_name)
           turn_id := turn_id }, ex1, acalls)
      else
        let r := execute_with_timeout behav tool args turn_id
        (r.1, ex1, acalls ++ r.2)

/-- ToolExecutor.confirm_pending from src/tools/executor.py: pop the
pending record; unknown id yields EXECUTION_ERROR, an expired record
CONFIRMATION_TIMEOUT, denial CONFIRMATION_DENIED; on approval grant a
session permission and execute the tool. No CONFIRM_RESPONSE audit
event is emitted anywhere on this path. -/
def ToolExecutor.confirm_pending (ex : ToolExecutor)
    (behav : ToolBehaviour) (confirmation_id : String) (approved : Bool)
    (now : Int := 0) :
    ExecutionResult × ToolExecutor × List AuditCall :=
  match popPending ex.pending_confirmations confirmation_id with
  | (none, _) =>
    ({ tool_name := "unknown", status := .EXECUTION_ERROR
       error := some ("Unknown confirmation id: " ++ confirmation_id) },
     ex, [])
  | (some pending, rest) =>
    let ex1 := { ex with pending_confirmations := rest }
    if pending.is_expired now then
      ({ tool_name := pending.tool_name, status := .CONFIRMATION_TIMEOUT
         error := some "Confirmation timed out. Please try again."
         turn_id := pending.turn_id }, ex1, [])
    else if approved = false then
      ({ tool_name := pending.tool_name, status := .CONFIRMATION_DENIED
         error := some "User denied confirmation"
         turn_id := pending.turn_id }, ex1, [])
    else
      match ex.registry.get pending.tool_name with
      | none =>
        ({ tool_name := pending.tool_name, status := .UNKNOWN_TOOL
           error := some ("Tool no longer available: " ++ pending.tool_name) },
         ex1, [])
      | some tool =>
        let auth2 := (ex1.authority.grant pending.tool_name
          tool.permission now none false "session").1
        let r := execute_with_timeout behav tool pending.args
          pending.turn_id
        (r.1, { ex1 with authority := auth2 }, r.2)

/-- The behaviour map of the default executors relevant to the claims:
get_current_time returns a time string and open_application opens the
allowlisted application. -/
def defaultBehaviour : ToolBehaviour := fun name args =>
  if name == "get_current_time" then .ok "The current time is 10:00 AM"
  else if name == "open_application" then
    match argsGet args "app_name" with
    | some (.vStr app) => .ok ("Opened: " ++ app)
    | _ => .raises .keyError
  else .raises .runtimeError

/-- A default executor over the default tool registry and the default
authority configuration. -/
def defaultExecutor : ToolExecutor :=
  { registry := create_default_tools, authority := defaultAuthority }

/-! Memory governance redaction, from src/memory/governance.py. The
three default sensitive patterns (credit-card, SSN, email) are embedded
as executable matchers with Python `re` semantics: leftmost scan,
greedy quantifiers with backtracking, and word boundaries evaluated
against the original text during substitution. Matchers return the
consumed prefix and the remainder. -/

/-- Python \d (ASCII core). -/
def isDigitC (c : Char) : Bool := c.isDigit

/-- The [-\s] separator class: hyphen or whitespace. -/
def isSepC (c : Char) : Bool :=
  c = '-' || c = ' ' || c = '\t' || c = '\n' || c = '\r' ||
  c = '\x0b' || c = '\x0c'

/-- Python \w (ASCII core): letters, digits, underscore. -/
def isWordC (c : Char) : Bool := c.isAlphanum || c = '_'

/-- The email local-part class [A-Za-z0-9._%+-]. -/
def isLocalC (c : Char) : Bool :=
  c.isAlphanum || c = '.' || c = '_' || c = '%' || c = '+' || c = '-'

/-- The email host class [A-Za-z0-9.-]. -/
def isHostC (c : Char) : Bool := c.isAlphanum || c = '.' || c = '-'

/-- The email TLD class [A-Z|a-z] (the literal | is in the class). -/
def isTldC (c : Char) : Bool := c.isAlpha || c = '|'

/-- Wordness of an optional character (start/end of text is non-word). -/
def wordO : Option Char → Bool
  | none => false
  | some c => isWordC c

/-- The \b assertion between two (optional) characters. -/
def bAt (p n : Option Char) : Bool := !(wordO p == wordO n)

/-- Consume exactly k digits. -/
def digitsN : Nat → List Char → Option (List Char × List Char)
  | 0, s => some ([], s)
  | _ + 1, [] => none
  | k + 1, c :: cs =>
    if isDigitC c then
      match digitsN k cs with
      | some (d, r) => some (c :: d, r)
      | none => none
    else none

/-- Consume the digit groups of a credit-card/SSN pattern: the group
sizes in order, each later group optionally preceded by one separator.
The greedy separator choice is deterministic: when the next character is
a separator the branch that skips it would need a digit there and fails
at once. Returns (consumed, rest). -/
def groupsFrom : List Nat → List Char → Option (List Char × List Char)
  | [], s => some ([], s)
  | [k], s =>
    match digitsN k s with
    | some (d, r) => some (d, r)
    | none => none
  | k :: k2 :: rest, s =>
    match digitsN k s with
    | none => none
    | some (d, r) =>
      match r with
      | c :: cs =>
        if isSepC c then
          match groupsFrom (k2 :: rest) cs with
          | some (d2, r2) => some (d ++ c :: d2, r2)
          | none => none
        else
          match groupsFrom (k2 :: rest) r with
          | some (d2, r2) => some (d ++ d2, r2)
          | none => none
      | [] => none

/-- A digit-pattern matcher at the current position:
\b digit-groups \b. The leading boundary is checked against the
previous character; the trailing boundary holds exactly when the next
character is non-word, the last consumed character being a digit. -/
def digitMatch (sizes : List Nat) (p : Option Char) (s : List Char) :
    Option (List Char × List Char) :=
  if bAt p s.head? then
    match groupsFrom sizes s with
    | some (consumed, rest) =>
      if wordO rest.head? then none else some (consumed, rest)
    | none => none
  else none

/-- The credit-card matcher \b\d{4}[-\s]?\d{4}[-\s]?\d{4}[-\s]?\d{4}\b. -/
def ccMatch : Option Char → List Char → Option (List Char × List Char) :=
  digitMatch [4, 4, 4, 4]

/-- The SSN matcher \b\d{3}[-\s]?\d{2}[-\s]?\d{4}\b. -/
def ssnMatch : Option Char → List Char → Option (List Char × List Char) :=
  digitMatch [3, 2, 4]

/-- Backtracking search for the TLD: `trev` is the reversed current
candidate (a suffix of the T-run is moved back onto `rest` as the
candidate shrinks); greedy, so longer candidates are tried first; a
candidate of fewer than two characters fails. Accepts when the \b after
the candidate holds. Returns (tld, rest). -/
def tldTry : List Char → List Char → Option (List Char × List Char)
  | [], _ => none
  | tc :: trest, rest =>
    if trest.isEmpty then none
    else if bAt (some tc) rest.head? then some ((tc :: trest).reverse, rest)
    else tldTry trest (tc :: rest)

/-- Backtracking search for the host/TLD split: `hrev` is the reversed
current host candidate; at each candidate the character after the host
must be a literal dot followed by a successful TLD; otherwise the host
shrinks by one (its last character moving back before `after`). An
empty host candidate fails. Returns (host, tld, rest). -/
def hostTry : List Char → List Char → Option (List Char × List Char × List Char)
  | [], _ => none
  | hc :: hrest, [] => hostTry hrest [hc]
  | hc :: hrest, a :: r3 =>
    if a = '.' then
      match tldTry (r3.takeWhile isTldC).reverse (r3.dropWhile isTldC) with
      | some (t, rest) => some ((hc :: hrest).reverse, t, rest)
      | none => hostTry hrest (hc :: a :: r3)
    else hostTry hrest (hc :: a :: r3)

/-- The email matcher
\b[A-Za-z0-9._%+-]+@[A-Za-z0-9.-]+\.[A-Z|a-z]{2,}\b at the current
position: the local part is the maximal local-class run (forced, since
@ is outside the class), then the greedy host/TLD backtracking search.
Returns (consumed, rest). -/
def emailMatch (p : Option Char) (s : List Char) :
    Option (List Char × List Char) :=
  match s with
  | [] => none
  | c :: _ =>
    if isLocalC c && bAt p (some c) then
      match s.dropWhile isLocalC with
      | a :: r2 =>
        if a = '@' then
          match hostTry (r2.takeWhile isHostC).reverse (r2.dropWhile isHostC) with
          | some (h, t, rest) =>
            some (s.takeWhile isLocalC ++ '@' :: (h ++ '.' :: t), rest)
          | none => none
        else none
      | [] => none
    else none

/-- The redaction placeholder "[REDACTED]" as a character list. -/
def PHL : List Char := "[REDACTED]".data

/-- A matcher: previous character and text to consumed/rest. -/
abbrev Matcher := Option Char → List Char → Option (List Char × List Char)

/-- One Pattern.sub pass with Python semantics: scan left to right; at a
match emit the placeholder and continue after the consumed text, the
boundary context for the continuation being the last consumed character
of the original text; otherwise emit the character and advance. -/
def scanP (pm : Matcher) (p : Option Char) (s : List Char) : List Char :=
  match s with
  | [] => []
  | c :: cs =>
    match pm p (c :: cs) with
    | some (consumed, rest) =>
      if h : rest.length < cs.length + 1 then
        PHL ++ scanP pm consumed.getLast? rest
      else c :: scanP pm (some c) cs
    | none => c :: scanP pm (some c) cs
termination_by s.length
decreasing_by
  all_goals first
  | simpa using h
  | simp

/-- The number of matches the same scan finds (Pattern.findall). -/
def countP (pm : Matcher) (p : Option Char) (s : List Char) : Nat :=
  match s with
  | [] => 0
  | c :: cs =>
    match pm p (c :: cs) with
    | some (consumed, rest) =>
      if h : rest.length < cs.length + 1 then
        1 + countP pm consumed.getLast? rest
      else countP pm (some c) cs
    | none => countP pm (some c) cs
termination_by s.length
decreasing_by
  all_goals first
  | simpa using h
  | simp

/-- Result of a redaction, from the RedactionResult dataclass. -/
structure RedactionResult : Type where
  original_length : Nat
  redacted_length : Nat
  redaction_count : Nat
  patterns_matched : List String
  deriving DecidableEq, Repr

/-- The regex source text of the three default sensitive patterns. -/
def ccPatternSrc : String :=
  "\\b\\d\x7b4\x7d[-\\s]?\\d\x7b4\x7d[-\\s]?\\d\x7b4\x7d[-\\s]?\\d\x7b4\x7d\\b"

def ssnPatternSrc : String :=
  "\\b\\d\x7b3\x7d[-\\s]?\\d\x7b2\x7d[-\\s]?\\d\x7b4\x7d\\b"

def emailPatternSrc : String :=
  "\\b[A-Za-z0-9._%+-]+@[A-Za-z0-9.-]+\\.[A-Z|a-z]\x7b2,\x7d\\b"

/-- MemoryGovernor.redact from src/memory/governance.py under the
default MemoryPolicy (redact_on_store=true, the three default sensitive
patterns in order, placeholder "[REDACTED]"): for each pattern count its
matches in the current text, then substitute them; return the redacted
text and the result record. -/
def MemoryGovernor.redact (content : String) : String × RedactionResult :=
  let t0 := content.data
  let c1 := countP ccMatch none t0
  let t1 := scanP ccMatch none t0
  let c2 := countP ssnMatch none t1
  let t2 := scanP ssnMatch none t1
  let c3 := countP emailMatch none t2
  let t3 := scanP emailMatch none t2
  (⟨t3⟩,
   { original_length := t0.length
     redacted_length := t3.length
     redaction_count := c1 + c2 + c3
     patterns_matched :=
       (if 0 < c1 then [ccPatternSrc] else []) ++
       (if 0 < c2 then [ssnPatternSrc] else []) ++
       (if 0 < c3 then [emailPatternSrc] else []) })

/-! Proof-side notions for the redaction development. -/

/-- The last character of a traversed prefix, falling back to the prior
context when the prefix is empty. -/
def lastO (pfx : List Char) (p : Option Char) : Option Char :=
  match pfx.getLast? with
  | some c => some c
  | none => p

/-- The text carries no match of pm at any position, scanned from the
left context p. -/
def CleanFrom (pm : Matcher) : Option Char → List Char → Prop
  | _, [] => True
  | p, c :: cs => pm p (c :: cs) = none ∧ CleanFrom pm (some c) cs

/-- The interface of a well-behaved matcher: a match consumes a
nonempty prefix of the text; the leading and trailing word boundaries
hold; the consumed text never contains the placeholder opener; the
matcher reads the left context only through its wordness; no match
starts inside the placeholder; and a match survives replacement of the
text after it whenever the trailing boundary still holds. -/
structure MFacts (pm : Matcher) : Prop where
  inv : ∀ p s c r, pm p s = some (c, r) → s = c ++ r ∧ c ≠ []
  lead : ∀ p s c r, pm p s = some (c, r) → bAt p s.head? = true
  trail : ∀ p s c r, pm p s = some (c, r) → bAt c.getLast? r.head? = true
  nob : ∀ p s c r, pm p s = some (c, r) → '[' ∉ c
  pinv : ∀ p q s, wordO p = wordO q → pm p s = pm q s
  ph : ∀ p u i, i < 10 → pm p (PHL.drop i ++ u) = none
  restRepl : ∀ p c r r2, pm p (c ++ r) = some (c, r) →
    bAt c.getLast? r2.head? = true → (pm p (c ++ r2)).isSome

/-- The decomposition of a full email match: local part, at sign, host,
dot, TLD, with the class and length constraints of the pattern. -/
def EmailShape (c : List Char) : Prop :=
  ∃ l h t, c = l ++ '@' :: (h ++ '.' :: t) ∧ l ≠ [] ∧
    (∀ a ∈ l, isLocalC a = true) ∧ h ≠ [] ∧ (∀ a ∈ h, isHostC a = true) ∧
    2 ≤ t.length ∧ (∀ a ∈ t, isTldC a = true)

/-! Specification-side predicates for argument validation, written from
the spec's words (spec.md section 4.4): required parameters present,
unknown parameter names rejected, each value matches its declared type,
enum membership, numeric range. These are compared with the source-side
Tool.validate_args. -/

/-- Spec-side: every required parameter of the schema is present. -/
def specRequiredPresent (ps : List ToolParameter) (args : Args) : Bool :=
  ps.all (fun p => !p.required || argsHas args p.name)

/-- Spec-side: every supplied argument names a declared parameter. -/
def specNoUnknown (ps : List ToolParameter) (args : Args) : Bool :=
  args.all (fun kv => ps.any (fun p => p.name == kv.1))

/-- Spec-side: one present value satisfies its parameter's declared type,
enum membership and numeric range (an absent or empty enum constrains
nothing, as in the source's truthiness test). -/
def specValueOK (p : ToolParameter) (v : PyVal) : Bool :=
  Tool.validate_type v p.type && !enumRejects p v &&
  (if isNumericType p.type then
    match v.toNum with
    | some x => !belowMin p x && !aboveMax p x
    | none => true
   else true)

/-- Spec-side: every supplied value for a declared parameter is valid. -/
def specValuesOK (ps : List ToolParameter) (args : Args) : Bool :=
  ps.all (fun p =>
    match argsGet args p.name with
    | none => true
    | some v => specValueOK p v)

/-- Spec-side conjunction of the enforced constraints (everything the
spec lists for validate_call except the regex pattern, which the source
does not check). -/
def specArgsOK (ps : List ToolParameter) (args : Args) : Bool :=
  specRequiredPresent ps args && specValuesOK ps args && specNoUnknown ps args

/-- Spec-side check that a string consists only of ASCII digits: the
meaning of the declared regex pattern of the counterexample tool below. -/
def digitsOnly (s : String) : Bool :=
  s.length > 0 && s.data.all Char.isDigit

/-- A tool carrying a declared regex `pattern` on its string parameter,
used to exhibit that validate_call never consults the pattern. The
parameter `code` declares pattern ^[0-9]+$ (digits only). -/
def patternedTool : Tool :=
  { name := "send_code"
    description := "Send a numeric code"
    schema := { parameters := [
      { name := "code", type := .string
        description := "Numeric code"
        required := true, pattern := some "^[0-9]+$" }] }
    permission := .READ, category := "test" }

/-- A registry in which the patterned tool is registered. -/
def patternedRegistry : ToolRegistry :=
  { tools := create_default_tools.tools ++ [patternedTool] }

/-! ## Equivalence of the source validator with the spec-side predicates -/

/-- Spec-side reading of the numeric range constraint: a declared minimum
or maximum bounds the value inclusively. -/
theorem range_ok_iff (p : ToolParameter) (x : Rat) :
    (!belowMin p x && !aboveMax p x) = true ↔
      ((∀ lo, p.min_value = some lo → lo ≤ x) ∧
       (∀ hi, p.max_value = some hi → x ≤ hi)) := by
  unfold belowMin aboveMax
  rcases p.min_value with _ | lo <;> rcases p.max_value with _ | hi <;>
    simp [not_lt]

theorem checkRequired_none (ps : List ToolParameter) (args : Args) :
    checkRequired ps args = none ↔ specRequiredPresent ps args = true := by
  induction ps with
  | nil => simp [checkRequired, specRequiredPresent]
  | cons p rest ih =>
    simp only [checkRequired, specRequiredPresent, List.all_cons] at *
    rcases h : (p.required && !(argsHas args p.name)) with _ | _
    · rw [if_neg (by simp [h])]
      have hside : (!p.required || argsHas args p.name) = true := by
        rcases hq : p.required with _ | _
        · simp
        · rcases ha : argsHas args p.name with _ | _
          · simp [hq, ha] at h
          · simp [ha]
      simp [hside, ih]
    · rw [if_pos (by simp [h])]
      rw [Bool.and_eq_true] at h
      rcases h with ⟨h1, h2⟩
      simp only [Bool.not_eq_true'] at h2
      simp [h1, h2]

theorem checkOneParam_none (p : ToolParameter) (v : PyVal) :
    checkOneParam p v = none ↔ specValueOK p v = true := by
  unfold checkOneParam specValueOK
  rcases ht : Tool.validate_type v p.type with _ | _
  · simp [ht]
  · rcases he : enumRejects p v with _ | _
    · simp only [ht, he, Bool.not_true, Bool.false_eq_true, if_neg,
        Bool.not_false, Bool.true_and, if_false]
      rcases hn : isNumericType p.type with _ | _
      · simp [hn]
      · simp only [hn, if_true]
        rcases hv : v.toNum with _ | x
        · simp
        · rcases hlo : belowMin p x with _ | _
          · rcases hhi : aboveMax p x with _ | _
            · simp [hlo, hhi]
            · simp [hlo, hhi]
          · simp [hlo]
    · simp [ht, he]

theorem argsGet_none_iff (args : Args) (k : String) :
    argsGet args k = none ↔ argsHas args k = false := by
  induction args with
  | nil => simp [argsGet, argsHas]
  | cons kv rest ih =>
    simp only [argsGet, argsHas] at *
    rcases h : (kv.1 == k) with _ | _
    · simpa [List.find?, h] using ih
    · simp [List.find?, h]

theorem checkParams_none (ps : List ToolParameter) (args : Args) :
    checkParams ps args = none ↔
      (specRequiredPresent ps args = true ∧ specValuesOK ps args = true) := by
  induction ps with
  | nil => simp [checkParams, specRequiredPresent, specValuesOK]
  | cons p rest ih =>
    simp only [checkParams, specRequiredPresent, specValuesOK,
      List.all_cons, Bool.and_eq_true] at *
    rcases hg : argsGet args p.name with _ | v
    · have hhas : argsHas args p.name = false := (argsGet_none_iff args p.name).mp hg
      simp only [hg]
      rcases hq : p.required with _ | _
      · simp only [hq, Bool.false_eq_true, if_false, ih, Bool.not_false,
          Bool.true_or, true_and]
      · simp [hq, hhas]
    · have hhas : argsHas args p.name = true := by
        rcases h : argsHas args p.name with _ | _
        · rw [(argsGet_none_iff args p.name).mpr h] at hg; cases hg
        · rfl
      simp only [hg]
      rcases hc : checkOneParam p v with _ | e
      · have hv := (checkOneParam_none p v).mp hc
        simp only [hc, ih, hhas, hv, Bool.or_true, true_and]
      · have hv : specValueOK p v = false := by
          rcases h : specValueOK p v with _ | _
          · rfl
          · rw [(checkOneParam_none p v).mpr h] at hc; cases hc
        simp [hc, hv]

theorem checkUnknown_none (args : Args) (ps : List ToolParameter) :
    checkUnknown args ps = none ↔ specNoUnknown ps args = true := by
  induction args with
  | nil => simp [checkUnknown, specNoUnknown]
  | cons kv rest ih =>
    simp only [checkUnknown, specNoUnknown, List.all_cons]
    by_cases h : (ps.any (fun p => p.name == kv.1)) = true
    · simp [h, ih, specNoUnknown]
    · simp only [Bool.not_eq_true] at h
      simp [h]

theorem validate_args_shape (t : Tool) (args : Args) :
    t.validate_args args = (true, none) ∨
      ∃ e, t.validate_args args = (false, some e) := by
  unfold Tool.validate_args
  rcases checkRequired t.schema.parameters args with _ | e
  · rcases checkParams t.schema.parameters args with _ | e
    · rcases checkUnknown args t.schema.parameters with _ | e
      · exact Or.inl rfl
      · exact Or.inr ⟨e, rfl⟩
    · exact Or.inr ⟨e, rfl⟩
  · exact Or.inr ⟨e, rfl⟩

theorem validate_args_true_iff (t : Tool) (args : Args) :
    t.validate_args args = (true, none) ↔
      specArgsOK t.schema.parameters args = true := by
  unfold Tool.validate_args specArgsOK
  rcases hr : checkRequired t.schema.parameters args with _ | e
  · rcases hp : checkParams t.schema.parameters args with _ | e
    · rcases hu : checkUnknown args t.schema.parameters with _ | e
      · have h2 := (checkParams_none _ args).mp hp
        have h3 := (checkUnknown_none args _).mp hu
        simp [h2.1, h2.2, h3]
      · have h3 : specNoUnknown t.schema.parameters args = false := by
          rcases h : specNoUnknown t.schema.parameters args with _ | _
          · rfl
          · rw [(checkUnknown_none args _).mpr h] at hu; cases hu
        simp [h3]
    · constructor
      · intro h; cases h
      · intro h
        simp only [Bool.and_eq_true] at h
        rcases h with ⟨⟨ha, hb⟩, _⟩
        rw [(checkParams_none _ args).mpr ⟨ha, hb⟩] at hp; cases hp
  · constructor
    · intro h; cases h
    · intro h
      simp only [Bool.and_eq_true] at h
      rcases h with ⟨⟨ha, _⟩, _⟩
      rw [(checkRequired_none _ args).mpr ha] at hr; cases hr

/-- C4 (counterexample): the claim says validate_call enforces the regex
pattern of string parameters, but the source never reads `pattern`: the
registered tool `send_code` declares pattern ^[0-9]+$ on its `code`
parameter, yet the call with code "abc" (which is not digits-only)
validates as (ok=true, no error). -/
theorem C4_pattern_not_enforced :
    (patternedTool.schema.parameters.head?.map ToolParameter.pattern
      = some (some "^[0-9]+$")) ∧
    digitsOnly "abc" = false ∧
    patternedRegistry.validate_tool_call "send_code"
      [("code", PyVal.vStr "abc")] = (true, none) := by
  refine ⟨rfl, rfl, by decide⟩

/-- C4 (amended): for every registered tool and argument map,
validate_call returns (ok=true, no error) exactly when all of the
declared constraints other than the regex pattern hold (required
parameters present, no unknown names, declared types, enum membership,
numeric range); when any of those is violated it returns ok=false with
an error message. The declared regex pattern is not checked. -/
theorem C4_validate_call_checks (r : ToolRegistry) (name : String)
    (t : Tool) (args : Args) (h : r.get name = some t) :
    (r.validate_tool_call name args = (true, none) ↔
      specArgsOK t.schema.parameters args = true) ∧
    (specArgsOK t.schema.parameters args = false →
      ∃ e, r.validate_tool_call name args = (false, some e)) := by
  unfold ToolRegistry.validate_tool_call
  rw [h]
  constructor
  · exact validate_args_true_iff t args
  · intro hbad
    rcases validate_args_shape t args with hok | ⟨e, he⟩
    · rw [(validate_args_true_iff t args).mp hok] at hbad; cases hbad
    · exact ⟨e, he⟩

/-- Witness for C4: the amended theorem applied to the registered tool
set_volume with the in-range argument level=50, whose validation
succeeds and satisfies the spec-side conjunction. -/
theorem C4_validate_call_checks_witness :
    ((create_default_tools.validate_tool_call "set_volume"
        [("level", PyVal.vInt 50)] = (true, none) ↔
      specArgsOK setVolumeTool.schema.parameters
        [("level", PyVal.vInt 50)] = true) ∧
    (specArgsOK setVolumeTool.schema.parameters
        [("level", PyVal.vInt 50)] = false →
      ∃ e, create_default_tools.validate_tool_call "set_volume"
        [("level", PyVal.vInt 50)] = (false, some e))) ∧
    create_default_tools.validate_tool_call "set_volume"
        [("level", PyVal.vInt 50)] = (true, none) :=
  ⟨C4_validate_call_checks create_default_tools "set_volume" setVolumeTool
    [("level", PyVal.vInt 50)] (by decide), by decide⟩

/-- C10: a Python boolean passes the integer (and number) type check of
argument validation because bool is a subclass of int in Python, so
validate_call("set_volume", (lambda) level=True) succeeds, the value True
also passing the 0..100 range check (True == 1). -/
theorem C10_bool_accepted_as_integer :
    (∀ b : Bool, Tool.validate_type (PyVal.vBool b) ParameterType.integer = true ∧
      Tool.validate_type (PyVal.vBool b) ParameterType.number = true) ∧
    create_default_tools.validate_tool_call "set_volume"
      [("level", PyVal.vBool true)] = (true, none) := by
  refine ⟨fun b => ⟨rfl, rfl⟩, by decide⟩

/-- C5 (counterexample): the claim is stated for every authority check,
but when the required level is always-blocked (ADMIN in the default
configuration) the check returns DENIED_NO_GRANT before consulting the
lookup, even though the session-then-default lookup would find a revoked
grant: tool "wipe_disk" has a revoked grant, yet check at ADMIN level
yields DENIED_NO_GRANT, not DENIED_REVOKED. -/
theorem C5_always_blocked_shadows_revoked :
    ((revokedAdminAuthority.find_grant "wipe_disk" PermissionLevel.ADMIN).map
        PermissionGrant.revoked = some true) ∧
    (revokedAdminAuthority.check "wipe_disk" PermissionLevel.ADMIN 0
        none).1.status = GrantStatus.DENIED_NO_GRANT := by
  refine ⟨by decide, by decide⟩

/-- C5 (amended): for every authority check whose required level is not
always-blocked, if the grant found by the session-then-default lookup is
revoked the status is DENIED_REVOKED; if the found grant is unrevoked
but invalid (expired) the status is DENIED_EXPIRED; and if the found
grant is valid, the required level is in the confirmation-required set
and the grant's source is "default", the status is
REQUIRES_CONFIRMATION rather than GRANTED. -/
theorem C5_check_statuses (a : ToolAuthority) (tool : String)
    (level : PermissionLevel) (now : Int) (tid : Option String)
    (g : PermissionGrant)
    (hnb : a.always_blocked.contains level = false)
    (hfind : a.find_grant tool level = some g) :
    (g.revoked = true →
      (a.check tool level now tid).1.status = GrantStatus.DENIED_REVOKED) ∧
    (g.revoked = false → g.is_valid now = false →
      (a.check tool level now tid).1.status = GrantStatus.DENIED_EXPIRED) ∧
    (g.is_valid now = true →
      a.confirmation_required.contains level = true → g.source = "default" →
      (a.check tool level now tid).1.status =
        GrantStatus.REQUIRES_CONFIRMATION) := by
  unfold ToolAuthority.check
  simp only [hnb, Bool.false_eq_true, if_false, hfind]
  refine ⟨?_, ?_, ?_⟩
  · intro hrev
    simp [hrev]
  · intro hrev hval
    simp [hrev, hval]
  · intro hval hconf hsrc
    have hrev : g.revoked = false := by
      rcases h : g.revoked with _ | _
      · rfl
      · unfold PermissionGrant.is_valid at hval
        rw [h] at hval
        simp at hval
    have hmem : level ∈ a.confirmation_required := by
      simpa using hconf
    simp [hrev, hval, hmem, hsrc]

/-- Witness for C5: under the default configuration a revoked
default-sourced WRITE grant for "save_note" yields DENIED_REVOKED. -/
theorem C5_check_statuses_witness :
    (revokedWriteAuthority.check "save_note" PermissionLevel.WRITE 0
      none).1.status = GrantStatus.DENIED_REVOKED :=
  (C5_check_statuses revokedWriteAuthority "save_note" PermissionLevel.WRITE 0
    none
    { target := "save_note", level := .WRITE, revoked := true
      source := "default" }
    (by decide) (by decide)).1 (by decide)

/-- C6: a breaker in CLOSED opens on a recorded failure exactly when the
incremented consecutive failure count reaches the failure threshold (a
success in CLOSED resets the count, keeping it consecutive); while OPEN
with the recovery timeout not yet elapsed, the state reads OPEN and
every call is rejected with the remaining recovery seconds; once
now - last_failure_time reaches recovery_timeout, the next read of the
state property moves the breaker to HALF_OPEN and resets the success
count. -/
theorem C6_breaker_transitions (cb : CircuitBreaker) (now : Int) :
    (cb.stateF = .CLOSED →
      (((cb.record_failure now).stateF = .OPEN ↔
          cb.failure_threshold ≤ cb.failure_count + 1) ∧
        (cb.record_success).failure_count = 0)) ∧
    (cb.stateF = .OPEN → ∀ t, cb.last_failure_time = some t →
      ((now - t < cb.recovery_timeout →
          (cb.state now).1 = .OPEN ∧ (cb.state now).2 = cb ∧
          ∀ f : Except Unit Unit,
            (cb.call now f).1 =
              .circuitOpen (cb.get_remaining_timeout now) ∧
            (cb.call now f).2 = cb) ∧
       (cb.recovery_timeout ≤ now - t →
          cb.state now =
            (.HALF_OPEN,
              { cb with stateF := .HALF_OPEN, success_count := 0 })))) := by
  constructor
  · intro hc
    constructor
    · unfold CircuitBreaker.record_failure
      rw [hc]
      by_cases h : cb.failure_threshold ≤ cb.failure_count + 1
      · simp [h]
      · simp [h]
    · unfold CircuitBreaker.record_success
      rw [hc]
  · intro ho t ht
    constructor
    · intro hlt
      have hrec : cb.should_attempt_recovery now = false := by
        unfold CircuitBreaker.should_attempt_recovery
        rw [ht]
        simp [not_le.mpr hlt]
      have hst : cb.state now = (CircuitState.OPEN, cb) := by
        unfold CircuitBreaker.state
        rw [if_neg]
        · rw [ho]
        · intro hand
          rw [hrec] at hand
          exact Bool.false_ne_true hand.2
      refine ⟨by rw [hst], by rw [hst], ?_⟩
      intro f
      unfold CircuitBreaker.call
      rw [hst]
      simp
    · intro hge
      have hrec : cb.should_attempt_recovery now = true := by
        unfold CircuitBreaker.should_attempt_recovery
        rw [ht]
        simp [hge]
      unfold CircuitBreaker.state
      rw [if_pos ⟨ho, hrec⟩]

/-- Witness for C6: a closed breaker with threshold 3 and two prior
failures opens on the third failure, and an open breaker twenty seconds
after its last failure (timeout 30) rejects a call with ten seconds
remaining, then transitions to HALF_OPEN once thirty seconds elapsed. -/
theorem C6_breaker_transitions_witness :
    (({ name := "flaky", failure_threshold := 3, failure_count := 2,
        stateF := .CLOSED : CircuitBreaker }.record_failure 100).stateF
        = .OPEN ↔ (3 : Nat) ≤ 2 + 1) ∧
    (({ name := "flaky", failure_threshold := 3, stateF := .OPEN,
        last_failure_time := some 0 : CircuitBreaker }.call 20
        (Except.ok ())).1 = CallResult.circuitOpen 10) ∧
    ({ name := "flaky", failure_threshold := 3, stateF := .OPEN,
        last_failure_time := some 0 : CircuitBreaker }.state 30).1
        = .HALF_OPEN := by
  refine ⟨?_, ?_, ?_⟩
  · exact (((C6_breaker_transitions
      { name := "flaky", failure_threshold := 3, failure_count := 2,
        stateF := .CLOSED } 100).1 rfl).1)
  · have h := (((C6_breaker_transitions
      { name := "flaky", failure_threshold := 3, stateF := .OPEN,
        last_failure_time := some 0 } 20).2 rfl 0 rfl).1 (by norm_num))
    have h2 := (h.2.2 (Except.ok ())).1
    rw [h2]
    norm_num [CircuitBreaker.get_remaining_timeout]
  · have h := (((C6_breaker_transitions
      { name := "flaky", failure_threshold := 3, stateF := .OPEN,
        last_failure_time := some 0 } 30).2 rfl 0 rfl).2 (by norm_num))
    rw [h]

/-- C7 (counterexample): the claim says value/type-class exceptions (both
ValueError and TypeError) map to VALIDATION_ERROR, but classify only
tests isinstance(e, ValueError); TypeError is not a ValueError subclass,
so a TypeError is classified TOOL_FAILURE. -/
theorem C7_typeerror_not_validation :
    (classify_exception PyException.typeError "t").category =
      ErrorCategory.TOOL_FAILURE ∧
    ErrorCategory.TOOL_FAILURE ≠ ErrorCategory.VALIDATION_ERROR := by
  refine ⟨rfl, by decide⟩

/-- C7 (amended): classify maps timeout exceptions to TIMEOUT_ERROR (even
though TimeoutError is an OSError, the timeout test comes first),
permission-class to PERMISSION_ERROR, the remaining network/OS-class
exceptions (ConnectionError, FileNotFoundError, plain OSError) to
NETWORK_ERROR, value-class exceptions (ValueError and its subclasses,
but NOT TypeError) to VALIDATION_ERROR, and everything else — including
TypeError — to TOOL_FAILURE; every such error is marked recoverable. -/
theorem C7_classify_mapping : ∀ tool : String,
    (classify_exception .timeoutError tool).category = .TIMEOUT_ERROR ∧
    (classify_exception .permissionError tool).category = .PERMISSION_ERROR ∧
    (classify_exception .connectionError tool).category = .NETWORK_ERROR ∧
    (classify_exception .osError tool).category = .NETWORK_ERROR ∧
    (classify_exception .fileNotFoundError tool).category = .NETWORK_ERROR ∧
    (classify_exception .valueError tool).category = .VALIDATION_ERROR ∧
    (classify_exception .unicodeDecodeError tool).category = .VALIDATION_ERROR ∧
    (classify_exception .typeError tool).category = .TOOL_FAILURE ∧
    (classify_exception .keyError tool).category = .TOOL_FAILURE ∧
    (classify_exception .runtimeError tool).category = .TOOL_FAILURE ∧
    (classify_exception .zeroDivisionError tool).category = .TOOL_FAILURE ∧
    (∀ e : PyException, (classify_exception e tool).recoverable = true) := by
  intro tool
  refine ⟨rfl, rfl, rfl, rfl, rfl, rfl, rfl, rfl, rfl, rfl, rfl, ?_⟩
  intro e
  cases e <;> rfl

theorem pruneOnStartup_schema (db : DBState) :
    (pruneOnStartup db).schema_rows = db.schema_rows := by
  unfold pruneOnStartup
  dsimp only
  split <;> rfl

/-- C9: when the database's recorded schema version is greater than the
code's version, initialization halts with SchemaMismatchError and
produces no new state (no pruning, no write, contents unchanged); when
the versions are equal, no migration runs and no schema_version row is
added — the only effect is startup pruning, which leaves the
schema_version table untouched. -/
theorem C9_schema_version_gate (db : DBState) (v : Nat)
    (hv : getSchemaVersion db = some v) :
    (SCHEMA_VERSION < v →
      DatabaseManager.initialize db = .error .schemaMismatchError) ∧
    (v = SCHEMA_VERSION →
      DatabaseManager.initialize db = .ok (pruneOnStartup db) ∧
      (pruneOnStartup db).schema_rows = db.schema_rows) := by
  unfold DatabaseManager.initialize
  rw [hv]
  dsimp only
  constructor
  · intro hgt
    rw [if_neg (by omega), if_pos hgt]
  · intro heq
    subst heq
    rw [if_neg (by omega), if_neg (by omega)]
    exact ⟨rfl, pruneOnStartup_schema db⟩

/-- Witness for C9: a database recorded at version 2 is rejected by the
version-1 code, and a database recorded at version 1 initializes with
its schema_version rows unchanged. -/
theorem C9_schema_version_gate_witness :
    DatabaseManager.initialize { schema_rows := [2] } =
      .error .schemaMismatchError ∧
    ( DatabaseManager.initialize { schema_rows := [1] } =
      .ok (pruneOnStartup { schema_rows := [1] }) ∧
     (pruneOnStartup { schema_rows := [1] : DBState }).schema_rows = [1]) :=
  ⟨(C9_schema_version_gate { schema_rows := [2] } 2 rfl).1 (by decide),
   (C9_schema_version_gate { schema_rows := [1] } 1 rfl).2 rfl⟩

/-! ## Audit chain lemmas -/

theorem lastHash_append_one (l : List AuditEntry) (e : AuditEntry)
    (prev : String) : lastHash (l ++ [e]) prev = e.entry_hash := by
  simp [lastHash]

theorem lastHash_cons_ne (y : AuditEntry) (ys : List AuditEntry)
    (p q : String) : lastHash (y :: ys) p = lastHash (y :: ys) q := by
  unfold lastHash
  rcases h : (y :: ys).getLast? with _ | z
  · rw [List.getLast?_eq_none_iff] at h
    cases h
  · rfl

theorem chain_append_one (hmac : String → String) (prev : String)
    (nid : Nat) (l : List AuditEntry) (e : AuditEntry)
    (hc : Chain hmac prev nid l)
    (h1 : e.prev_hash = lastHash l prev)
    (h2 : e.entry_hash = computeHash hmac e e.prev_hash)
    (h3 : e.id = nid + l.length) :
    Chain hmac prev nid (l ++ [e]) := by
  induction l generalizing prev nid with
  | nil =>
    simp only [List.nil_append]
    refine ⟨by simpa [lastHash] using h1, ?_, by simpa using h3, trivial⟩
    rw [h2, h1]
    simp [lastHash]
  | cons x xs ih =>
    obtain ⟨hx1, hx2, hx3, hxs⟩ := hc
    refine ⟨hx1, hx2, hx3, ?_⟩
    refine ih x.entry_hash (nid + 1) hxs ?_ ?_
    · rw [h1]
      rcases xs with _ | ⟨y, ys⟩
      · simp [lastHash]
      · exact lastHash_cons_ne y ys prev x.entry_hash
    · rw [List.length_cons] at h3
      rw [h3]
      omega

theorem chain_split (hmac : String → String) (prev : String) (nid : Nat)
    (l1 l2 : List AuditEntry) (hc : Chain hmac prev nid (l1 ++ l2)) :
    Chain hmac prev nid l1 ∧
      Chain hmac (lastHash l1 prev) (nid + l1.length) l2 := by
  induction l1 generalizing prev nid with
  | nil =>
    simpa [Chain, lastHash] using hc
  | cons x xs ih =>
    obtain ⟨hx1, hx2, hx3, hrest⟩ := hc
    obtain ⟨ha, hb⟩ := ih x.entry_hash (nid + 1) hrest
    refine ⟨⟨hx1, hx2, hx3, ha⟩, ?_⟩
    have hlh : lastHash (x :: xs) prev = lastHash xs x.entry_hash := by
      rcases xs with _ | ⟨y, ys⟩
      · simp [lastHash]
      · exact lastHash_cons_ne y ys prev x.entry_hash
    rw [hlh]
    have harith : nid + (x :: xs).length = nid + 1 + xs.length := by
      rw [List.length_cons]
      omega
    rw [harith]
    exact hb

theorem chain_id_bounds (hmac : String → String) (prev : String)
    (nid : Nat) (l : List AuditEntry) (hc : Chain hmac prev nid l) :
    ∀ x ∈ l, nid ≤ x.id ∧ x.id < nid + l.length := by
  induction l generalizing prev nid with
  | nil => intro x hx; cases hx
  | cons e rest ih =>
    obtain ⟨_, _, h3, hrest⟩ := hc
    intro x hx
    rcases List.mem_cons.mp hx with hx | hx
    · subst hx
      rw [List.length_cons]
      constructor
      · omega
      · omega
    · have hb := ih e.entry_hash (nid + 1) hrest x hx
      rw [List.length_cons]
      constructor
      · omega
      · omega

theorem log_chain (hmac : String → String) (s : AuditState)
    (ev : LogEvent) (hc : Chain hmac GENESIS_HASH 1 s.entries) :
    Chain hmac GENESIS_HASH 1 (AuditLog.log hmac s ev).1.entries := by
  unfold AuditLog.log
  dsimp only
  refine chain_append_one hmac GENESIS_HASH 1 s.entries _ hc ?_ ?_ ?_
  · show getLastHash s = lastHash s.entries GENESIS_HASH
    unfold getLastHash lastHash
    rfl
  · rfl
  · show s.entries.length + 1 = 1 + s.entries.length
    omega

theorem logAll_chain (hmac : String → String) (evs : List LogEvent)
    (s : AuditState) (hc : Chain hmac GENESIS_HASH 1 s.entries) :
    Chain hmac GENESIS_HASH 1 (AuditLog.logAll hmac s evs).entries := by
  induction evs generalizing s with
  | nil => exact hc
  | cons ev rest ih =>
    exact ih _ (log_chain hmac s ev hc)

theorem logAll_length (hmac : String → String) (evs : List LogEvent)
    (s : AuditState) :
    (AuditLog.logAll hmac s evs).entries.length =
      s.entries.length + evs.length := by
  induction evs generalizing s with
  | nil => simp [AuditLog.logAll]
  | cons ev rest ih =>
    simp only [AuditLog.logAll]
    rw [ih]
    simp [AuditLog.log]
    omega

theorem verifyLoop_ok (hmac : String → String) (expected : String)
    (c nid : Nat) (l : List AuditEntry)
    (hc : Chain hmac expected nid l) :
    verifyLoop hmac expected c l =
      { valid := true, entries_checked := c + l.length } := by
  induction l generalizing expected c nid with
  | nil => simp [verifyLoop]
  | cons e rest ih =>
    obtain ⟨h1, h2, _, hrest⟩ := hc
    unfold verifyLoop
    rw [if_neg (by simp [h1]), if_neg (by rw [h1]; simp [← h2])]
    rw [ih e.entry_hash (c + 1) (nid + 1) hrest]
    simp; omega

theorem map_id_of_fix {A : Type} (f : A → A) (l : List A)
    (h : ∀ x ∈ l, f x = x) : l.map f = l := by
  induction l with
  | nil => rfl
  | cons x xs ih =>
    rw [List.map_cons, h x (by simp), ih (fun y hy => h y (by simp [hy]))]

theorem verifyLoop_append (hmac : String → String) (expected : String)
    (c nid : Nat) (l rest : List AuditEntry)
    (hc : Chain hmac expected nid l) :
    verifyLoop hmac expected c (l ++ rest) =
      verifyLoop hmac (lastHash l expected) (c + l.length) rest := by
  induction l generalizing expected c nid with
  | nil => simp [lastHash]
  | cons e l ih =>
    obtain ⟨h1, h2, _, hrest⟩ := hc
    conv_lhs => rw [List.cons_append]; unfold verifyLoop
    rw [if_neg (by simp [h1]), if_neg (by rw [h1]; simp [← h2])]
    rw [ih e.entry_hash (c + 1) (nid + 1) hrest]
    have hlh : lastHash (e :: l) expected = lastHash l e.entry_hash := by
      rcases l with _ | ⟨y, ys⟩
      · simp [lastHash]
      · exact lastHash_cons_ne y ys expected e.entry_hash
    rw [hlh, List.length_cons]
    have harith : c + 1 + l.length = c + (l.length + 1) := by omega
    rw [harith]

theorem chain_get_id (hmac : String → String) (prev : String) (nid : Nat)
    (l : List AuditEntry) (hc : Chain hmac prev nid l) :
    ∀ i (h : i < l.length), (l.get ⟨i, h⟩).id = nid + i := by
  induction l generalizing prev nid with
  | nil => intro i h; cases h
  | cons e rest ih =>
    obtain ⟨_, _, h3, hrest⟩ := hc
    intro i h
    rcases i with _ | i
    · simpa using h3
    · have := ih e.entry_hash (nid + 1) hrest i (by simpa using Nat.lt_of_succ_lt_succ h)
      simp only [List.get_cons_succ]
      rw [this]
      omega

theorem chain_get_hash (hmac : String → String) (prev : String) (nid : Nat)
    (l : List AuditEntry) (hc : Chain hmac prev nid l) :
    ∀ i (h : i < l.length),
      (l.get ⟨i, h⟩).entry_hash =
        computeHash hmac (l.get ⟨i, h⟩) ((l.get ⟨i, h⟩).prev_hash) := by
  induction l generalizing prev nid with
  | nil => intro i h; cases h
  | cons e rest ih =>
    obtain ⟨h1, h2, _, hrest⟩ := hc
    intro i h
    rcases i with _ | i
    · show e.entry_hash = computeHash hmac e e.prev_hash
      rw [h2, h1]
    · exact ih e.entry_hash (nid + 1) hrest i (by simpa using Nat.lt_of_succ_lt_succ h)

theorem chain_get_prev_zero (hmac : String → String) (prev : String)
    (nid : Nat) (l : List AuditEntry) (hc : Chain hmac prev nid l)
    (h : 0 < l.length) : (l.get ⟨0, h⟩).prev_hash = prev := by
  rcases l with _ | ⟨e, rest⟩
  · cases h
  · exact hc.1

theorem chain_get_link (hmac : String → String) (prev : String) (nid : Nat)
    (l : List AuditEntry) (hc : Chain hmac prev nid l) :
    ∀ i (h : i + 1 < l.length),
      (l.get ⟨i + 1, h⟩).prev_hash =
        (l.get ⟨i, Nat.lt_of_succ_lt h⟩).entry_hash := by
  induction l generalizing prev nid with
  | nil => intro i h; cases h
  | cons e rest ih =>
    obtain ⟨_, _, _, hrest⟩ := hc
    intro i h
    rcases i with _ | i
    · simp only [List.get_cons_succ, List.get_cons_zero]
      exact chain_get_prev_zero hmac e.entry_hash (nid + 1) rest hrest
        (by simpa using Nat.lt_of_succ_lt_succ h)
    · simp only [List.get_cons_succ]
      exact ih e.entry_hash (nid + 1) hrest i (by simpa using Nat.lt_of_succ_lt_succ h)

theorem verify_full (hmac : String → String) (s : AuditState)
    (hc : Chain hmac GENESIS_HASH 1 s.entries) :
    AuditLog.verify_chain hmac s 1 none =
      { valid := true, entries_checked := s.entries.length } := by
  unfold AuditLog.verify_chain
  dsimp only
  have hfilter : s.entries.filter (fun x => 1 ≤ x.id && true) = s.entries := by
    rw [List.filter_eq_self]
    intro x hx
    have := (chain_id_bounds hmac _ _ s.entries hc x hx).1
    simp
    omega
  rw [hfilter]
  rcases hE : s.entries with _ | ⟨e, rest⟩
  · rw [if_pos (by simp)]
    simp [hE]
  · rw [if_neg (by simp)]
    rw [if_pos rfl]
    rw [hE] at hc
    have := verifyLoop_ok hmac GENESIS_HASH 0 1 (e :: rest) hc
    rw [this]
    simp

/-! ## Canonical payload injectivity and tamper detection -/

theorem parseBody_esc : ∀ (l rest : List Char),
    parseBody (l.flatMap escChar ++ '"' :: rest) = some (l, rest) := by
  intro l
  induction l with
  | nil =>
    intro rest
    simp only [List.flatMap_nil, List.nil_append]
    unfold parseBody
    rw [if_pos rfl]
  | cons c cs ih =>
    intro rest
    rw [List.flatMap_cons]
    by_cases h1 : c = '"'
    · subst h1
      rw [show escChar '"' = ['\\', '"'] from rfl]
      simp only [List.cons_append, List.singleton_append, List.append_assoc]
      unfold parseBody
      rw [if_neg (by decide), if_pos rfl]
      dsimp only
      rw [List.nil_append, ih rest]
    · by_cases h2 : c = '\\'
      · subst h2
        rw [show escChar '\\' = ['\\', '\\'] from rfl]
        simp only [List.cons_append, List.singleton_append, List.append_assoc]
        unfold parseBody
        rw [if_neg (by decide), if_pos rfl]
        dsimp only
        rw [List.nil_append, ih rest]
      · rw [show escChar c = [c] from by unfold escChar; rw [if_neg h1, if_neg h2]]
        simp only [List.cons_append, List.singleton_append, List.nil_append]
        unfold parseBody
        rw [if_neg h1, if_neg h2]
        rw [ih rest]

theorem parseStr_jsonStr (x : String) (rest : List Char) :
    parseStr ((jsonStr x).data ++ rest) = some (x.data, rest) := by
  have hform : (jsonStr x).data ++ rest =
      '"' :: (x.data.flatMap escChar ++ '"' :: rest) := by
    unfold jsonStr escStr
    simp [String.data_append]
  rw [hform]
  unfold parseStr
  dsimp only
  rw [if_pos rfl]
  exact parseBody_esc x.data rest

theorem str_cancel_left (a b c : String) (h : a ++ b = a ++ c) : b = c := by
  have hd := congrArg String.data h
  simp only [String.data_append] at hd
  exact String.ext (List.append_cancel_left hd)

theorem peel_jstr (x y r1 r2 : String)
    (h : jsonStr x ++ r1 = jsonStr y ++ r2) : x = y ∧ r1 = r2 := by
  have hp := congrArg (fun t => parseStr t.data) h
  simp only [String.data_append] at hp
  rw [parseStr_jsonStr x r1.data, parseStr_jsonStr y r2.data] at hp
  rw [Option.some.injEq, Prod.mk.injEq] at hp
  exact ⟨String.ext hp.1, String.ext hp.2⟩

theorem peel_jopt (o1 o2 : Option String) (r1 r2 : String)
    (h : jsonOptStr o1 ++ r1 = jsonOptStr o2 ++ r2) : o1 = o2 ∧ r1 = r2 := by
  rcases o1 with _ | x <;> rcases o2 with _ | y
  · exact ⟨rfl, str_cancel_left _ _ _ h⟩
  · exfalso
    have hd : (jsonOptStr none ++ r1).data.head? = some 'n' := rfl
    rw [h] at hd
    have hd2 : (jsonOptStr (some y) ++ r2).data.head? = some '"' := rfl
    rw [hd2] at hd
    exact absurd hd (by decide)
  · exfalso
    have hd : (jsonOptStr (some x) ++ r1).data.head? = some '"' := rfl
    rw [h] at hd
    have hd2 : (jsonOptStr none ++ r2).data.head? = some 'n' := rfl
    rw [hd2] at hd
    exact absurd hd (by decide)
  · obtain ⟨hxy, hr⟩ := peel_jstr x y r1 r2 (by simpa [jsonOptStr] using h)
    exact ⟨by rw [hxy], hr⟩


theorem kvItems_len_le : ∀ (ks : List (String × String)) (r : List Char),
    ks.length ≤ ((kvItems ks).data ++ '\x7d' :: r).length := by
  intro ks
  induction ks with
  | nil => intro r; simp
  | cons kv rest ih =>
    intro r
    cases rest with
    | nil =>
      simp only [kvItems, List.length_cons, List.length_nil,
        String.data_append, List.length_append, List.append_assoc]
      omega
    | cons kv2 rest2 =>
      have hih := ih r
      simp only [kvItems, List.length_cons, String.data_append,
        List.length_append, List.append_assoc] at hih ⊢
      omega

theorem parseKVs_retract : ∀ (ks : List (String × String)) (fuel : Nat)
    (r : List Char), ks ≠ [] → ks.length ≤ fuel →
    parseKVs fuel ((kvItems ks).data ++ '\x7d' :: r) = some (ks, r) := by
  intro ks
  induction ks with
  | nil => intro fuel r hne _; exact absurd rfl hne
  | cons kv rest ih =>
    intro fuel r _ hfuel
    obtain ⟨f, rfl⟩ : ∃ f, fuel = f + 1 :=
      ⟨fuel - 1, by rw [List.length_cons] at hfuel; omega⟩
    have hcolon : (":" : String).data = [':'] := rfl
    have hcomma : ("," : String).data = [','] := rfl
    cases rest with
    | nil =>
      have hform : (kvItems [kv]).data ++ '\x7d' :: r =
          (jsonStr kv.1).data ++
            (':' :: ((jsonStr kv.2).data ++ '\x7d' :: r)) := by
        simp [kvItems, String.data_append, hcolon, List.append_assoc]
      rw [hform]
      simp only [parseKVs]
      rw [parseStr_jsonStr kv.1 (':' :: ((jsonStr kv.2).data ++ '\x7d' :: r))]
      dsimp only
      rw [if_pos rfl]
      rw [parseStr_jsonStr kv.2 ('\x7d' :: r)]
      dsimp only
      rw [if_neg (by decide), if_pos rfl]
    | cons kv2 rest2 =>
      have hform : (kvItems (kv :: kv2 :: rest2)).data ++ '\x7d' :: r =
          (jsonStr kv.1).data ++
            (':' :: ((jsonStr kv.2).data ++
              (',' :: ((kvItems (kv2 :: rest2)).data ++ '\x7d' :: r)))) := by
        simp [kvItems, String.data_append, hcolon, hcomma, List.append_assoc]
      rw [hform]
      simp only [parseKVs]
      rw [parseStr_jsonStr kv.1 _]
      dsimp only
      rw [if_pos rfl]
      rw [parseStr_jsonStr kv.2 _]
      dsimp only
      rw [if_pos rfl]
      rw [ih f r (by simp) (by rw [List.length_cons] at hfuel; omega)]

theorem parseDetails_null (r : List Char) :
    parseDetails ((jsonDetails none).data ++ r) = some (none, r) := rfl

theorem parseDetails_some (kvs : List (String × String)) (r : List Char) :
    parseDetails ((jsonDetails (some kvs)).data ++ r) =
      some (some (sortKVs kvs), r) := by
  have hob : ("\x7b" : String).data = ['\x7b'] := rfl
  have hcb : ("\x7d" : String).data = ['\x7d'] := rfl
  rcases hks : sortKVs kvs with _ | ⟨kv, rest⟩
  · have hform : (jsonDetails (some kvs)).data ++ r = '\x7b' :: '\x7d' :: r := by
      unfold jsonDetails
      dsimp only
      rw [hks]
      simp [kvItems, String.data_append, hob, hcb]
    rw [hform]
    rfl
  · have hform : (jsonDetails (some kvs)).data ++ r =
        '\x7b' :: ((kvItems (kv :: rest)).data ++ '\x7d' :: r) := by
      unfold jsonDetails
      dsimp only
      rw [hks]
      simp [String.data_append, hob, hcb, List.append_assoc]
    rw [hform]
    obtain ⟨tl, htl⟩ : ∃ tl,
        (kvItems (kv :: rest)).data ++ '\x7d' :: r = '"' :: tl := by
      rcases rest with _ | ⟨kv2, rest2⟩
      · refine ⟨(escStr kv.1).data ++ '"' :: (":" ++ jsonStr kv.2).data ++
          '\x7d' :: r, ?_⟩
        simp [kvItems, jsonStr, String.data_append, List.append_assoc]
      · refine ⟨(escStr kv.1).data ++ '"' ::
          (":" ++ jsonStr kv.2 ++ "," ++ kvItems (kv2 :: rest2)).data ++
          '\x7d' :: r, ?_⟩
        simp [kvItems, jsonStr, String.data_append, List.append_assoc]
    unfold parseDetails
    dsimp only
    rw [if_neg (by decide), if_pos rfl]
    rw [htl]
    dsimp only
    rw [if_neg (by decide)]
    rw [← htl]
    rw [parseKVs_retract (kv :: rest) _ r (by simp) (kvItems_len_le (kv :: rest) r)]

theorem peel_jdet (d1 d2 : Option (List (String × String))) (r1 r2 : String)
    (h : jsonDetails d1 ++ r1 = jsonDetails d2 ++ r2) :
    jsonDetails d1 = jsonDetails d2 ∧ r1 = r2 := by
  have hp := congrArg (fun t => parseDetails t.data) h
  simp only [String.data_append] at hp
  rcases d1 with _ | kvs1 <;> rcases d2 with _ | kvs2
  · exact ⟨rfl, str_cancel_left _ _ _ h⟩
  · rw [parseDetails_null, parseDetails_some] at hp
    simp only [Option.some.injEq, Prod.mk.injEq] at hp
    exact absurd hp.1 (by simp)
  · rw [parseDetails_some, parseDetails_null] at hp
    simp only [Option.some.injEq, Prod.mk.injEq] at hp
    exact absurd hp.1 (by simp)
  · rw [parseDetails_some, parseDetails_some] at hp
    simp only [Option.some.injEq, Prod.mk.injEq] at hp
    obtain ⟨hs, hr⟩ := hp
    refine ⟨?_, String.ext hr⟩
    unfold jsonDetails
    dsimp only
    rw [hs]


theorem actor_value_inj : ∀ a b : Actor,
    Actor.value a = Actor.value b → a = b := by
  intro a b
  cases a <;> cases b <;>
    first
    | (intro _; rfl)
    | (intro h; exact absurd h (by decide))

theorem event_value_inj : ∀ a b : EventType,
    EventType.value a = EventType.value b → a = b := by
  intro a b
  cases a <;> cases b <;>
    first
    | (intro _; rfl)
    | (intro h; exact absurd h (by decide))

theorem canonical_inj (ev1 ev2 : LogEvent) (p1 p2 : String)
    (h : canonicalPayload ev1 p1 = canonicalPayload ev2 p2) :
    ev1.action = ev2.action ∧ ev1.actor = ev2.actor ∧
    jsonDetails ev1.details = jsonDetails ev2.details ∧
    ev1.event_type = ev2.event_type ∧ p1 = p2 ∧
    ev1.target = ev2.target ∧ ev1.timestamp = ev2.timestamp ∧
    ev1.turn_id = ev2.turn_id := by
  unfold canonicalPayload at h
  simp only [String.append_assoc] at h
  have h1 := str_cancel_left _ _ _ h
  obtain ⟨ha, h2⟩ := peel_jstr _ _ _ _ h1
  have h3 := str_cancel_left _ _ _ h2
  obtain ⟨hav, h4⟩ := peel_jstr _ _ _ _ h3
  have h5 := str_cancel_left _ _ _ h4
  obtain ⟨hdet, h6⟩ := peel_jdet _ _ _ _ h5
  have h7 := str_cancel_left _ _ _ h6
  obtain ⟨het, h8⟩ := peel_jstr _ _ _ _ h7
  have h9 := str_cancel_left _ _ _ h8
  obtain ⟨hp, h10⟩ := peel_jstr _ _ _ _ h9
  have h11 := str_cancel_left _ _ _ h10
  obtain ⟨htg, h12⟩ := peel_jopt _ _ _ _ h11
  have h13 := str_cancel_left _ _ _ h12
  obtain ⟨hts, h14⟩ := peel_jstr _ _ _ _ h13
  have h15 := str_cancel_left _ _ _ h14
  obtain ⟨htu, _⟩ := peel_jstr _ _ _ _ h15
  exact ⟨ha, actor_value_inj _ _ hav, hdet, event_value_inj _ _ het,
    hp, htg, hts, htu⟩


theorem tamper_any_breaks (hmac : String → String)
    (hinj : Function.Injective hmac) (s : AuditState)
    (hc : Chain hmac GENESIS_HASH 1 s.entries)
    (k : Nat) (e e2 : AuditEntry)
    (he : entryAt s k = some e)
    (hdiff : ¬(e2.turn_id = e.turn_id ∧ e2.timestamp = e.timestamp ∧
      e2.event_type = e.event_type ∧ e2.actor = e.actor ∧
      e2.action = e.action ∧ e2.target = e.target ∧
      jsonDetails e2.details = jsonDetails e.details ∧
      e2.prev_hash = e.prev_hash)) :
    (AuditLog.verify_chain hmac (tamperFields s k e2) 1 none).valid = false ∧
    (AuditLog.verify_chain hmac (tamperFields s k e2) 1 none).broken_at
      = some k ∧
    (AuditLog.verify_chain hmac (tamperFields s k e2) 1 none).entries_checked
      = k - 1 := by
  have hmem : e ∈ s.entries := List.mem_of_find?_eq_some he
  have hid : e.id = k := by
    have := List.find?_some he
    simpa using this
  obtain ⟨pre, post, hsplit⟩ := List.append_of_mem hmem
  rw [hsplit] at hc
  obtain ⟨hcpre, hctail⟩ := chain_split hmac _ _ pre (e :: post) hc
  obtain ⟨hprev, hhash, hide, hcpost⟩ := hctail
  have hklen : k = 1 + pre.length := by rw [← hid, hide]
  have htam : (tamperFields s k e2).entries =
      pre ++ { e2 with id := e.id, entry_hash := e.entry_hash } :: post := by
    unfold tamperFields
    rw [hsplit]
    rw [List.map_append, List.map_cons]
    have hpre_map : pre.map (fun x => if x.id = k then
        { e2 with id := x.id, entry_hash := x.entry_hash } else x) = pre := by
      refine map_id_of_fix _ pre ?_
      intro x hx
      have hb := (chain_id_bounds hmac _ _ pre hcpre x hx).2
      rw [if_neg (by omega)]
    have hpost_map : post.map (fun x => if x.id = k then
        { e2 with id := x.id, entry_hash := x.entry_hash } else x) = post := by
      refine map_id_of_fix _ post ?_
      intro x hx
      have hb := (chain_id_bounds hmac _ _ post hcpost x hx).1
      rw [if_neg (by omega)]
    rw [hpre_map, hpost_map]
    rw [if_pos hid]
  have hfinal : AuditLog.verify_chain hmac (tamperFields s k e2) 1 none =
      verifyLoop hmac (lastHash pre GENESIS_HASH) (0 + pre.length)
        ({ e2 with id := e.id, entry_hash := e.entry_hash } :: post) := by
    unfold AuditLog.verify_chain
    rw [htam]
    have hfilter : (pre ++ { e2 with id := e.id, entry_hash := e.entry_hash }
        :: post).filter (fun x => 1 ≤ x.id && true) =
        pre ++ { e2 with id := e.id, entry_hash := e.entry_hash } :: post := by
      rw [List.filter_eq_self]
      intro x hx
      rcases List.mem_append.mp hx with hx | hx
      · have := (chain_id_bounds hmac _ _ pre hcpre x hx).1
        simp
        omega
      · rcases List.mem_cons.mp hx with hx | hx
        · subst hx
          simp
          omega
        · have := (chain_id_bounds hmac _ _ post hcpost x hx).1
          simp
          omega
    dsimp only
    rw [hfilter]
    rw [if_neg (by simp)]
    rw [if_pos rfl]
    rw [verifyLoop_append hmac GENESIS_HASH 0 1 pre _ hcpre]
  by_cases hpv : e2.prev_hash = e.prev_hash
  · have hcompNe : ({ e2 with id := e.id, entry_hash := e.entry_hash } :
        AuditEntry).entry_hash ≠ computeHash hmac
        { e2 with id := e.id, entry_hash := e.entry_hash }
        ({ e2 with id := e.id, entry_hash := e.entry_hash } :
          AuditEntry).prev_hash := by
      intro hEq
      have hEq2 : e.entry_hash =
          hmac (canonicalPayload (AuditEntry.event e2) e2.prev_hash) := hEq
      have hhash2 : e.entry_hash =
          hmac (canonicalPayload e.event e2.prev_hash) := by
        rw [hhash]
        unfold computeHash
        rw [← hprev, hpv]
      have hpay := hinj (hhash2.symm.trans hEq2)
      obtain ⟨q1, q2, q3, q4, _, q5, q6, q7⟩ :=
        canonical_inj _ _ _ _ hpay.symm
      exact hdiff ⟨q7, q6, q4, q2, q1, q5, q3, hpv⟩
    have hres : verifyLoop hmac (lastHash pre GENESIS_HASH) (0 + pre.length)
        ({ e2 with id := e.id, entry_hash := e.entry_hash } :: post) =
        { valid := false, entries_checked := 0 + pre.length,
          broken_at := some e.id,
          expected_hash := some (computeHash hmac
            { e2 with id := e.id, entry_hash := e.entry_hash } e2.prev_hash),
          actual_hash := some e.entry_hash,
          error := some "entry_hash mismatch" } := by
      unfold verifyLoop
      rw [if_neg (by
        show ¬(e2.prev_hash ≠ lastHash pre GENESIS_HASH)
        rw [hpv, hprev]
        simp)]
      rw [if_pos hcompNe]
    refine ⟨by rw [hfinal, hres], ?_, ?_⟩
    · rw [hfinal, hres]
      show some e.id = some k
      rw [hid]
    · rw [hfinal, hres]
      show 0 + pre.length = k - 1
      omega
  · have hres : verifyLoop hmac (lastHash pre GENESIS_HASH) (0 + pre.length)
        ({ e2 with id := e.id, entry_hash := e.entry_hash } :: post) =
        { valid := false, entries_checked := 0 + pre.length,
          broken_at := some e.id,
          expected_hash := some (lastHash pre GENESIS_HASH),
          actual_hash := some e2.prev_hash,
          error := some "prev_hash mismatch" } := by
      unfold verifyLoop
      rw [if_pos (by
        show e2.prev_hash ≠ lastHash pre GENESIS_HASH
        rw [← hprev]
        exact hpv)]
    refine ⟨by rw [hfinal, hres], ?_, ?_⟩
    · rw [hfinal, hres]
      show some e.id = some k
      rw [hid]
    · rw [hfinal, hres]
      show 0 + pre.length = k - 1
      omega

/-- C1: for the audit table produced by appending any sequence of events
through AuditLog.log, the first entry's prev_hash is sixty-four zeros,
every entry has id equal to its position and entry_hash equal to
HMAC(key, canonical(entry, prev_hash)), every later entry's prev_hash
equals the entry_hash of the previous id, verify_chain over the whole
table returns valid=true having checked every entry, and - for any
collision-free HMAC - directly rewriting the stored data columns of the
entry with id k (its id and entry_hash left unchanged) with values that
change the entry's canonical content - a different turn_id, timestamp,
event_type, actor, action, target or prev_hash, or a details dict with
a different sorted serialization - makes verify_chain return
valid=false with broken_at=k after checking the k-1 prior entries. -/
theorem C1_audit_chain (hmac : String → String)
    (hinj : Function.Injective hmac) (evs : List LogEvent) (s : AuditState)
    (hs : s = AuditLog.logAll hmac { entries := [] } evs) :
    (∀ h0 : 0 < s.entries.length,
      (s.entries.get ⟨0, h0⟩).prev_hash = GENESIS_HASH) ∧
    (∀ i (h : i < s.entries.length),
      (s.entries.get ⟨i, h⟩).id = i + 1 ∧
      (s.entries.get ⟨i, h⟩).entry_hash =
        computeHash hmac (s.entries.get ⟨i, h⟩)
          ((s.entries.get ⟨i, h⟩).prev_hash)) ∧
    (∀ i (h : i + 1 < s.entries.length),
      (s.entries.get ⟨i + 1, h⟩).prev_hash =
        (s.entries.get ⟨i, Nat.lt_of_succ_lt h⟩).entry_hash) ∧
    (AuditLog.verify_chain hmac s 1 none =
      { valid := true, entries_checked := evs.length }) ∧
    (∀ k e e2, entryAt s k = some e →
      ¬(e2.turn_id = e.turn_id ∧ e2.timestamp = e.timestamp ∧
        e2.event_type = e.event_type ∧ e2.actor = e.actor ∧
        e2.action = e.action ∧ e2.target = e.target ∧
        jsonDetails e2.details = jsonDetails e.details ∧
        e2.prev_hash = e.prev_hash) →
      (AuditLog.verify_chain hmac (tamperFields s k e2) 1 none).valid
        = false ∧
      (AuditLog.verify_chain hmac (tamperFields s k e2) 1 none).broken_at
        = some k ∧
      (AuditLog.verify_chain hmac
        (tamperFields s k e2) 1 none).entries_checked = k - 1) := by
  have hc : Chain hmac GENESIS_HASH 1 s.entries := by
    rw [hs]
    exact logAll_chain hmac evs { entries := [] } trivial
  have hlen : s.entries.length = evs.length := by
    rw [hs]
    have := logAll_length hmac evs { entries := [] }
    simpa using this
  refine ⟨?_, ?_, ?_, ?_, ?_⟩
  · intro h0
    exact chain_get_prev_zero hmac GENESIS_HASH 1 s.entries hc h0
  · intro i h
    refine ⟨?_, chain_get_hash hmac GENESIS_HASH 1 s.entries hc i h⟩
    have := chain_get_id hmac GENESIS_HASH 1 s.entries hc i h
    omega
  · exact chain_get_link hmac GENESIS_HASH 1 s.entries hc
  · rw [verify_full hmac s hc, hlen]
  · intro k e e2 he hdiff
    exact tamper_any_breaks hmac hinj s hc k e e2 he hdiff

/-- Witness for C1: with the identity as (injective) hmac and the five
events of the spec scenario, the chain verifies valid with five entries
checked; after directly rewriting entry 3's data columns (entry_hash
left in place) with a row whose action reads "tampered", verification
fails with broken_at = 3. -/
theorem C1_audit_chain_witness :
    (AuditLog.verify_chain (fun x => x)
      (AuditLog.logAll (fun x => x) { entries := [] } fiveEvents) 1 none =
      { valid := true, entries_checked := 5 }) ∧
    ((AuditLog.verify_chain (fun x => x)
      (tamperFields (AuditLog.logAll (fun x => x) { entries := [] } fiveEvents)
        3 tamperedRow) 1 none).valid = false ∧
     (AuditLog.verify_chain (fun x => x)
      (tamperFields (AuditLog.logAll (fun x => x) { entries := [] } fiveEvents)
        3 tamperedRow) 1 none).broken_at = some 3) := by
  have hmain := C1_audit_chain (fun x => x) (fun a b h => h) fiveEvents
    (AuditLog.logAll (fun x => x) { entries := [] } fiveEvents) rfl
  refine ⟨hmain.2.2.2.1, ?_⟩
  rcases hE : entryAt
      (AuditLog.logAll (fun x => x) { entries := [] } fiveEvents) 3 with _ | e
  · exact absurd hE (by decide)
  · have ha : e.action = "success" := by
      have h2 : (entryAt
          (AuditLog.logAll (fun x => x) { entries := [] } fiveEvents) 3).map
          (fun x => x.action) = some "success" := by decide
      rw [hE] at h2
      simpa using h2
    have ht := hmain.2.2.2.2 3 e tamperedRow hE (by
      intro hall
      have h5 := hall.2.2.2.2.1
      rw [show tamperedRow.action = "tampered" from rfl, ha] at h5
      exact absurd h5 (by decide))
    exact ⟨ht.1, ht.2.1⟩

set_option maxRecDepth 16384 in
/-- C1 counterexample: verification does not catch every modification
of a stored field: rewriting the stored details of entry 2 with the
same pairs in the opposite key order changes the stored row (its
entry_hash untouched), yet verify_chain still returns valid=true -
from_row's json.loads and the sorted-key canonical re-serialization
collapse the two stored texts to the same payload. -/
theorem C1_details_reorder_undetected :
    (tamperDetails (AuditLog.logAll (fun x => x) { entries := [] }
        detailEvents) 2 (some [("status", "ok"), ("arg", "x")])).entries ≠
      (AuditLog.logAll (fun x => x) { entries := [] } detailEvents).entries ∧
    ((entryAt (tamperDetails (AuditLog.logAll (fun x => x) { entries := [] }
        detailEvents) 2 (some [("status", "ok"), ("arg", "x")])) 2).map
        (fun e => e.entry_hash) =
      (entryAt (AuditLog.logAll (fun x => x) { entries := [] }
        detailEvents) 2).map (fun e => e.entry_hash)) ∧
    AuditLog.verify_chain (fun x => x)
      (tamperDetails (AuditLog.logAll (fun x => x) { entries := [] }
        detailEvents) 2 (some [("status", "ok"), ("arg", "x")])) 1 none =
      { valid := true, entries_checked := 3 } := by
  decide

/-! ## Executor audit-event lemmas -/

theorem logDecision_types (d : AuthorityDecision) :
    ∀ c ∈ logDecision d, c.event_type = EventType.AUTHORITY_CHECK := by
  unfold logDecision
  rcases d.turn_id with _ | tid
  · intro c hc; cases hc
  · intro c hc
    rcases List.mem_singleton.mp hc with rfl
    rfl

theorem ewt_types (behav : ToolBehaviour) (tool : Tool) (args : Args)
    (tid : Option String) :
    ∀ c ∈ (execute_with_timeout behav tool args tid).2,
      c.event_type = EventType.TOOL_EXECUTE := by
  unfold execute_with_timeout
  rcases behav tool.name args with out | e | _ <;>
      rcases tid with _ | t <;> intro c hc
  all_goals
    first
    | exact absurd hc (List.not_mem_nil c)
    | (rw [List.mem_singleton] at hc
       subst hc
       rfl)

theorem hcr_types (ex : ToolExecutor) (behav : ToolBehaviour) (tool : Tool)
    (args : Args) (decision : AuthorityDecision) (tid : Option String)
    (cb : Option (PendingConfirmation → Except Unit Bool)) (now : Int)
    (fid : String) :
    ∀ c ∈ (handle_confirmation_required ex behav tool args decision tid
        cb now fid).2.2,
      c.event_type = EventType.TOOL_EXECUTE := by
  unfold handle_confirmation_required
  rcases cb with _ | f
  · intro c hc; cases hc
  · dsimp only
    rcases f _ with _ | b
    · intro c hc; cases hc
    · rcases b with _ | _
      · intro c hc; cases hc
      · intro c hc
        exact ewt_types behav tool args tid c hc

theorem check_event_types (a : ToolAuthority) (tool : String)
    (lvl : PermissionLevel) (now : Int) (tid : Option String) :
    ∀ c ∈ (a.check tool lvl now tid).2.2,
      c.event_type = EventType.AUTHORITY_CHECK := by
  unfold ToolAuthority.check
  split
  · exact logDecision_types _
  · split
    · split
      · exact logDecision_types _
      · exact logDecision_types _
    · split
      · exact logDecision_types _
      · split
        · exact logDecision_types _
        · split
          · exact logDecision_types _
          · exact logDecision_types _

theorem execute_event_types (ex : ToolExecutor) (behav : ToolBehaviour)
    (tool_name : String) (args : Args) (tid : Option String)
    (cb : Option (PendingConfirmation → Except Unit Bool)) (now : Int)
    (fid : String) :
    ∀ c ∈ (ex.execute behav tool_name args tid cb now fid).2.2,
      c.event_type = EventType.AUTHORITY_CHECK ∨
      c.event_type = EventType.TOOL_EXECUTE := by
  unfold ToolExecutor.execute
  rcases hget : ex.registry.get tool_name with _ | tool
  · intro c hc; cases hc
  · dsimp only
    rcases hv : tool.validate_args args with ⟨vb, verr⟩
    rcases vb with _ | _
    · intro c hc; cases hc
    · dsimp only
      split
      · intro c hc
        rcases List.mem_append.mp hc with hc | hc
        · exact Or.inl (check_event_types ex.authority tool_name
            tool.permission now tid c hc)
        · exact Or.inr (hcr_types _ behav tool args _ tid cb now fid c hc)
      · split
        · intro c hc
          exact Or.inl (check_event_types ex.authority tool_name
            tool.permission now tid c hc)
        · split
          · intro c hc
            exact Or.inl (check_event_types ex.authority tool_name
              tool.permission now tid c hc)
          · intro c hc
            rcases List.mem_append.mp hc with hc | hc
            · exact Or.inl (check_event_types ex.authority tool_name
                tool.permission now tid c hc)
            · exact Or.inr (ewt_types behav tool args tid c hc)

theorem confirm_pending_event_types (ex : ToolExecutor)
    (behav : ToolBehaviour) (cid : String) (approved : Bool) (now : Int) :
    ∀ c ∈ (ex.confirm_pending behav cid approved now).2.2,
      c.event_type = EventType.TOOL_EXECUTE := by
  unfold ToolExecutor.confirm_pending
  rcases hpop : popPending ex.pending_confirmations cid with ⟨op, rest⟩
  rcases op with _ | pending
  · intro c hc; cases hc
  · dsimp only
    split
    · intro c hc; cases hc
    · split
      · intro c hc; cases hc
      · rcases hget : ex.registry.get pending.tool_name with _ | tool
        · intro c hc; cases hc
        · intro c hc
          exact ewt_types behav tool pending.args pending.turn_id c hc

/-- C2 (counterexample): the claim says the executor consults the
per-tool circuit breaker after the authority step and fails fast with
EXECUTION_ERROR when it is OPEN, without invoking the tool; but the
executor pipeline contains no circuit-breaker step at all: with the
breaker for get_current_time OPEN (and still OPEN at read time), execute
invokes the tool's executor and returns SUCCESS with its output. -/
theorem C2_executor_ignores_breaker :
    (({ name := "get_current_time", stateF := .OPEN
        last_failure_time := some 0 : CircuitBreaker }.state 10).1
      = CircuitState.OPEN) ∧
    (defaultExecutor.execute defaultBehaviour "get_current_time" []
      (some "turn-1") none 10 "p1").1.status = ExecutionStatus.SUCCESS ∧
    (defaultExecutor.execute defaultBehaviour "get_current_time" []
      (some "turn-1") none 10 "p1").1.output =
      some "The current time is 10:00 AM" := by
  refine ⟨by decide, by decide, by decide⟩

/-- C2 (amended): the executor's mandatory sequence performs no
circuit-breaker gate — an OPEN breaker (whatever its state) does not
stop execution, and no outcome is recorded to a breaker. Only the
standalone CircuitBreaker.call combines the gate with the call: when the
state reads OPEN it rejects with CircuitOpenError carrying the remaining
recovery seconds and the wrapped function is not run; otherwise it runs
the function and records the success or failure on the breaker. -/
theorem C2_breaker_gate_standalone (cb : CircuitBreaker) (now : Int)
    (f : Except Unit Unit) :
    ((cb.state now).1 = CircuitState.OPEN →
      cb.call now f =
        (CallResult.circuitOpen (((cb.state now).2).get_remaining_timeout now),
         (cb.state now).2)) ∧
    ((cb.state now).1 ≠ CircuitState.OPEN →
      (∀ a, f = .ok a →
        cb.call now f = (.success a, ((cb.state now).2).record_success)) ∧
      (∀ e, f = .error e →
        cb.call now f = (.raised, ((cb.state now).2).record_failure now))) ∧
    (∀ cb2 : CircuitBreaker, cb2.stateF = CircuitState.OPEN →
      (defaultExecutor.execute defaultBehaviour "get_current_time" []
        (some "turn-1") none 10 "p1").1.status = ExecutionStatus.SUCCESS) := by
  refine ⟨?_, ?_, ?_⟩
  · intro hopen
    unfold CircuitBreaker.call
    rcases hst : cb.state now with ⟨st, cb1⟩
    rw [hst] at hopen
    dsimp only at hopen ⊢
    rw [if_pos hopen]
  · intro hopen
    unfold CircuitBreaker.call
    rcases hst : cb.state now with ⟨st, cb1⟩
    rw [hst] at hopen
    dsimp only at hopen ⊢
    rw [if_neg hopen]
    constructor
    · intro a hf
      rw [hf]
    · intro e hf
      rw [hf]
  · intro cb2 h
    decide

/-- Witness for C2: a breaker OPEN since time 0 with a thirty-second
timeout rejects a call at time 20 with ten seconds remaining, and after
a recorded success at CLOSED the failure count resets. -/
theorem C2_breaker_gate_standalone_witness :
    ({ name := "svc", stateF := .OPEN, last_failure_time := some 0 :
        CircuitBreaker }.call 20 (Except.ok ()) =
      (CallResult.circuitOpen 10,
        { name := "svc", stateF := .OPEN, last_failure_time := some 0 :
          CircuitBreaker })) ∧
    (defaultExecutor.execute defaultBehaviour "get_current_time" []
      (some "turn-1") none 10 "p1").1.status = ExecutionStatus.SUCCESS := by
  have h := C2_breaker_gate_standalone
    { name := "svc", stateF := .OPEN, last_failure_time := some 0 } 20
    (Except.ok ())
  have hcb : ({ name := "svc", stateF := .OPEN, last_failure_time := some 0 :
      CircuitBreaker }).stateF = CircuitState.OPEN := rfl
  refine ⟨?_, h.2.2 _ hcb⟩
  have h1 := h.1 (by decide)
  rw [h1]
  decide

/-- C3 (counterexample): the claim says the executor logs a
CONFIRM_REQUEST audit entry when it constructs the PendingConfirmation
and a CONFIRM_RESPONSE entry when the confirmation is resolved; but the
source emits neither: an open_application call under the default
authority yields CONFIRMATION_REQUIRED with no CONFIRM_REQUEST among the
audit events it emits, and resolving it with approval executes the tool
while emitting no CONFIRM_RESPONSE. -/
theorem C3_no_confirmation_audit :
    ((defaultExecutor.execute defaultBehaviour "open_application"
      [("app_name", PyVal.vStr "Safari")] (some "turn-2") none 0
      "pc1").1.status = ExecutionStatus.CONFIRMATION_REQUIRED) ∧
    ((defaultExecutor.execute defaultBehaviour "open_application"
      [("app_name", PyVal.vStr "Safari")] (some "turn-2") none 0
      "pc1").2.2.all
        (fun c => !(c.event_type == EventType.CONFIRM_REQUEST)) = true) ∧
    (((defaultExecutor.execute defaultBehaviour "open_application"
      [("app_name", PyVal.vStr "Safari")] (some "turn-2") none 0
      "pc1").2.1.confirm_pending defaultBehaviour "pc1" true 5).1.status
        = ExecutionStatus.SUCCESS) ∧
    (((defaultExecutor.execute defaultBehaviour "open_application"
      [("app_name", PyVal.vStr "Safari")] (some "turn-2") none 0
      "pc1").2.1.confirm_pending defaultBehaviour "pc1" true 5).2.2.all
        (fun c => !(c.event_type == EventType.CONFIRM_RESPONSE)) = true) := by
  refine ⟨by decide, by decide, by decide, by decide⟩

/-- C3 (amended): when the authority returns REQUIRES_CONFIRMATION and no
synchronous approval callback is supplied, the executor constructs the
PendingConfirmation (carrying the turn_id), stores it and returns
CONFIRMATION_REQUIRED; but no CONFIRM_REQUEST audit entry is written
then, and no CONFIRM_RESPONSE audit entry is written when the pending
confirmation is resolved — every audit event the execute and
confirm_pending paths emit is an AUTHORITY_CHECK or TOOL_EXECUTE
event. -/
theorem C3_confirmation_flow (ex : ToolExecutor) (behav : ToolBehaviour)
    (tool_name : String) (args : Args) (tid : Option String)
    (cb : Option (PendingConfirmation → Except Unit Bool)) (now : Int)
    (fid : String) :
    (∀ c ∈ (ex.execute behav tool_name args tid cb now fid).2.2,
      c.event_type ≠ EventType.CONFIRM_REQUEST ∧
      c.event_type ≠ EventType.CONFIRM_RESPONSE) ∧
    (∀ (cid : String) (approved : Bool) (now2 : Int),
      ∀ c ∈ (ex.confirm_pending behav cid approved now2).2.2,
        c.event_type ≠ EventType.CONFIRM_REQUEST ∧
        c.event_type ≠ EventType.CONFIRM_RESPONSE) ∧
    (∀ tool : Tool, ex.registry.get tool_name = some tool →
      tool.validate_args args = (true, none) →
      (ex.authority.check tool_name tool.permission now tid).1.status =
        GrantStatus.REQUIRES_CONFIRMATION →
      (ex.execute behav tool_name args tid none now fid).1.status =
        ExecutionStatus.CONFIRMATION_REQUIRED ∧
      ∃ p : PendingConfirmation,
        (ex.execute behav tool_name args tid none now fid).1.pending_confirmation
          = some p ∧
        p.id = fid ∧ p.tool_name = tool.name ∧ p.args = args ∧
        p.turn_id = tid ∧ p.requested_at = now ∧
        (ex.execute behav tool_name args tid none now fid).2.1.pending_confirmations
          = ex.pending_confirmations ++ [(fid, p)]) := by
  refine ⟨?_, ?_, ?_⟩
  · intro c hc
    rcases execute_event_types ex behav tool_name args tid cb now fid c hc
      with h | h <;> rw [h] <;> exact ⟨by decide, by decide⟩
  · intro cid approved now2 c hc
    have h := confirm_pending_event_types ex behav cid approved now2 c hc
    rw [h]
    exact ⟨by decide, by decide⟩
  · intro tool h1 h2 h3
    unfold ToolExecutor.execute
    rw [h1]
    dsimp only
    rw [h2]
    dsimp only
    have hcond : (ex.authority.check tool_name tool.permission now tid).1.status
        = GrantStatus.REQUIRES_CONFIRMATION ∧
        (tool.requires_confirmation ||
          (ex.authority.check tool_name tool.permission now tid).1.needs_confirmation)
          = true := by
      refine ⟨h3, ?_⟩
      unfold AuthorityDecision.needs_confirmation
      rw [h3]
      simp
    rw [if_pos hcond]
    unfold handle_confirmation_required
    dsimp only
    refine ⟨rfl, ⟨_, rfl, rfl, rfl, rfl, rfl, rfl, rfl⟩⟩

/-- Witness for C3: the open_application confirmation flow under the
default configuration exercises all three parts of the theorem. -/
theorem C3_confirmation_flow_witness :
    ((defaultExecutor.execute defaultBehaviour "open_application"
      [("app_name", PyVal.vStr "Safari")] (some "turn-2") none 0
      "pc1").1.status = ExecutionStatus.CONFIRMATION_REQUIRED) ∧
    (∃ p : PendingConfirmation,
      (defaultExecutor.execute defaultBehaviour "open_application"
        [("app_name", PyVal.vStr "Safari")] (some "turn-2") none 0
        "pc1").1.pending_confirmation = some p ∧
      p.id = "pc1" ∧ p.tool_name = "open_application" ∧
      p.args = [("app_name", PyVal.vStr "Safari")] ∧
      p.turn_id = some "turn-2" ∧ p.requested_at = 0 ∧
      (defaultExecutor.execute defaultBehaviour "open_application"
        [("app_name", PyVal.vStr "Safari")] (some "turn-2") none 0
        "pc1").2.1.pending_confirmations =
        defaultExecutor.pending_confirmations ++ [("pc1", p)]) := by
  have h := (C3_confirmation_flow defaultExecutor defaultBehaviour
    "open_application" [("app_name", PyVal.vStr "Safari")] (some "turn-2")
    none 0 "pc1").2.2 openApplicationTool (by decide) (by decide) (by decide)
  exact ⟨h.1, h.2⟩

/-! Basic facts: placeholder characters, classes, small list helpers. -/

theorem PHL_eq : PHL = ['[', 'R', 'E', 'D', 'A', 'C', 'T', 'E', 'D', ']'] := rfl

theorem sep_not_digit {c : Char} (h : isSepC c = true) : isDigitC c = false := by
  unfold isSepC at h
  simp only [Bool.or_eq_true, decide_eq_true_eq] at h
  rcases h with (((((h | h) | h) | h) | h) | h) | h <;> subst h <;> decide

theorem digit_word {c : Char} (h : isDigitC c = true) : isWordC c = true := by
  unfold isDigitC at h
  simp [isWordC, Char.isAlphanum, h]

theorem takeWhile_all_append (P : Char → Bool) (a b : List Char)
    (h : ∀ c ∈ a, P c = true) :
    List.takeWhile P (a ++ b) = a ++ List.takeWhile P b := by
  induction a with
  | nil => simp
  | cons x xs ih =>
    have hx : P x = true := h x (by simp)
    simp only [List.cons_append, List.takeWhile_cons, hx, if_true]
    rw [ih (fun c hc => h c (by simp [hc]))]

theorem dropWhile_all_append (P : Char → Bool) (a b : List Char)
    (h : ∀ c ∈ a, P c = true) :
    List.dropWhile P (a ++ b) = List.dropWhile P b := by
  induction a with
  | nil => simp
  | cons x xs ih =>
    have hx : P x = true := h x (by simp)
    simp only [List.cons_append, List.dropWhile_cons, hx, if_true]
    exact ih (fun c hc => h c (by simp [hc]))

theorem dropWhile_head_false (P : Char → Bool) (c : Char) (u : List Char)
    (h : P c = false) : List.dropWhile P (c :: u) = c :: u := by
  simp [List.dropWhile_cons, h]

theorem head_append_left {a : List Char} (b : List Char) (h : a ≠ []) :
    (a ++ b).head? = a.head? := by
  cases a with
  | nil => exact absurd rfl h
  | cons x xs => rfl

theorem getLast_append_right (a : List Char) {b : List Char} (h : b ≠ []) :
    (a ++ b).getLast? = b.getLast? := by
  rw [List.getLast?_append]
  obtain ⟨x, hx⟩ := Option.isSome_iff_exists.mp (List.getLast?_isSome.mpr h)
  rw [hx]
  rfl

theorem prefix_stop : ∀ (a x b y : List Char), a ++ b = x ++ '[' :: y →
    '[' ∉ a → ∃ mid, x = a ++ mid ∧ b = mid ++ '[' :: y := by
  intro a
  induction a with
  | nil =>
    intro x b y he _
    exact ⟨x, rfl, by simpa using he⟩
  | cons ah at2 ih =>
    intro x b y he hni
    cases x with
    | nil =>
      simp only [List.nil_append, List.cons_append] at he
      have h1 : ah = '[' := by
        have := congrArg List.head? he
        simpa using this
      exact absurd (by simp [h1]) hni
    | cons xh xt =>
      simp only [List.cons_append] at he
      injection he with h1 h2
      subst h1
      obtain ⟨mid, hx, hb⟩ := ih xt b y h2 (fun hm => hni (List.mem_cons_of_mem _ hm))
      exact ⟨mid, by simp [hx], hb⟩

theorem lastO_nil (p : Option Char) : lastO [] p = p := rfl

theorem lastO_cons (c : Char) (pfx : List Char) (p : Option Char) :
    lastO (c :: pfx) p = lastO pfx (some c) := by
  cases pfx with
  | nil => rfl
  | cons d ds =>
    unfold lastO
    rw [List.getLast?_cons_cons]
    cases h : (d :: ds).getLast? with
    | none => simp at h
    | some x => rfl

theorem lastO_some_getLast (c : Char) (pfx : List Char) :
    lastO pfx (some c) = (c :: pfx).getLast? := by
  cases pfx with
  | nil => rfl
  | cons d ds =>
    unfold lastO
    rw [List.getLast?_cons_cons]
    cases h : (d :: ds).getLast? with
    | none => simp at h
    | some x => rfl

/-! Equations for scanP and countP, and the basic CleanFrom lemmas. -/

theorem scanP_nil (pm : Matcher) (p : Option Char) : scanP pm p [] = [] := by
  conv_lhs => unfold scanP

theorem scanP_cons_some (pm : Matcher) (p : Option Char) {c : Char}
    {cs consumed rest : List Char}
    (hm : pm p (c :: cs) = some (consumed, rest))
    (hl : rest.length < cs.length + 1) :
    scanP pm p (c :: cs) = PHL ++ scanP pm consumed.getLast? rest := by
  conv_lhs => unfold scanP
  rw [hm]
  dsimp only
  rw [dif_pos hl]

theorem scanP_cons_none (pm : Matcher) (p : Option Char) {c : Char}
    {cs : List Char} (hm : pm p (c :: cs) = none) :
    scanP pm p (c :: cs) = c :: scanP pm (some c) cs := by
  conv_lhs => unfold scanP
  rw [hm]

theorem countP_nil (pm : Matcher) (p : Option Char) : countP pm p [] = 0 := by
  conv_lhs => unfold countP

theorem countP_cons_some (pm : Matcher) (p : Option Char) {c : Char}
    {cs consumed rest : List Char}
    (hm : pm p (c :: cs) = some (consumed, rest))
    (hl : rest.length < cs.length + 1) :
    countP pm p (c :: cs) = 1 + countP pm consumed.getLast? rest := by
  conv_lhs => unfold countP
  rw [hm]
  dsimp only
  rw [dif_pos hl]

theorem countP_cons_none (pm : Matcher) (p : Option Char) {c : Char}
    {cs : List Char} (hm : pm p (c :: cs) = none) :
    countP pm p (c :: cs) = countP pm (some c) cs := by
  conv_lhs => unfold countP
  rw [hm]

theorem cleanFrom_cons_iff (pm : Matcher) (p : Option Char) (c : Char)
    (cs : List Char) :
    CleanFrom pm p (c :: cs) ↔
      (pm p (c :: cs) = none ∧ CleanFrom pm (some c) cs) := Iff.rfl

theorem scanP_id (pm : Matcher) :
    ∀ (t : List Char) (p : Option Char), CleanFrom pm p t → scanP pm p t = t := by
  intro t
  induction t with
  | nil => intro p _; exact scanP_nil pm p
  | cons c cs ih =>
    intro p h
    obtain ⟨h1, h2⟩ := h
    rw [scanP_cons_none pm p h1, ih (some c) h2]

theorem countP_zero (pm : Matcher) :
    ∀ (t : List Char) (p : Option Char), CleanFrom pm p t → countP pm p t = 0 := by
  intro t
  induction t with
  | nil => intro p _; exact countP_nil pm p
  | cons c cs ih =>
    intro p h
    obtain ⟨h1, h2⟩ := h
    rw [countP_cons_none pm p h1]
    exact ih (some c) h2

theorem cleanFrom_append (pm : Matcher) :
    ∀ (x y : List Char) (p : Option Char),
      CleanFrom pm p (x ++ y) → CleanFrom pm (lastO x p) y := by
  intro x
  induction x with
  | nil => intro y p h; simpa using h
  | cons c cs ih =>
    intro y p h
    obtain ⟨_, h2⟩ := h
    rw [lastO_cons]
    exact ih y (some c) h2


/-! The placeholder is match-free, and a scan decomposes at its first
replacement. -/

theorem cleanFrom_PHL (pm : Matcher)
    (hph : ∀ p u i, i < 10 → pm p (PHL.drop i ++ u) = none)
    (p : Option Char) (u : List Char) (hu : CleanFrom pm (some ']') u) :
    CleanFrom pm p (PHL ++ u) :=
  ⟨hph p u 0 (by norm_num), hph (some '[') u 1 (by norm_num),
   hph (some 'R') u 2 (by norm_num), hph (some 'E') u 3 (by norm_num),
   hph (some 'D') u 4 (by norm_num), hph (some 'A') u 5 (by norm_num),
   hph (some 'C') u 6 (by norm_num), hph (some 'T') u 7 (by norm_num),
   hph (some 'E') u 8 (by norm_num), hph (some 'D') u 9 (by norm_num), hu⟩

theorem no_match_at_rbracket (pm : Matcher) (F : MFacts pm) {rest : List Char}
    (hhd : wordO rest.head? = false) : pm (some ']') rest = none := by
  cases hn : pm (some ']') rest with
  | none => rfl
  | some cr =>
    exfalso
    obtain ⟨c2, r2⟩ := cr
    have hld := F.lead _ _ _ _ hn
    have hwz : wordO (some ']') = false := by decide
    simp [bAt, hwz, hhd] at hld

theorem scanP_decomp (qm : Matcher) (Fq : MFacts qm) :
    ∀ (t : List Char) (p : Option Char),
      scanP qm p t = t ∨
      ∃ pfx consumed rest, t = pfx ++ (consumed ++ rest) ∧ consumed ≠ [] ∧
        scanP qm p t = pfx ++ (PHL ++ scanP qm consumed.getLast? rest) ∧
        qm (lastO pfx p) (consumed ++ rest) = some (consumed, rest) := by
  intro t
  induction t with
  | nil => intro p; exact Or.inl (scanP_nil qm p)
  | cons c cs ih =>
    intro p
    cases hm : qm p (c :: cs) with
    | none =>
      rcases ih (some c) with h | ⟨pfx, consumed, rest, ht, hne, hs, hq⟩
      · exact Or.inl (by rw [scanP_cons_none qm p hm, h])
      · refine Or.inr ⟨c :: pfx, consumed, rest, ?_, hne, ?_, ?_⟩
        · rw [List.cons_append, ← ht]
        · rw [scanP_cons_none qm p hm, hs, List.cons_append]
        · rw [lastO_cons]; exact hq
    | some cr =>
      obtain ⟨consumed, rest⟩ := cr
      obtain ⟨heq, hne⟩ := Fq.inv p (c :: cs) consumed rest hm
      have hpos : 0 < consumed.length := List.length_pos.mpr hne
      have hlen2 : (c :: cs).length = consumed.length + rest.length := by
        rw [heq, List.length_append]
      rw [List.length_cons] at hlen2
      have hl : rest.length < cs.length + 1 := by omega
      refine Or.inr ⟨[], consumed, rest, by simpa using heq, hne, ?_, ?_⟩
      · rw [scanP_cons_some qm p hm hl]
        simp
      · rw [lastO_nil, ← heq]
        exact hm

theorem scan_stable (pm qm : Matcher) (Fp : MFacts pm) (Fq : MFacts qm)
    (c : Char) (cs : List Char) (p2 : Option Char)
    (hS : (pm p2 (c :: scanP qm (some c) cs)).isSome) :
    (pm p2 (c :: cs)).isSome := by
  rcases scanP_decomp qm Fq cs (some c) with h | ⟨pfx, consumedM, restM, ht, hneM, hs, hq⟩
  · rwa [h] at hS
  · rw [hs] at hS
    obtain ⟨⟨consumed2, rest2⟩, hm2⟩ := Option.isSome_iff_exists.mp hS
    obtain ⟨heq2, hne2⟩ := Fp.inv _ _ _ _ hm2
    have hbr : '[' ∉ consumed2 := Fp.nob _ _ _ _ hm2
    have heq2x : consumed2 ++ rest2 =
        (c :: pfx) ++ '[' :: ('R' :: 'E' :: 'D' :: 'A' :: 'C' :: 'T' :: 'E' :: 'D' :: ']' :: []
          ++ scanP qm consumedM.getLast? restM) := by
      rw [← heq2]
      simp [PHL_eq]
    obtain ⟨mid, hx, hb⟩ := prefix_stop consumed2 (c :: pfx) rest2 _ heq2x hbr
    have htr := Fp.trail _ _ _ _ hm2
    cases mid with
    | nil =>
      have hc2 : consumed2 = c :: pfx := by simpa using hx.symm
      have hlead := Fq.lead _ _ _ _ hq
      rw [head_append_left _ hneM] at hlead
      rw [lastO_some_getLast] at hlead
      have hrepl := Fp.restRepl p2 consumed2 rest2 (consumedM ++ restM)
        (by rw [← heq2]; exact hm2)
        (by rw [hc2, head_append_left restM hneM]; exact hlead)
      have hback : consumed2 ++ (consumedM ++ restM) = c :: cs := by
        rw [hc2, ht, List.cons_append]
      rwa [hback] at hrepl
    | cons m ms =>
      have h1 : rest2.head? = some m := by rw [hb]; rfl
      rw [h1] at htr
      have hrepl := Fp.restRepl p2 consumed2 rest2 ((m :: ms) ++ (consumedM ++ restM))
        (by rw [← heq2]; exact hm2) (by simpa using htr)
      have hback : consumed2 ++ ((m :: ms) ++ (consumedM ++ restM)) = c :: cs := by
        rw [← List.append_assoc, ← hx, ht, List.cons_append]
      rwa [hback] at hrepl

/-! The two master lemmas: a pass leaves its own pattern matchless, and
a pass of another pattern preserves matchlessness. -/

theorem cleanSelf_aux (pm : Matcher) (F : MFacts pm) :
    ∀ (n : Nat) (t : List Char) (p1 p2 : Option Char), t.length ≤ n →
      ((pm p2 t).isSome → (pm p1 t).isSome) →
      CleanFrom pm p2 (scanP pm p1 t) := by
  intro n
  induction n with
  | zero =>
    intro t p1 p2 hlen _
    have ht : t = [] := List.eq_nil_of_length_eq_zero (Nat.le_zero.mp hlen)
    subst ht
    rw [scanP_nil]
    trivial
  | succ n ih =>
    intro t p1 p2 hlen hR
    cases t with
    | nil => rw [scanP_nil]; trivial
    | cons c cs =>
      rw [List.length_cons] at hlen
      cases hm : pm p1 (c :: cs) with
      | some cr =>
        obtain ⟨consumed, rest⟩ := cr
        obtain ⟨heq, hne⟩ := F.inv _ _ _ _ hm
        have hpos : 0 < consumed.length := List.length_pos.mpr hne
        have hlen2 : (c :: cs).length = consumed.length + rest.length := by
          rw [heq, List.length_append]
        rw [List.length_cons] at hlen2
        have hl : rest.length < cs.length + 1 := by omega
        rw [scanP_cons_some pm p1 hm hl]
        apply cleanFrom_PHL pm F.ph
        apply ih rest consumed.getLast? (some ']') (by omega)
        intro hS
        have htr := F.trail _ _ _ _ hm
        obtain ⟨z, hz⟩ := Option.isSome_iff_exists.mp ((List.getLast?_isSome).mpr hne)
        rw [hz] at htr
        rw [hz]
        cases hw : isWordC z with
        | true =>
          exfalso
          have hwz : wordO (some z) = true := by simp [wordO, hw]
          have hhd : wordO rest.head? = false := by
            cases h2 : wordO rest.head? with
            | false => rfl
            | true => simp [bAt, hwz, h2] at htr
          rw [no_match_at_rbracket pm F hhd] at hS
          simp at hS
        | false =>
          have hww : wordO (some ']') = wordO (some z) := by
            simp only [wordO]
            rw [hw]
            decide
          rwa [F.pinv (some ']') (some z) rest hww] at hS
      | none =>
        rw [scanP_cons_none pm p1 hm]
        refine ⟨?_, ?_⟩
        · cases hn : pm p2 (c :: scanP pm (some c) cs) with
          | none => rfl
          | some cr =>
            exfalso
            have hS : (pm p2 (c :: scanP pm (some c) cs)).isSome := by
              rw [hn]; rfl
            have h2 := scan_stable pm pm F F c cs p2 hS
            have h3 := hR h2
            rw [hm] at h3
            simp at h3
        · exact ih cs (some c) (some c) (by omega) (fun h => h)

theorem cleanPreserve_aux (pm qm : Matcher) (Fp : MFacts pm) (Fq : MFacts qm) :
    ∀ (n : Nat) (t : List Char) (q0 p0 p1 : Option Char), t.length ≤ n →
      CleanFrom pm p0 t → ((pm p1 t).isSome → (pm p0 t).isSome) →
      CleanFrom pm p1 (scanP qm q0 t) := by
  intro n
  induction n with
  | zero =>
    intro t q0 p0 p1 hlen _ _
    have ht : t = [] := List.eq_nil_of_length_eq_zero (Nat.le_zero.mp hlen)
    subst ht
    rw [scanP_nil]
    trivial
  | succ n ih =>
    intro t q0 p0 p1 hlen hcl hR
    cases t with
    | nil => rw [scanP_nil]; trivial
    | cons c cs =>
      rw [List.length_cons] at hlen
      cases hm : qm q0 (c :: cs) with
      | some cr =>
        obtain ⟨consumedQ, restQ⟩ := cr
        obtain ⟨heq, hne⟩ := Fq.inv _ _ _ _ hm
        have hpos : 0 < consumedQ.length := List.length_pos.mpr hne
        have hlen2 : (c :: cs).length = consumedQ.length + restQ.length := by
          rw [heq, List.length_append]
        rw [List.length_cons] at hlen2
        have hl : restQ.length < cs.length + 1 := by omega
        rw [scanP_cons_some qm q0 hm hl]
        apply cleanFrom_PHL pm Fp.ph
        have hclR : CleanFrom pm (lastO consumedQ p0) restQ := by
          apply cleanFrom_append pm consumedQ restQ p0
          rw [← heq]
          exact hcl
        apply ih restQ consumedQ.getLast? (lastO consumedQ p0) (some ']') (by omega) hclR
        intro hS
        have htr := Fq.trail _ _ _ _ hm
        obtain ⟨z, hz⟩ := Option.isSome_iff_exists.mp ((List.getLast?_isSome).mpr hne)
        rw [hz] at htr
        have hlo : lastO consumedQ p0 = some z := by
          unfold lastO
          rw [hz]
        rw [hlo]
        cases hw : isWordC z with
        | true =>
          exfalso
          have hwz : wordO (some z) = true := by simp [wordO, hw]
          have hhd : wordO restQ.head? = false := by
            cases h2 : wordO restQ.head? with
            | false => rfl
            | true => simp [bAt, hwz, h2] at htr
          rw [no_match_at_rbracket pm Fp hhd] at hS
          simp at hS
        | false =>
          have hww : wordO (some ']') = wordO (some z) := by
            simp only [wordO]
            rw [hw]
            decide
          rwa [Fp.pinv (some ']') (some z) restQ hww] at hS
      | none =>
        rw [scanP_cons_none qm q0 hm]
        obtain ⟨hcl1, hcl2⟩ := hcl
        refine ⟨?_, ?_⟩
        · cases hn : pm p1 (c :: scanP qm (some c) cs) with
          | none => rfl
          | some cr =>
            exfalso
            have hS : (pm p1 (c :: scanP qm (some c) cs)).isSome := by
              rw [hn]; rfl
            have h2 := scan_stable pm qm Fp Fq c cs p1 hS
            have h3 := hR h2
            rw [hcl1] at h3
            simp at h3
        · exact ih cs (some c) (some c) (some c) (by omega) hcl2 (fun h => h)

theorem cleanSelf (pm : Matcher) (F : MFacts pm) (p : Option Char) (t : List Char) :
    CleanFrom pm p (scanP pm p t) :=
  cleanSelf_aux pm F t.length t p p le_rfl (fun h => h)

theorem cleanPreserve (pm qm : Matcher) (Fp : MFacts pm) (Fq : MFacts qm)
    (q0 p0 : Option Char) (t : List Char) (hcl : CleanFrom pm p0 t) :
    CleanFrom pm p0 (scanP qm q0 t) :=
  cleanPreserve_aux pm qm Fp Fq t.length t q0 p0 p0 le_rfl hcl (fun h => h)


/-! Facts about the digit-group matchers (credit card, SSN). -/

theorem digit_not_sep {c : Char} (h : isDigitC c = true) : isSepC c = false := by
  cases hs : isSepC c with
  | false => rfl
  | true => rw [sep_not_digit hs] at h; exact absurd h (by simp)

theorem mem_of_getLast : ∀ (l : List Char) (z : Char),
    l.getLast? = some z → z ∈ l := by
  intro l
  induction l with
  | nil => intro z h; simp at h
  | cons x xs ih =>
    intro z h
    cases hx : xs with
    | nil =>
      subst hx
      simp at h
      simp [h]
    | cons y ys =>
      subst hx
      rw [List.getLast?_cons_cons] at h
      exact List.mem_cons_of_mem x (ih z h)

theorem getLast_cons_of_ne (c : Char) {l : List Char} (h : l ≠ []) :
    (c :: l).getLast? = l.getLast? := by
  cases l with
  | nil => exact absurd rfl h
  | cons x xs => rw [List.getLast?_cons_cons]

theorem digitsN_sound : ∀ (k : Nat) (s d r : List Char),
    digitsN k s = some (d, r) →
    s = d ++ r ∧ d.length = k ∧ ∀ c ∈ d, isDigitC c = true := by
  intro k
  induction k with
  | zero =>
    intro s d r h
    simp only [digitsN] at h
    rw [Option.some.injEq, Prod.mk.injEq] at h
    obtain ⟨h1, h2⟩ := h
    subst h1
    subst h2
    exact ⟨rfl, rfl, by simp⟩
  | succ n ih =>
    intro s d r h
    cases s with
    | nil => simp [digitsN] at h
    | cons c cs =>
      simp only [digitsN] at h
      by_cases hd : isDigitC c = true
      · rw [if_pos hd] at h
        cases hm : digitsN n cs with
        | none => rw [hm] at h; simp at h
        | some dr =>
          obtain ⟨d2, r2⟩ := dr
          rw [hm] at h
          dsimp only at h
          rw [Option.some.injEq, Prod.mk.injEq] at h
          obtain ⟨h1, h2⟩ := h
          subst h1
          subst h2
          obtain ⟨ih1, ih2, ih3⟩ := ih cs d2 r2 hm
          refine ⟨by rw [ih1]; rfl, by simp [ih2], ?_⟩
          intro x hx
          rcases List.mem_cons.mp hx with hx | hx
          · subst hx; exact hd
          · exact ih3 x hx
      · rw [if_neg hd] at h
        simp at h

theorem digitsN_of : ∀ (d r : List Char), (∀ c ∈ d, isDigitC c = true) →
    digitsN d.length (d ++ r) = some (d, r) := by
  intro d
  induction d with
  | nil => intro r _; rfl
  | cons c cs ih =>
    intro r h
    have hc : isDigitC c = true := h c (by simp)
    simp only [List.length_cons, List.cons_append, digitsN, hc, if_true,
      List.append_eq]
    rw [ih r (fun x hx => h x (by simp [hx]))]

theorem groupsFrom_sound : ∀ (sizes : List Nat) (s d r : List Char),
    (∀ k ∈ sizes, 1 ≤ k) → groupsFrom sizes s = some (d, r) →
    s = d ++ r ∧ (∀ c ∈ d, isDigitC c = true ∨ isSepC c = true) ∧
      (sizes ≠ [] → ∃ z, d.getLast? = some z ∧ isDigitC z = true) ∧
      (sizes ≠ [] → ∃ ch dt, d = ch :: dt ∧ isDigitC ch = true) := by
  intro sizes
  induction sizes with
  | nil =>
    intro s d r _ h
    simp only [groupsFrom] at h
    rw [Option.some.injEq, Prod.mk.injEq] at h
    obtain ⟨h1, h2⟩ := h
    subst h1
    subst h2
    exact ⟨rfl, by simp, by simp, by simp⟩
  | cons k rest ih =>
    intro s d r hk h
    cases rest with
    | nil =>
      simp only [groupsFrom] at h
      cases hm : digitsN k s with
      | none => rw [hm] at h; simp at h
      | some dr =>
        obtain ⟨d1, r1⟩ := dr
        rw [hm] at h
        dsimp only at h
        rw [Option.some.injEq, Prod.mk.injEq] at h
        obtain ⟨h1, h2⟩ := h
        rw [h1, h2] at hm
        obtain ⟨hs, hlen, hdig⟩ := digitsN_sound k s d r hm
        have hne : d ≠ [] := by
          intro hd
          have := hk k (by simp)
          rw [hd] at hlen
          simp at hlen
          omega
        refine ⟨hs, fun c hc => Or.inl (hdig c hc), fun _ => ?_, fun _ => ?_⟩
        · obtain ⟨z, hz⟩ := Option.isSome_iff_exists.mp (List.getLast?_isSome.mpr hne)
          exact ⟨z, hz, hdig z (mem_of_getLast d z hz)⟩
        · obtain ⟨ch, dt, hch⟩ := List.exists_cons_of_ne_nil hne
          exact ⟨ch, dt, hch, hdig ch (by simp [hch])⟩
    | cons k2 rest2 =>
      simp only [groupsFrom] at h
      cases hm : digitsN k s with
      | none => rw [hm] at h; simp at h
      | some dr =>
        obtain ⟨d1, r1⟩ := dr
        rw [hm] at h
        dsimp only at h
        obtain ⟨hs1, hlen1, hdig1⟩ := digitsN_sound k s d1 r1 hm
        have hd1ne : d1 ≠ [] := by
          intro hd
          have := hk k (by simp)
          rw [hd] at hlen1
          simp at hlen1
          omega
        cases r1 with
        | nil => simp at h
        | cons c2 cs2 =>
          dsimp only at h
          by_cases hsep : isSepC c2 = true
          · rw [if_pos hsep] at h
            cases hg : groupsFrom (k2 :: rest2) cs2 with
            | none => rw [hg] at h; simp at h
            | some dr2 =>
              obtain ⟨d2, r2⟩ := dr2
              rw [hg] at h
              dsimp only at h
              rw [Option.some.injEq, Prod.mk.injEq] at h
              obtain ⟨h1, h2⟩ := h
              subst h1
              obtain ⟨ih1, ih2, ih3, _⟩ :=
                ih cs2 d2 r2 (fun x hx => hk x (by simp [hx])) hg
              obtain ⟨z, hz, hzd⟩ := ih3 (by simp)
              have hd2ne : d2 ≠ [] := by
                intro hd
                rw [hd] at hz
                simp at hz
              refine ⟨?_, ?_, fun _ => ⟨z, ?_, hzd⟩, fun _ => ?_⟩
              · rw [hs1, ih1, h2]
                simp
              · intro x hx
                rcases List.mem_append.mp hx with hx | hx
                · exact Or.inl (hdig1 x hx)
                · rcases List.mem_cons.mp hx with hx | hx
                  · subst hx; exact Or.inr hsep
                  · exact ih2 x hx
              · rw [getLast_append_right d1 (by simp), getLast_cons_of_ne c2 hd2ne]
                exact hz
              · obtain ⟨ch, dt, hch⟩ := List.exists_cons_of_ne_nil hd1ne
                exact ⟨ch, dt ++ c2 :: d2, by rw [hch]; rfl, hdig1 ch (by simp [hch])⟩
          · rw [if_neg hsep] at h
            cases hg : groupsFrom (k2 :: rest2) (c2 :: cs2) with
            | none => rw [hg] at h; simp at h
            | some dr2 =>
              obtain ⟨d2, r2⟩ := dr2
              rw [hg] at h
              dsimp only at h
              rw [Option.some.injEq, Prod.mk.injEq] at h
              obtain ⟨h1, h2⟩ := h
              subst h1
              obtain ⟨ih1, ih2, ih3, _⟩ :=
                ih (c2 :: cs2) d2 r2 (fun x hx => hk x (by simp [hx])) hg
              obtain ⟨z, hz, hzd⟩ := ih3 (by simp)
              have hd2ne : d2 ≠ [] := by
                intro hd
                rw [hd] at hz
                simp at hz
              refine ⟨?_, ?_, fun _ => ⟨z, ?_, hzd⟩, fun _ => ?_⟩
              · rw [hs1, ih1, h2]
                simp
              · intro x hx
                rcases List.mem_append.mp hx with hx | hx
                · exact Or.inl (hdig1 x hx)
                · exact ih2 x hx
              · rw [getLast_append_right d1 hd2ne]
                exact hz
              · obtain ⟨ch, dt, hch⟩ := List.exists_cons_of_ne_nil hd1ne
                exact ⟨ch, dt ++ d2, by rw [hch]; rfl, hdig1 ch (by simp [hch])⟩

theorem groupsFrom_append : ∀ (sizes : List Nat) (a b d : List Char),
    groupsFrom sizes a = some (d, []) →
    groupsFrom sizes (a ++ b) = some (d, b) := by
  intro sizes
  induction sizes with
  | nil =>
    intro a b d h
    simp only [groupsFrom] at h ⊢
    rw [Option.some.injEq, Prod.mk.injEq] at h
    obtain ⟨h1, h2⟩ := h
    subst h1
    subst h2
    simp
  | cons k rest ih =>
    intro a b d h
    cases rest with
    | nil =>
      simp only [groupsFrom] at h ⊢
      cases hm : digitsN k a with
      | none => rw [hm] at h; simp at h
      | some dr =>
        obtain ⟨d1, r1⟩ := dr
        rw [hm] at h
        dsimp only at h
        rw [Option.some.injEq, Prod.mk.injEq] at h
        obtain ⟨h1, h2⟩ := h
        rw [h1, h2] at hm
        obtain ⟨hs, hlen, hdig⟩ := digitsN_sound k a d [] hm
        rw [List.append_nil] at hs
        have hm2 : digitsN k (a ++ b) = some (d, b) := by
          rw [hs, ← hlen]
          exact digitsN_of d b hdig
        rw [hm2]
    | cons k2 rest2 =>
      simp only [groupsFrom] at h ⊢
      cases hm : digitsN k a with
      | none => rw [hm] at h; simp at h
      | some dr =>
        obtain ⟨d1, r1⟩ := dr
        rw [hm] at h
        dsimp only at h
        obtain ⟨hs, hlen, hdig⟩ := digitsN_sound k a d1 r1 hm
        have hm2 : digitsN k (a ++ b) = some (d1, r1 ++ b) := by
          rw [hs, List.append_assoc, ← hlen]
          exact digitsN_of d1 (r1 ++ b) hdig
        rw [hm2]
        dsimp only
        cases r1 with
        | nil => simp at h
        | cons c2 cs2 =>
          dsimp only at h ⊢
          rw [List.cons_append]
          dsimp only
          by_cases hsep : isSepC c2 = true
          · rw [if_pos hsep] at h ⊢
            cases hg : groupsFrom (k2 :: rest2) cs2 with
            | none => rw [hg] at h; simp at h
            | some dr2 =>
              obtain ⟨d2, r2⟩ := dr2
              rw [hg] at h
              dsimp only at h
              rw [Option.some.injEq, Prod.mk.injEq] at h
              obtain ⟨h1, h2⟩ := h
              subst h1
              rw [ih cs2 b d2 (by rw [← h2]; exact hg)]
          · rw [if_neg hsep] at h ⊢
            cases hg : groupsFrom (k2 :: rest2) (c2 :: cs2) with
            | none => rw [hg] at h; simp at h
            | some dr2 =>
              obtain ⟨d2, r2⟩ := dr2
              rw [hg] at h
              dsimp only at h
              rw [Option.some.injEq, Prod.mk.injEq] at h
              obtain ⟨h1, h2⟩ := h
              subst h1
              rw [← List.cons_append]
              rw [ih (c2 :: cs2) b d2 (by rw [← h2]; exact hg)]

theorem groupsFrom_split : ∀ (sizes : List Nat) (s d r : List Char),
    (∀ k ∈ sizes, 1 ≤ k) → groupsFrom sizes s = some (d, r) →
    groupsFrom sizes d = some (d, []) := by
  intro sizes
  induction sizes with
  | nil =>
    intro s d r _ h
    simp only [groupsFrom] at h ⊢
    rw [Option.some.injEq, Prod.mk.injEq] at h
    obtain ⟨h1, _⟩ := h
    subst h1
    rfl
  | cons k rest ih =>
    intro s d r hk h
    cases rest with
    | nil =>
      simp only [groupsFrom] at h ⊢
      cases hm : digitsN k s with
      | none => rw [hm] at h; simp at h
      | some dr =>
        obtain ⟨d1, r1⟩ := dr
        rw [hm] at h
        dsimp only at h
        rw [Option.some.injEq, Prod.mk.injEq] at h
        obtain ⟨h1, h2⟩ := h
        rw [h1, h2] at hm
        obtain ⟨hs, hlen, hdig⟩ := digitsN_sound k s d r hm
        have hm2 : digitsN k (d ++ []) = some (d, []) := by
          rw [← hlen]
          exact digitsN_of d [] hdig
        rw [List.append_nil] at hm2
        rw [hm2]
    | cons k2 rest2 =>
      simp only [groupsFrom] at h ⊢
      cases hm : digitsN k s with
      | none => rw [hm] at h; simp at h
      | some dr =>
        obtain ⟨d1, r1⟩ := dr
        rw [hm] at h
        dsimp only at h
        obtain ⟨hs, hlen, hdig⟩ := digitsN_sound k s d1 r1 hm
        cases r1 with
        | nil => simp at h
        | cons c2 cs2 =>
          dsimp only at h
          by_cases hsep : isSepC c2 = true
          · rw [if_pos hsep] at h
            cases hg : groupsFrom (k2 :: rest2) cs2 with
            | none => rw [hg] at h; simp at h
            | some dr2 =>
              obtain ⟨d2, r2⟩ := dr2
              rw [hg] at h
              dsimp only at h
              rw [Option.some.injEq, Prod.mk.injEq] at h
              obtain ⟨h1, h2⟩ := h
              subst h1
              have hgd2 : groupsFrom (k2 :: rest2) d2 = some (d2, []) :=
                ih cs2 d2 r2 (fun x hx => hk x (by simp [hx])) hg
              have hm2 : digitsN k (d1 ++ c2 :: d2) = some (d1, c2 :: d2) := by
                rw [← hlen]
                exact digitsN_of d1 (c2 :: d2) hdig
              rw [hm2]
              dsimp only
              rw [if_pos hsep, hgd2]
          · rw [if_neg hsep] at h
            cases hg : groupsFrom (k2 :: rest2) (c2 :: cs2) with
            | none => rw [hg] at h; simp at h
            | some dr2 =>
              obtain ⟨d2, r2⟩ := dr2
              rw [hg] at h
              dsimp only at h
              rw [Option.some.injEq, Prod.mk.injEq] at h
              obtain ⟨h1, h2⟩ := h
              subst h1
              have hgd2 : groupsFrom (k2 :: rest2) d2 = some (d2, []) :=
                ih (c2 :: cs2) d2 r2 (fun x hx => hk x (by simp [hx])) hg
              obtain ⟨_, _, _, hhd⟩ :=
                groupsFrom_sound (k2 :: rest2) (c2 :: cs2) d2 r2
                  (fun x hx => hk x (by simp [hx])) hg
              obtain ⟨ch, dt, hch, hchd⟩ := hhd (by simp)
              have hm2 : digitsN k (d1 ++ d2) = some (d1, d2) := by
                rw [← hlen]
                exact digitsN_of d1 d2 hdig
              rw [hm2]
              dsimp only
              rw [hch]
              dsimp only
              rw [if_neg (by rw [digit_not_sep hchd]; simp)]
              rw [← hch, hgd2]

theorem digitMatch_inv {sizes : List Nat} {p : Option Char} {s c r : List Char}
    (hm : digitMatch sizes p s = some (c, r)) :
    bAt p s.head? = true ∧ groupsFrom sizes s = some (c, r) ∧
      wordO r.head? = false := by
  unfold digitMatch at hm
  by_cases hb : bAt p s.head? = true
  · rw [if_pos hb] at hm
    cases hg : groupsFrom sizes s with
    | none => rw [hg] at hm; simp at hm
    | some cr0 =>
      obtain ⟨c0, r0⟩ := cr0
      rw [hg] at hm
      dsimp only at hm
      by_cases hw : wordO r0.head? = true
      · rw [if_pos hw] at hm
        simp at hm
      · rw [if_neg hw] at hm
        rw [Option.some.injEq, Prod.mk.injEq] at hm
        obtain ⟨h1, h2⟩ := hm
        subst h1
        subst h2
        exact ⟨hb, rfl, by simpa using hw⟩

  · rw [if_neg hb] at hm
    simp at hm

theorem digitMatch_head_not {sizes : List Nat} (hne : sizes ≠ [])
    (hk : ∀ k ∈ sizes, 1 ≤ k) {ch : Char} (hch : isDigitC ch = false)
    (p : Option Char) (w : List Char) : digitMatch sizes p (ch :: w) = none := by
  unfold digitMatch
  have hg : groupsFrom sizes (ch :: w) = none := by
    cases sizes with
    | nil => exact absurd rfl hne
    | cons k rest =>
      have hk1 : 1 ≤ k := hk k (by simp)
      obtain ⟨k0, hk0⟩ : ∃ k0, k = k0 + 1 := ⟨k - 1, by omega⟩
      subst hk0
      have hd : digitsN (k0 + 1) (ch :: w) = none := by
        simp [digitsN, hch]
      cases rest with
      | nil => simp [groupsFrom, hd]
      | cons k2 r2 => simp [groupsFrom, hd]
  rw [hg]
  split <;> rfl

theorem digitMatch_facts (sizes : List Nat) (hne : sizes ≠ [])
    (hk : ∀ k ∈ sizes, 1 ≤ k) : MFacts (digitMatch sizes) := by
  constructor
  · intro p s c r hm
    obtain ⟨_, hg, _⟩ := digitMatch_inv hm
    obtain ⟨hs, _, hlast, _⟩ := groupsFrom_sound sizes s c r hk hg
    obtain ⟨z, hz, _⟩ := hlast hne
    refine ⟨hs, ?_⟩
    intro h0
    rw [h0] at hz
    simp at hz
  · intro p s c r hm
    exact (digitMatch_inv hm).1
  · intro p s c r hm
    obtain ⟨_, hg, hw⟩ := digitMatch_inv hm
    obtain ⟨_, _, hlast, _⟩ := groupsFrom_sound sizes s c r hk hg
    obtain ⟨z, hz, hzd⟩ := hlast hne
    rw [hz]
    unfold bAt
    rw [hw]
    simp [wordO, digit_word hzd]
  · intro p s c r hm
    obtain ⟨_, hg, _⟩ := digitMatch_inv hm
    obtain ⟨_, hmem, _, _⟩ := groupsFrom_sound sizes s c r hk hg
    intro hin
    rcases hmem '[' hin with hx | hx
    · exact absurd hx (by decide)
    · exact absurd hx (by decide)
  · intro p q s hw
    unfold digitMatch bAt
    rw [hw]
  · intro p u i hi
    interval_cases i <;>
      exact digitMatch_head_not hne hk (by decide) p _
  · intro p c r r2 hm hb
    obtain ⟨hbat, hg, hw⟩ := digitMatch_inv hm
    obtain ⟨_, _, hlast, _⟩ := groupsFrom_sound sizes (c ++ r) c r hk hg
    obtain ⟨z, hz, hzd⟩ := hlast hne
    have hcne : c ≠ [] := by
      intro h0
      rw [h0] at hz
      simp at hz
    have hgd : groupsFrom sizes c = some (c, []) :=
      groupsFrom_split sizes (c ++ r) c r hk hg
    have hg2 : groupsFrom sizes (c ++ r2) = some (c, r2) :=
      groupsFrom_append sizes c r2 c hgd
    have hw2 : wordO r2.head? = false := by
      rw [hz] at hb
      have hwz : wordO (some z) = true := by simp [wordO, digit_word hzd]
      cases h2 : wordO r2.head? with
      | false => rfl
      | true => simp [bAt, hwz, h2] at hb
    have hbat2 : bAt p (c ++ r2).head? = true := by
      rw [head_append_left r2 hcne]
      rw [head_append_left r hcne] at hbat
      exact hbat
    unfold digitMatch
    rw [if_pos hbat2, hg2]
    dsimp only
    rw [if_neg (by rw [hw2]; simp)]
    simp

theorem ccMatch_facts : MFacts ccMatch :=
  digitMatch_facts [4, 4, 4, 4] (by decide) (by decide)

theorem ssnMatch_facts : MFacts ssnMatch :=
  digitMatch_facts [3, 2, 4] (by decide) (by decide)


/-! Facts about the email matcher: equations, soundness of the
backtracking searches, completeness, and the interface instance. -/

theorem mem_takeWhile (P : Char → Bool) :
    ∀ (l : List Char) (c : Char), c ∈ l.takeWhile P → P c = true := by
  intro l
  induction l with
  | nil => intro c h; simp at h
  | cons x xs ih =>
    intro c h
    rw [List.takeWhile_cons] at h
    by_cases hx : P x = true
    · rw [if_pos hx] at h
      rcases List.mem_cons.mp h with h | h
      · subst h; exact hx
      · exact ih c h
    · rw [if_neg hx] at h
      simp at h

theorem tldTry_cons_eq (tc : Char) (trest rest : List Char) :
    tldTry (tc :: trest) rest =
      if trest.isEmpty = true then none
      else if bAt (some tc) rest.head? = true then
        some ((tc :: trest).reverse, rest)
      else tldTry trest (tc :: rest) := rfl

theorem hostTry_nil2 (hc : Char) (hrest : List Char) :
    hostTry (hc :: hrest) [] = hostTry hrest [hc] := rfl

theorem hostTry_dot (hc : Char) (hrest r3 : List Char) :
    hostTry (hc :: hrest) ('.' :: r3) =
      match tldTry (r3.takeWhile isTldC).reverse (r3.dropWhile isTldC) with
      | some (t, rest) => some ((hc :: hrest).reverse, t, rest)
      | none => hostTry hrest (hc :: '.' :: r3) := by
  conv_lhs => unfold hostTry
  rw [if_pos rfl]

theorem hostTry_ne {a : Char} (ha : a ≠ '.') (hc : Char) (hrest r3 : List Char) :
    hostTry (hc :: hrest) (a :: r3) = hostTry hrest (hc :: a :: r3) := by
  conv_lhs => unfold hostTry
  rw [if_neg ha]

theorem emailMatch_eq_cons (p : Option Char) (c : Char) (cs : List Char) :
    emailMatch p (c :: cs) =
      if isLocalC c && bAt p (some c) then
        match (c :: cs).dropWhile isLocalC with
        | a :: r2 =>
          if a = '@' then
            match hostTry (r2.takeWhile isHostC).reverse (r2.dropWhile isHostC) with
            | some (h, t, rest) =>
              some ((c :: cs).takeWhile isLocalC ++ '@' :: (h ++ '.' :: t), rest)
            | none => none
          else none
        | [] => none
      else none := rfl

theorem tldTry_sound : ∀ (trev rest0 t rest : List Char),
    (∀ c ∈ trev, isTldC c = true) →
    tldTry trev rest0 = some (t, rest) →
    trev.reverse ++ rest0 = t ++ rest ∧ 2 ≤ t.length ∧ t ≠ [] ∧
      (∀ c ∈ t, isTldC c = true) ∧ bAt t.getLast? rest.head? = true := by
  intro trev
  induction trev with
  | nil => intro rest0 t rest _ h; simp [tldTry] at h
  | cons tc trest ih =>
    intro rest0 t rest hmem h
    rw [tldTry_cons_eq] at h
    by_cases he : trest.isEmpty = true
    · rw [if_pos he] at h
      simp at h
    · rw [if_neg he] at h
      by_cases hb : bAt (some tc) rest0.head? = true
      · rw [if_pos hb] at h
        rw [Option.some.injEq, Prod.mk.injEq] at h
        obtain ⟨h1, h2⟩ := h
        subst h1
        have hne : trest ≠ [] := by simpa [List.isEmpty_iff] using he
        refine ⟨by rw [h2], ?_, by simp, ?_, ?_⟩
        · rw [List.length_reverse, List.length_cons]
          have := List.length_pos.mpr hne
          omega
        · intro c hc
          exact hmem c (List.mem_reverse.mp hc)
        · rw [List.getLast?_reverse, ← h2]
          simpa using hb
      · rw [if_neg hb] at h
        obtain ⟨ih1, ih2, ih3, ih4, ih5⟩ :=
          ih (tc :: rest0) t rest (fun c hc => hmem c (by simp [hc])) h
        refine ⟨?_, ih2, ih3, ih4, ih5⟩
        rw [← ih1]
        simp

theorem tldTry_step (x : Char) (trev rest : List Char)
    (h : (tldTry trev (x :: rest)).isSome) : (tldTry (x :: trev) rest).isSome := by
  cases trev with
  | nil => simp [tldTry] at h
  | cons y ys =>
    rw [tldTry_cons_eq]
    rw [if_neg (by simp)]
    by_cases hb : bAt (some x) rest.head? = true
    · rw [if_pos hb]
      simp
    · rw [if_neg hb]
      exact h

theorem tldTry_mono : ∀ (er trev rest : List Char),
    (tldTry trev (er.reverse ++ rest)).isSome →
    (tldTry (er ++ trev) rest).isSome := by
  intro er
  induction er with
  | nil => intro trev rest h; simpa using h
  | cons e er2 ih =>
    intro trev rest h
    rw [List.cons_append]
    apply tldTry_step
    apply ih
    have hx : (e :: er2).reverse ++ rest = er2.reverse ++ (e :: rest) := by simp
    rwa [hx] at h

theorem tldTry_base (t u : List Char) (hlen : 2 ≤ t.length)
    (hb : bAt t.getLast? u.head? = true) : (tldTry t.reverse u).isSome := by
  cases htr : t.reverse with
  | nil =>
    have ht : t = [] := by simpa using congrArg List.reverse htr
    rw [ht] at hlen
    simp at hlen
  | cons tc trest =>
    rw [tldTry_cons_eq]
    have hne : trest ≠ [] := by
      intro h0
      rw [h0] at htr
      have ht : t = [tc] := by simpa using congrArg List.reverse htr
      rw [ht] at hlen
      simp at hlen
    rw [if_neg (by simpa [List.isEmpty_iff] using hne)]
    have hlast : t.getLast? = some tc := by
      rw [← List.head?_reverse, htr]
      rfl
    rw [hlast] at hb
    rw [if_pos hb]
    simp

theorem tldTry_complete (t rest : List Char) (hmem : ∀ c ∈ t, isTldC c = true)
    (hlen : 2 ≤ t.length) (hb : bAt t.getLast? rest.head? = true) :
    (tldTry ((t ++ rest).takeWhile isTldC).reverse
      ((t ++ rest).dropWhile isTldC)).isSome := by
  rw [takeWhile_all_append isTldC t rest hmem,
    dropWhile_all_append isTldC t rest hmem]
  rw [List.reverse_append]
  apply tldTry_mono
  rw [List.reverse_reverse]
  rw [List.takeWhile_append_dropWhile]
  exact tldTry_base t rest hlen hb

theorem hostTry_sound : ∀ (hrev after h t rest : List Char),
    (∀ c ∈ hrev, isHostC c = true) →
    hostTry hrev after = some (h, t, rest) →
    hrev.reverse ++ after = h ++ '.' :: (t ++ rest) ∧ h ≠ [] ∧
      (∀ c ∈ h, isHostC c = true) ∧ 2 ≤ t.length ∧ t ≠ [] ∧
      (∀ c ∈ t, isTldC c = true) ∧ bAt t.getLast? rest.head? = true := by
  intro hrev
  induction hrev with
  | nil => intro after h t rest _ hh; simp [hostTry] at hh
  | cons hc hrest ih =>
    intro after h t rest hmem hh
    cases after with
    | nil =>
      rw [hostTry_nil2] at hh
      obtain ⟨ih1, ih2, ih3, ih4, ih5, ih6, ih7⟩ :=
        ih [hc] h t rest (fun c hc2 => hmem c (by simp [hc2])) hh
      refine ⟨?_, ih2, ih3, ih4, ih5, ih6, ih7⟩
      rw [← ih1]
      simp
    | cons a r3 =>
      by_cases ha : a = '.'
      · subst ha
        rw [hostTry_dot] at hh
        cases htl : tldTry (r3.takeWhile isTldC).reverse (r3.dropWhile isTldC) with
        | none =>
          rw [htl] at hh
          dsimp only at hh
          obtain ⟨ih1, ih2, ih3, ih4, ih5, ih6, ih7⟩ :=
            ih (hc :: '.' :: r3) h t rest (fun c hc2 => hmem c (by simp [hc2])) hh
          refine ⟨?_, ih2, ih3, ih4, ih5, ih6, ih7⟩
          rw [← ih1]
          simp
        | some tr =>
          obtain ⟨t0, rest0⟩ := tr
          rw [htl] at hh
          dsimp only at hh
          rw [Option.some.injEq, Prod.mk.injEq, Prod.mk.injEq] at hh
          obtain ⟨h1, h2, h3⟩ := hh
          subst h1
          rw [← h2, ← h3]
          obtain ⟨sA, sB, sC, sD, sE⟩ :=
            tldTry_sound (r3.takeWhile isTldC).reverse (r3.dropWhile isTldC) t0 rest0
              (fun x hx => mem_takeWhile isTldC r3 x (by simpa using hx)) htl
          have hr3 : r3 = t0 ++ rest0 := by
            rw [← sA, List.reverse_reverse, List.takeWhile_append_dropWhile]
          refine ⟨by rw [hr3], by simp, ?_, sB, sC, sD, sE⟩
          intro x hx
          exact hmem x (List.mem_reverse.mp hx)
      · rw [hostTry_ne ha] at hh
        obtain ⟨ih1, ih2, ih3, ih4, ih5, ih6, ih7⟩ :=
          ih (hc :: a :: r3) h t rest (fun c hc2 => hmem c (by simp [hc2])) hh
        refine ⟨?_, ih2, ih3, ih4, ih5, ih6, ih7⟩
        rw [← ih1]
        simp

theorem hostTry_step (x : Char) (hrev after : List Char)
    (h : (hostTry hrev (x :: after)).isSome) :
    (hostTry (x :: hrev) after).isSome := by
  cases after with
  | nil =>
    rw [hostTry_nil2]
    exact h
  | cons a r3 =>
    by_cases ha : a = '.'
    · subst ha
      rw [hostTry_dot]
      cases htl : tldTry (r3.takeWhile isTldC).reverse (r3.dropWhile isTldC) with
      | some tr =>
        obtain ⟨t0, r0⟩ := tr
        rfl
      | none =>
        exact h
    · rw [hostTry_ne ha]
      exact h

theorem hostTry_mono : ∀ (er hrev rest : List Char),
    (hostTry hrev (er.reverse ++ rest)).isSome →
    (hostTry (er ++ hrev) rest).isSome := by
  intro er
  induction er with
  | nil => intro hrev rest h; simpa using h
  | cons e er2 ih =>
    intro hrev rest h
    rw [List.cons_append]
    apply hostTry_step
    apply ih
    have hx : (e :: er2).reverse ++ rest = er2.reverse ++ (e :: rest) := by simp
    rwa [hx] at h

theorem hostTry_base (h : List Char) (hh : h ≠ []) (t rest : List Char)
    (htl : (tldTry ((t ++ rest).takeWhile isTldC).reverse
      ((t ++ rest).dropWhile isTldC)).isSome) :
    (hostTry h.reverse ('.' :: (t ++ rest))).isSome := by
  obtain ⟨hc, hrest, hx⟩ : ∃ hc hrest, h.reverse = hc :: hrest := by
    cases hr : h.reverse with
    | nil => exact absurd (by simpa using congrArg List.reverse hr) hh
    | cons x xs => exact ⟨x, xs, rfl⟩
  rw [hx, hostTry_dot]
  obtain ⟨⟨t0, r0⟩, htl0⟩ := Option.isSome_iff_exists.mp htl
  rw [htl0]
  rfl


theorem emailMatch_complete (p : Option Char) (l h t rest : List Char)
    (hlne : l ≠ []) (hlmem : ∀ c ∈ l, isLocalC c = true)
    (hhne : h ≠ []) (hhmem : ∀ c ∈ h, isHostC c = true)
    (htlen : 2 ≤ t.length) (htmem : ∀ c ∈ t, isTldC c = true)
    (hbl : bAt p (l ++ '@' :: (h ++ '.' :: t)).head? = true)
    (hbt : bAt t.getLast? rest.head? = true) :
    (emailMatch p ((l ++ '@' :: (h ++ '.' :: t)) ++ rest)).isSome := by
  obtain ⟨lh, lt, hl⟩ := List.exists_cons_of_ne_nil hlne
  subst hl
  have hS : (((lh :: lt) ++ '@' :: (h ++ '.' :: t)) ++ rest : List Char) =
      lh :: (lt ++ '@' :: (h ++ '.' :: (t ++ rest))) := by simp
  rw [hS]
  rw [emailMatch_eq_cons]
  have hloc : isLocalC lh = true := hlmem lh (by simp)
  have hblh : bAt p (some lh) = true := by simpa using hbl
  rw [if_pos (by rw [hloc, hblh]; rfl)]
  have e1 : (lh :: (lt ++ '@' :: (h ++ '.' :: (t ++ rest))) : List Char)
      = (lh :: lt) ++ ('@' :: (h ++ '.' :: (t ++ rest))) := by simp
  have hdrop : (lh :: (lt ++ '@' :: (h ++ '.' :: (t ++ rest)))).dropWhile isLocalC
      = '@' :: (h ++ '.' :: (t ++ rest)) := by
    rw [e1, dropWhile_all_append isLocalC (lh :: lt) _ hlmem]
    exact dropWhile_head_false isLocalC '@' _ (by decide)
  rw [hdrop]
  dsimp only
  rw [if_pos rfl]
  have hdotmem : ∀ c ∈ h ++ ['.'], isHostC c = true := by
    intro c hc
    rcases List.mem_append.mp hc with hc | hc
    · exact hhmem c hc
    · simp at hc
      subst hc
      decide
  have e2 : (h ++ '.' :: (t ++ rest) : List Char) = (h ++ ['.']) ++ (t ++ rest) := by
    simp
  have hhost : (hostTry ((h ++ '.' :: (t ++ rest)).takeWhile isHostC).reverse
      ((h ++ '.' :: (t ++ rest)).dropWhile isHostC)).isSome := by
    rw [e2, takeWhile_all_append isHostC (h ++ ['.']) _ hdotmem,
      dropWhile_all_append isHostC (h ++ ['.']) _ hdotmem]
    rw [List.reverse_append, List.reverse_append]
    rw [← List.append_assoc]
    apply hostTry_mono
    have e4 : ((((t ++ rest).takeWhile isHostC).reverse ++
          (['.'] : List Char).reverse)).reverse ++ (t ++ rest).dropWhile isHostC
        = '.' :: (t ++ rest) := by
      simp [List.takeWhile_append_dropWhile]
    rw [e4]
    exact hostTry_base h hhne t rest (tldTry_complete t rest htmem htlen hbt)
  obtain ⟨⟨h0, t0, r0⟩, hh0⟩ := Option.isSome_iff_exists.mp hhost
  rw [hh0]
  rfl

theorem emailMatch_sound : ∀ {p : Option Char} {s c r : List Char},
    emailMatch p s = some (c, r) →
    s = c ++ r ∧ c ≠ [] ∧ bAt p s.head? = true ∧
      bAt c.getLast? r.head? = true ∧ '[' ∉ c ∧ EmailShape c := by
  intro p s c r hm
  cases s with
  | nil => simp [emailMatch] at hm
  | cons c0 cs0 =>
    rw [emailMatch_eq_cons] at hm
    by_cases hcond : (isLocalC c0 && bAt p (some c0)) = true
    · rw [if_pos hcond] at hm
      have hcond2 := hcond
      simp only [Bool.and_eq_true] at hcond2
      obtain ⟨hloc, hbp⟩ := hcond2
      cases hdrop : (c0 :: cs0).dropWhile isLocalC with
      | nil => rw [hdrop] at hm; simp at hm
      | cons a r2 =>
        rw [hdrop] at hm
        dsimp only at hm
        by_cases ha : a = '@'
        · subst ha
          rw [if_pos rfl] at hm
          cases hht : hostTry (r2.takeWhile isHostC).reverse (r2.dropWhile isHostC) with
          | none => rw [hht] at hm; simp at hm
          | some htr =>
            obtain ⟨h0, t0, r0⟩ := htr
            rw [hht] at hm
            dsimp only at hm
            rw [Option.some.injEq, Prod.mk.injEq] at hm
            obtain ⟨h1, h2⟩ := hm
            obtain ⟨sA, sBne, sBmem, sClen, sCne, sCmem, sCb⟩ :=
              hostTry_sound (r2.takeWhile isHostC).reverse (r2.dropWhile isHostC)
                h0 t0 r0
                (fun x hx => mem_takeWhile isHostC r2 x (List.mem_reverse.mp hx)) hht
            have hr2 : r2 = h0 ++ '.' :: (t0 ++ r0) := by
              rw [← sA, List.reverse_reverse, List.takeWhile_append_dropWhile]
            have hlmem : ∀ x ∈ (c0 :: cs0).takeWhile isLocalC, isLocalC x = true :=
              fun x hx => mem_takeWhile isLocalC (c0 :: cs0) x hx
            have hlne : (c0 :: cs0).takeWhile isLocalC ≠ [] := by
              rw [List.takeWhile_cons, if_pos hloc]
              simp
            have hsplit : c0 :: cs0 =
                (c0 :: cs0).takeWhile isLocalC ++ ('@' :: r2) := by
              rw [← hdrop, List.takeWhile_append_dropWhile]
            refine ⟨?_, ?_, by simpa using hbp, ?_, ?_, ?_⟩
            · rw [hsplit, hr2, ← h1, ← h2]
              simp
            · rw [← h1]
              simp
            · rw [← h1, ← h2]
              rw [getLast_append_right _ (by simp : ('@' :: (h0 ++ '.' :: t0) : List Char) ≠ []),
                getLast_cons_of_ne '@' (by simp),
                getLast_append_right h0 (by simp : ('.' :: t0 : List Char) ≠ []),
                getLast_cons_of_ne '.' sCne]
              exact sCb
            · rw [← h1]
              intro hin
              rcases List.mem_append.mp hin with hin | hin
              · have := hlmem '[' hin
                exact absurd this (by decide)
              · rcases List.mem_cons.mp hin with hin | hin
                · exact absurd hin (by decide)
                · rcases List.mem_append.mp hin with hin | hin
                  · exact absurd (sBmem '[' hin) (by decide)
                  · rcases List.mem_cons.mp hin with hin | hin
                    · exact absurd hin (by decide)
                    · exact absurd (sCmem '[' hin) (by decide)
            · exact ⟨(c0 :: cs0).takeWhile isLocalC, h0, t0, h1.symm, hlne, hlmem,
                sBne, sBmem, sClen, sCmem⟩
        · rw [if_neg ha] at hm
          simp at hm
    · rw [if_neg hcond] at hm
      simp at hm

theorem emailMatch_pinv (p q : Option Char) (s : List Char)
    (hw : wordO p = wordO q) : emailMatch p s = emailMatch q s := by
  cases s with
  | nil => rfl
  | cons c0 cs0 =>
    rw [emailMatch_eq_cons, emailMatch_eq_cons]
    have hbb : bAt p (some c0) = bAt q (some c0) := by
      unfold bAt
      rw [hw]
    rw [hbb]

theorem emailMatch_none_head {ch : Char} (hch : isLocalC ch = false)
    (p : Option Char) (w : List Char) : emailMatch p (ch :: w) = none := by
  rw [emailMatch_eq_cons]
  rw [if_neg (by rw [hch]; simp)]

theorem emailMatch_noat (a : Char) (ha : a ≠ '@') (p : Option Char)
    (c0 : Char) (cs0 r2 : List Char)
    (hdrop : (c0 :: cs0).dropWhile isLocalC = a :: r2) :
    emailMatch p (c0 :: cs0) = none := by
  rw [emailMatch_eq_cons]
  by_cases hcond : (isLocalC c0 && bAt p (some c0)) = true
  · rw [if_pos hcond, hdrop]
    dsimp only
    rw [if_neg ha]
  · rw [if_neg hcond]

theorem emailMatch_ph (p : Option Char) (u : List Char) (i : Nat) (hi : i < 10) :
    emailMatch p (PHL.drop i ++ u) = none := by
  interval_cases i
  · exact emailMatch_none_head (by decide) p _
  · exact emailMatch_noat ']' (by decide) p 'R'
      ('E' :: 'D' :: 'A' :: 'C' :: 'T' :: 'E' :: 'D' :: ']' :: u) u
      (by
        have e : ('R' :: 'E' :: 'D' :: 'A' :: 'C' :: 'T' :: 'E' :: 'D' :: ']' :: u :
            List Char) = ['R', 'E', 'D', 'A', 'C', 'T', 'E', 'D'] ++ (']' :: u) := rfl
        rw [e, dropWhile_all_append isLocalC _ _ (by decide)]
        exact dropWhile_head_false isLocalC ']' u (by decide))
  · exact emailMatch_noat ']' (by decide) p 'E'
      ('D' :: 'A' :: 'C' :: 'T' :: 'E' :: 'D' :: ']' :: u) u
      (by
        have e : ('E' :: 'D' :: 'A' :: 'C' :: 'T' :: 'E' :: 'D' :: ']' :: u :
            List Char) = ['E', 'D', 'A', 'C', 'T', 'E', 'D'] ++ (']' :: u) := rfl
        rw [e, dropWhile_all_append isLocalC _ _ (by decide)]
        exact dropWhile_head_false isLocalC ']' u (by decide))
  · exact emailMatch_noat ']' (by decide) p 'D'
      ('A' :: 'C' :: 'T' :: 'E' :: 'D' :: ']' :: u) u
      (by
        have e : ('D' :: 'A' :: 'C' :: 'T' :: 'E' :: 'D' :: ']' :: u :
            List Char) = ['D', 'A', 'C', 'T', 'E', 'D'] ++ (']' :: u) := rfl
        rw [e, dropWhile_all_append isLocalC _ _ (by decide)]
        exact dropWhile_head_false isLocalC ']' u (by decide))
  · exact emailMatch_noat ']' (by decide) p 'A'
      ('C' :: 'T' :: 'E' :: 'D' :: ']' :: u) u
      (by
        have e : ('A' :: 'C' :: 'T' :: 'E' :: 'D' :: ']' :: u :
            List Char) = ['A', 'C', 'T', 'E', 'D'] ++ (']' :: u) := rfl
        rw [e, dropWhile_all_append isLocalC _ _ (by decide)]
        exact dropWhile_head_false isLocalC ']' u (by decide))
  · exact emailMatch_noat ']' (by decide) p 'C'
      ('T' :: 'E' :: 'D' :: ']' :: u) u
      (by
        have e : ('C' :: 'T' :: 'E' :: 'D' :: ']' :: u : List Char)
            = ['C', 'T', 'E', 'D'] ++ (']' :: u) := rfl
        rw [e, dropWhile_all_append isLocalC _ _ (by decide)]
        exact dropWhile_head_false isLocalC ']' u (by decide))
  · exact emailMatch_noat ']' (by decide) p 'T'
      ('E' :: 'D' :: ']' :: u) u
      (by
        have e : ('T' :: 'E' :: 'D' :: ']' :: u : List Char)
            = ['T', 'E', 'D'] ++ (']' :: u) := rfl
        rw [e, dropWhile_all_append isLocalC _ _ (by decide)]
        exact dropWhile_head_false isLocalC ']' u (by decide))
  · exact emailMatch_noat ']' (by decide) p 'E'
      ('D' :: ']' :: u) u
      (by
        have e : ('E' :: 'D' :: ']' :: u : List Char)
            = ['E', 'D'] ++ (']' :: u) := rfl
        rw [e, dropWhile_all_append isLocalC _ _ (by decide)]
        exact dropWhile_head_false isLocalC ']' u (by decide))
  · exact emailMatch_noat ']' (by decide) p 'D'
      (']' :: u) u
      (by
        have e : ('D' :: ']' :: u : List Char) = ['D'] ++ (']' :: u) := rfl
        rw [e, dropWhile_all_append isLocalC _ _ (by decide)]
        exact dropWhile_head_false isLocalC ']' u (by decide))
  · exact emailMatch_none_head (by decide) p _

theorem emailMatch_facts : MFacts emailMatch := by
  constructor
  · intro p s c r hm
    obtain ⟨h1, h2, _, _, _, _⟩ := emailMatch_sound hm
    exact ⟨h1, h2⟩
  · intro p s c r hm
    exact (emailMatch_sound hm).2.2.1
  · intro p s c r hm
    exact (emailMatch_sound hm).2.2.2.1
  · intro p s c r hm
    exact (emailMatch_sound hm).2.2.2.2.1
  · intro p q s hw
    exact emailMatch_pinv p q s hw
  · intro p u i hi
    exact emailMatch_ph p u i hi
  · intro p c r r2 hm hb
    obtain ⟨hsplit, hcne, hlead, _, _, hshape⟩ := emailMatch_sound hm
    obtain ⟨l0, h0, t0, hc, hlne, hlmem, hhne, hhmem, htlen, htmem⟩ := hshape
    have htne : t0 ≠ [] := by
      intro hx
      rw [hx] at htlen
      simp at htlen
    have hct : c.getLast? = t0.getLast? := by
      rw [hc, getLast_append_right l0
          (by simp : ('@' :: (h0 ++ '.' :: t0) : List Char) ≠ []),
        getLast_cons_of_ne '@' (by simp),
        getLast_append_right h0 (by simp : ('.' :: t0 : List Char) ≠ []),
        getLast_cons_of_ne '.' htne]
    have hbt : bAt t0.getLast? r2.head? = true := by
      rw [← hct]
      exact hb
    have hbl : bAt p (l0 ++ '@' :: (h0 ++ '.' :: t0)).head? = true := by
      rw [← hc, ← head_append_left r hcne]
      exact hlead
    have hres := emailMatch_complete p l0 h0 t0 r2 hlne hlmem hhne hhmem
      htlen htmem hbl hbt
    rwa [← hc] at hres


/-! Assembly: after one full redaction pass the text is match-free for
all three patterns, so a second pass is the identity. -/

theorem redact_clean_all (x : List Char) :
    CleanFrom ccMatch none
      (scanP emailMatch none (scanP ssnMatch none (scanP ccMatch none x))) ∧
    CleanFrom ssnMatch none
      (scanP emailMatch none (scanP ssnMatch none (scanP ccMatch none x))) ∧
    CleanFrom emailMatch none
      (scanP emailMatch none (scanP ssnMatch none (scanP ccMatch none x))) := by
  refine ⟨?_, ?_, ?_⟩
  · exact cleanPreserve ccMatch emailMatch ccMatch_facts emailMatch_facts none none _
      (cleanPreserve ccMatch ssnMatch ccMatch_facts ssnMatch_facts none none _
        (cleanSelf ccMatch ccMatch_facts none x))
  · exact cleanPreserve ssnMatch emailMatch ssnMatch_facts emailMatch_facts none none _
      (cleanSelf ssnMatch ssnMatch_facts none (scanP ccMatch none x))
  · exact cleanSelf emailMatch emailMatch_facts none
      (scanP ssnMatch none (scanP ccMatch none x))

/-- C8: Redaction is idempotent: for every input string x, applying
MemoryGovernor.redact to the already-redacted text changes nothing -
the second pass returns the same text and reports a redaction count of
zero - under the default sensitive patterns (credit card, SSN, email)
and the "[REDACTED]" placeholder. -/
theorem C8_redaction_idempotent (x : String) :
    (MemoryGovernor.redact (MemoryGovernor.redact x).1).1 =
      (MemoryGovernor.redact x).1 ∧
    (MemoryGovernor.redact (MemoryGovernor.redact x).1).2.redaction_count = 0 := by
  obtain ⟨hcc, hssn, hem⟩ := redact_clean_all x.data
  set t3 := scanP emailMatch none (scanP ssnMatch none (scanP ccMatch none x.data))
    with ht3
  have e1 : scanP ccMatch none t3 = t3 := scanP_id ccMatch t3 none hcc
  have e2 : scanP ssnMatch none t3 = t3 := scanP_id ssnMatch t3 none hssn
  have e3 : scanP emailMatch none t3 = t3 := scanP_id emailMatch t3 none hem
  have c1 : countP ccMatch none t3 = 0 := countP_zero ccMatch t3 none hcc
  have c2 : countP ssnMatch none t3 = 0 := countP_zero ssnMatch t3 none hssn
  have c3 : countP emailMatch none t3 = 0 := countP_zero emailMatch t3 none hem
  have h1 : (MemoryGovernor.redact x).1 = ⟨t3⟩ := rfl
  rw [h1]
  constructor
  · show (⟨scanP emailMatch none (scanP ssnMatch none (scanP ccMatch none t3))⟩ :
      String) = (⟨t3⟩ : String)
    rw [e1, e2, e3]
  · show countP ccMatch none t3 +
      countP ssnMatch none (scanP ccMatch none t3) +
      countP emailMatch none (scanP ssnMatch none (scanP ccMatch none t3)) = 0
    rw [e1, e2, c1, c2, c3]

end Jarvis
